import Mathlib

/-!
# XMSS reference implementation (`xmss.c`, version 20150811): embedding and properties

The C functions of `xmss.c` are embedded as Lean functions over byte lists.

* A byte is a natural number; a buffer (`unsigned char *`) is a `List Nat`.
  Pointer arithmetic `p + k` is `List.drop k`; a read of `len` bytes at `p + off`
  is `rd p off len`; a write of a block at `p + off` is `wr p off block`.
* A local array declared without initialiser holds whatever the stack held before.
  It is built with `uninit prior len`, where `prior` is an arbitrary function giving
  the prior contents; every function with such locals takes an `Uninit` argument.
* The functions declared in `hash.h`, `prg.h` and `wots.h` are not part of `xmss.c`.
  They are the fields of `Primitives`: functions of the bytes their arguments point
  to, together with the number of bytes they store in their output buffer.
  An address is handed to them by value.
* `unsigned long long` lengths are naturals; the one place where the C arithmetic
  wraps (the subtractions in `xmss_sign_open`) uses `usub64`.
* `uint` and `int` quantities (`n`, `m`, `h`, `len`, offsets, loop counters) are
  naturals: the parameter sets keep `2 * 2^h * n` and every offset far below `2^31`,
  so no 32-bit operation wraps.
* A read that runs past the end of a list yields only the bytes that exist. In C such
  a read is undefined: `xmss_sign_open_checked` is `xmss_sign_open` with every access to
  the caller's buffers checked, and `none` stands for an access outside a buffer.
-/

namespace XMSS

abbrev Bytes := List Nat

/-- Byte `a[i]`. -/
def byte (a : Bytes) (i : Nat) : Nat := a.getD i 0

/-- The `len` bytes at `buf + off`. -/
def rd (buf : Bytes) (off len : Nat) : Bytes := (buf.drop off).take len

/-- Store `data` at `buf + off` (as `memcpy(buf + off, data, |data|)`). -/
def wr (buf : Bytes) (off : Nat) (data : Bytes) : Bytes :=
  buf.take off ++ data ++ buf.drop (off + data.length)

/-- Contents of a local array of `len` bytes that has no initialiser:
byte `i` is whatever byte `prior i` the stack held. -/
def uninit (prior : Nat → Nat) (len : Nat) : Bytes :=
  (List.range len).map (fun i => prior i % 256)

/-- Contents of a local `unsigned int` array of `len` entries without initialiser. -/
def uninit_words (prior : Nat → Nat) (len : Nat) : List Nat :=
  (List.range len).map (fun i => prior i % 2 ^ 32)

/-- Prior stack contents under the uninitialised locals of one call. -/
structure Uninit where
  ots_addr : Nat → Nat
  ltree_addr : Nat → Nat
  node_addr : Nat → Nat
  buf : Nat → Nat
  levels : Nat → Nat

/-- C's `a || b` on integers: 1 when either operand is non-zero, else 0. -/
def logical_or (a b : Nat) : Nat := if a ≠ 0 ∨ b ≠ 0 then 1 else 0

/-- Subtraction `a - b` on `unsigned long long`: wraps modulo 2^64 on underflow. -/
def usub64 (a b : Nat) : Nat := if b ≤ a then a - b else a + 2 ^ 64 - b

/-! ## Address macros (xmss.c lines 26-69) -/

def SET_OTS_BIT (a : Bytes) (b : Nat) : Bytes :=
  a.set 9 ((byte a 9 &&& 253) ||| (b <<< 1))

def SET_OTS_ADDRESS (a : Bytes) (v : Nat) : Bytes :=
  let a := a.set 12 ((byte a 12 &&& 1) ||| ((v <<< 1) &&& 255))
  let a := a.set 11 ((v >>> 7) &&& 255)
  let a := a.set 10 ((v >>> 15) &&& 255)
  a.set 9 ((byte a 9 &&& 254) ||| ((v >>> 23) &&& 1))

def ZEROISE_OTS_ADDR (a : Bytes) : Bytes :=
  let a := a.set 12 (byte a 12 &&& 254)
  let a := a.set 13 0
  let a := a.set 14 0
  a.set 15 0

def SET_LTREE_BIT (a : Bytes) (b : Nat) : Bytes :=
  a.set 9 ((byte a 9 &&& 254) ||| b)

def SET_LTREE_ADDRESS (a : Bytes) (v : Nat) : Bytes :=
  let a := a.set 12 (v &&& 255)
  let a := a.set 11 ((v >>> 8) &&& 255)
  a.set 10 ((v >>> 16) &&& 255)

def SET_LTREE_TREE_HEIGHT (a : Bytes) (v : Nat) : Bytes :=
  a.set 13 ((byte a 13 &&& 3) ||| ((v <<< 2) &&& 255))

def SET_LTREE_TREE_INDEX (a : Bytes) (v : Nat) : Bytes :=
  let a := a.set 15 ((byte a 15 &&& 3) ||| ((v <<< 2) &&& 255))
  let a := a.set 14 ((v >>> 6) &&& 255)
  a.set 13 ((byte a 13 &&& 252) ||| ((v >>> 14) &&& 3))

def SET_NODE_PADDING (a : Bytes) : Bytes :=
  let a := a.set 10 0
  a.set 11 (byte a 11 &&& 3)

def SET_NODE_TREE_HEIGHT (a : Bytes) (v : Nat) : Bytes :=
  let a := a.set 12 ((byte a 12 &&& 3) ||| ((v <<< 2) &&& 255))
  a.set 11 ((byte a 11 &&& 252) ||| ((v >>> 6) &&& 3))

def SET_NODE_TREE_INDEX (a : Bytes) (v : Nat) : Bytes :=
  let a := a.set 15 ((byte a 15 &&& 3) ||| ((v <<< 2) &&& 255))
  let a := a.set 14 ((v >>> 6) &&& 255)
  let a := a.set 13 ((v >>> 14) &&& 255)
  a.set 12 ((byte a 12 &&& 252) ||| ((v >>> 22) &&& 3))

/-! ## Parameters and external primitives -/

/-- The fields of `wots_params` that `xmss.c` reads. -/
structure wots_params where
  len : Nat
  keysize : Nat
deriving DecidableEq, Repr

/-- The struct `xmss_params`; `wots_par` is held by value. -/
structure xmss_params where
  h : Nat
  m : Nat
  n : Nat
  wots_par : wots_params
deriving DecidableEq, Repr

/-- The functions `xmss.c` calls from `prg.h`, `hash.h` and `wots.h`.
Each takes the bytes its pointer arguments designate and yields the bytes it stores
in its output buffer; the `_len` fields record how many bytes that is.

* `prg_with_counter outlen key addr` for `prg_with_counter(out, outlen, key, 32, addr)`
* `prf_m inp key keylen` for `prf_m(out, in, inlen, key, keylen)`
* `hash_m inp key keylen n` for `hash_m(out, in, inlen, key, keylen, n)`
* `hash_2n_n inp pub_seed addr n` for `hash_2n_n(out, in, pub_seed, addr, n)`
* `wots_pkgen seed wp pub_seed addr` for `wots_pkgen(pk, seed, wp, pub_seed, addr)`
* `wots_sign msg_h seed wp pub_seed addr` for `wots_sign(sig, msg_h, seed, wp, pub_seed, addr)`
* `wots_pkFromSig sig msg_h wp pub_seed addr` for
  `wots_pkFromSig(pk, sig, msg_h, wp, pub_seed, addr)` -/
structure Primitives where
  prg_with_counter : Nat → Bytes → Bytes → Bytes
  prf_m : Bytes → Bytes → Nat → Bytes
  hash_m : Bytes → Bytes → Nat → Nat → Bytes
  hash_2n_n : Bytes → Bytes → Bytes → Nat → Bytes
  wots_pkgen : Bytes → wots_params → Bytes → Bytes → Bytes
  wots_sign : Bytes → Bytes → wots_params → Bytes → Bytes → Bytes
  wots_pkFromSig : Bytes → Bytes → wots_params → Bytes → Bytes → Bytes
  prf_m_len : ∀ inp key keylen, (prf_m inp key keylen).length = keylen
  hash_2n_n_len : ∀ inp pub_seed addr n, (hash_2n_n inp pub_seed addr n).length = n
  wots_pkgen_len : ∀ seed wp pub_seed addr, (wots_pkgen seed wp pub_seed addr).length = wp.keysize
  wots_sign_len : ∀ msg_h seed wp pub_seed addr,
    (wots_sign msg_h seed wp pub_seed addr).length = wp.keysize
  wots_pkFromSig_len : ∀ sig msg_h wp pub_seed addr,
    (wots_pkFromSig sig msg_h wp pub_seed addr).length = wp.keysize

/-! ## get_seed, l_tree, gen_leaf_wots (xmss.c lines 76-153) -/

/-- Result of `get_seed`: the 32-byte seed and the caller's address after
`ZEROISE_OTS_ADDR`. -/
structure get_seed_result where
  seed : Bytes
  addr : Bytes

/-- The function `get_seed`. It hands `prg_with_counter` a key of 32 bytes and stores 32
bytes of seed whatever `n` is. The embedding is exact where `sk_seed` holds at least 32
bytes (`n >= 32` in `xmss_sign`, whose `sk_seed` and `ots_seed` arrays have `n` bytes); for a
shorter `sk_seed` the C code reads past the array, and `rd` yields the bytes that exist. -/
def get_seed (P : Primitives) (sk_seed addr : Bytes) : get_seed_result :=
  let addr := ZEROISE_OTS_ADDR addr
  { seed := P.prg_with_counter 32 (rd sk_seed 0 32) addr, addr := addr }

/-- Loop state of `l_tree`: the buffer `wots_pk`, the address, `l` and `height`. -/
structure l_tree_state where
  wots_pk : Bytes
  addr : Bytes
  l : Nat
  height : Nat

/-- The inner loop `for (i = 0; i < bound; i++)` of `l_tree`. -/
def l_tree_pairs (P : Primitives) (n : Nat) (pub_seed : Bytes) (bound : Nat)
    (wots_pk addr : Bytes) : Bytes × Bytes :=
  (List.range bound).foldl
    (fun st i =>
      let addr := SET_LTREE_TREE_INDEX st.2 i
      (wr st.1 (i * n) (P.hash_2n_n (rd st.1 (i * 2 * n) (2 * n)) pub_seed addr n), addr))
    (wots_pk, addr)

/-- One pass of the body of `while (l > 1)` in `l_tree`. -/
def l_tree_body (P : Primitives) (n : Nat) (pub_seed : Bytes) (st : l_tree_state) :
    l_tree_state :=
  let bound := st.l >>> 1
  let r := l_tree_pairs P n pub_seed bound st.wots_pk st.addr
  let pk := if st.l &&& 1 ≠ 0 then wr r.1 ((st.l >>> 1) * n) (rd r.1 ((st.l - 1) * n) n) else r.1
  let l := if st.l &&& 1 ≠ 0 then (st.l >>> 1) + 1 else st.l >>> 1
  let height := st.height + 1
  { wots_pk := pk, addr := SET_LTREE_TREE_HEIGHT r.2 height, l := l, height := height }

/-- The loop `while (l > 1)` of `l_tree`, run for at most `fuel` passes. -/
def l_tree_loop (P : Primitives) (n : Nat) (pub_seed : Bytes) :
    Nat → l_tree_state → l_tree_state
  | 0, st => st
  | fuel + 1, st =>
    if st.l > 1 then l_tree_loop P n pub_seed fuel (l_tree_body P n pub_seed st) else st

/-- Result of `l_tree`: the leaf, and the caller's `wots_pk` and `addr` as left behind. -/
structure l_tree_result where
  leaf : Bytes
  wots_pk : Bytes
  addr : Bytes

/-- The function `l_tree`. The loop is given `len` passes of fuel; `l` at least halves
(rounded up) in every pass, so the loop ends by its own test. -/
def l_tree (P : Primitives) (params : xmss_params) (wots_pk pub_seed addr : Bytes) :
    l_tree_result :=
  let l := params.wots_par.len
  let n := params.n
  let height := 0
  let addr := SET_LTREE_TREE_HEIGHT addr height
  let st := l_tree_loop P n pub_seed l { wots_pk := wots_pk, addr := addr, l := l, height := height }
  { leaf := rd st.wots_pk 0 n, wots_pk := st.wots_pk, addr := st.addr }

/-- Result of `gen_leaf_wots`: the leaf and the two addresses as left behind. -/
structure gen_leaf_result where
  leaf : Bytes
  ltree_addr : Bytes
  ots_addr : Bytes

def gen_leaf_wots (P : Primitives) (params : xmss_params) (sk_seed pub_seed : Bytes)
    (ltree_addr ots_addr : Bytes) : gen_leaf_result :=
  let s := get_seed P sk_seed ots_addr
  let pk := P.wots_pkgen s.seed params.wots_par pub_seed s.addr
  let t := l_tree P params pk pub_seed ltree_addr
  { leaf := t.leaf, ltree_addr := t.addr, ots_addr := s.addr }

/-! ## treehash (xmss.c lines 160-204) -/

/-- Loop state of `treehash`: the stack, its levels and offset, and the three addresses. -/
structure treehash_state where
  stack : Bytes
  stacklevels : List Nat
  stackoffset : Nat
  ots_addr : Bytes
  ltree_addr : Bytes
  node_addr : Bytes

/-- The loop `while (stackoffset > 1 && stacklevels[stackoffset-1] == stacklevels[stackoffset-2])`
of `treehash`, run for at most `fuel` passes. -/
def treehash_merge (P : Primitives) (n : Nat) (pub_seed : Bytes) (idx : Nat) :
    Nat → treehash_state → treehash_state
  | 0, st => st
  | fuel + 1, st =>
    if st.stackoffset > 1 ∧
        st.stacklevels.getD (st.stackoffset - 1) 0 = st.stacklevels.getD (st.stackoffset - 2) 0 then
      let node_addr := SET_NODE_TREE_HEIGHT st.node_addr (st.stacklevels.getD (st.stackoffset - 1) 0)
      let node_addr :=
        SET_NODE_TREE_INDEX node_addr (idx >>> (st.stacklevels.getD (st.stackoffset - 1) 0 + 1))
      let stack := wr st.stack ((st.stackoffset - 2) * n)
        (P.hash_2n_n (rd st.stack ((st.stackoffset - 2) * n) (2 * n)) pub_seed node_addr n)
      let stacklevels :=
        st.stacklevels.set (st.stackoffset - 2) (st.stacklevels.getD (st.stackoffset - 2) 0 + 1)
      treehash_merge P n pub_seed idx fuel
        { st with stack := stack, stacklevels := stacklevels,
                  stackoffset := st.stackoffset - 1, node_addr := node_addr }
    else st

/-- One pass of the body of `for (; idx < lastnode; idx++)` in `treehash`. The merge loop
removes one entry per pass and needs two, so `stackoffset` passes of fuel let it end by
its own test. -/
def treehash_step (P : Primitives) (params : xmss_params) (sk_seed pub_seed : Bytes)
    (st : treehash_state) (idx : Nat) : treehash_state :=
  let n := params.n
  let ltree_addr := SET_LTREE_ADDRESS st.ltree_addr idx
  let ots_addr := SET_OTS_ADDRESS st.ots_addr idx
  let g := gen_leaf_wots P params sk_seed pub_seed ltree_addr ots_addr
  let stack := wr st.stack (st.stackoffset * n) g.leaf
  let stacklevels := st.stacklevels.set st.stackoffset 0
  let stackoffset := st.stackoffset + 1
  treehash_merge P n pub_seed idx stackoffset
    { stack := stack, stacklevels := stacklevels, stackoffset := stackoffset,
      ots_addr := g.ots_addr, ltree_addr := g.ltree_addr, node_addr := st.node_addr }

/-- State of `treehash` when the leaf loop is entered. -/
def treehash_init (params : xmss_params) (u : Uninit) (height : Nat) (addr : Bytes) :
    treehash_state :=
  let n := params.n
  let ots_addr := wr (uninit u.ots_addr 16) 0 (rd addr 0 10)
  let ots_addr := SET_OTS_BIT ots_addr 1
  let ltree_addr := wr (uninit u.ltree_addr 16) 0 (rd addr 0 10)
  let ltree_addr := SET_OTS_BIT ltree_addr 0
  let ltree_addr := SET_LTREE_BIT ltree_addr 1
  let node_addr := wr (uninit u.node_addr 16) 0 (rd ltree_addr 0 10)
  let node_addr := SET_LTREE_BIT node_addr 0
  let node_addr := SET_NODE_PADDING node_addr
  { stack := uninit u.buf ((height + 1) * n),
    stacklevels := uninit_words u.levels (height + 1),
    stackoffset := 0,
    ots_addr := ots_addr, ltree_addr := ltree_addr, node_addr := node_addr }

/-- State of `treehash` when the leaf loop has ended: `idx` runs over
`index, ..., index + (1 << height) - 1`. -/
def treehash_final (P : Primitives) (params : xmss_params) (u : Uninit) (height index : Nat)
    (sk_seed pub_seed addr : Bytes) : treehash_state :=
  ((List.range (1 <<< height)).map (fun k => index + k)).foldl
    (treehash_step P params sk_seed pub_seed) (treehash_init params u height addr)

/-- The function `treehash`: the `n` bytes it stores in `node`. -/
def treehash (P : Primitives) (params : xmss_params) (u : Uninit) (height index : Nat)
    (sk_seed pub_seed addr : Bytes) : Bytes :=
  rd (treehash_final P params u height index sk_seed pub_seed addr).stack 0 params.n

/-! ## validate_authpath (xmss.c lines 209-257) -/

/-- Loop state of `validate_authpath`: `buffer`, `leafidx`, the moving `authpath`
pointer and the address. -/
structure validate_state where
  buffer : Bytes
  leafidx : Nat
  authpath : Bytes
  addr : Bytes

/-- One pass of the body of `for (i = 0; i < params->h - 1; i++)` in `validate_authpath`.
`buffer` is its two `n`-byte halves side by side. -/
def validate_step (P : Primitives) (n : Nat) (pub_seed : Bytes) (st : validate_state)
    (i : Nat) : validate_state :=
  let addr := SET_NODE_TREE_HEIGHT st.addr i
  let leafidx := st.leafidx >>> 1
  let addr := SET_NODE_TREE_INDEX addr leafidx
  let buffer :=
    if leafidx &&& 1 ≠ 0 then
      rd st.authpath 0 n ++ P.hash_2n_n st.buffer pub_seed addr n
    else
      P.hash_2n_n st.buffer pub_seed addr n ++ rd st.authpath 0 n
  { buffer := buffer, leafidx := leafidx, authpath := st.authpath.drop n, addr := addr }

/-- The function `validate_authpath` (for `params->h >= 1`): the bytes stored in `root`. -/
def validate_authpath (P : Primitives) (params : xmss_params) (leaf : Bytes) (leafidx : Nat)
    (authpath pub_seed addr : Bytes) : Bytes :=
  let n := params.n
  let buffer :=
    if leafidx &&& 1 ≠ 0 then rd authpath 0 n ++ rd leaf 0 n
    else rd leaf 0 n ++ rd authpath 0 n
  let st := (List.range (params.h - 1)).foldl (validate_step P n pub_seed)
    { buffer := buffer, leafidx := leafidx, authpath := authpath.drop n, addr := addr }
  let addr := SET_NODE_TREE_HEIGHT st.addr (params.h - 1)
  let leafidx := st.leafidx >>> 1
  let addr := SET_NODE_TREE_INDEX addr leafidx
  P.hash_2n_n st.buffer pub_seed addr n

/-! ## compute_authpath_wots (xmss.c lines 264-316) -/

/-- State of the leaf loop of `compute_authpath_wots`. -/
structure authpath_leaf_state where
  tree : Bytes
  ots_addr : Bytes
  ltree_addr : Bytes

/-- One pass of the body of `for (i = 0; i < (1<<h); i++)` in `compute_authpath_wots`. -/
def authpath_leaf_step (P : Primitives) (params : xmss_params) (sk_seed pub_seed : Bytes)
    (st : authpath_leaf_state) (i : Nat) : authpath_leaf_state :=
  let n := params.n
  let h := params.h
  let ltree_addr := SET_LTREE_ADDRESS st.ltree_addr i
  let ots_addr := SET_OTS_ADDRESS st.ots_addr i
  let g := gen_leaf_wots P params sk_seed pub_seed ltree_addr ots_addr
  { tree := wr st.tree ((1 <<< h) * n + i * n) g.leaf,
    ots_addr := g.ots_addr, ltree_addr := g.ltree_addr }

/-- The inner loop `for (j = 0; j < i; j += 2)` of `compute_authpath_wots`:
`j` runs over the even numbers below `i`. -/
def authpath_level (P : Primitives) (n : Nat) (pub_seed : Bytes) (i : Nat)
    (tree node_addr : Bytes) : Bytes × Bytes :=
  ((List.range ((i + 1) / 2)).map (fun t => 2 * t)).foldl
    (fun st j =>
      let node_addr := SET_NODE_TREE_INDEX st.2 (j >>> 1)
      (wr st.1 ((i >>> 1) * n + (j >>> 1) * n)
          (P.hash_2n_n (rd st.1 (i * n + j * n) (2 * n)) pub_seed node_addr n),
        node_addr))
    (tree, node_addr)

/-- State of the outer loop `for (i = (1<<h); i > 0; i >>= 1)` of
`compute_authpath_wots`. -/
structure authpath_tree_state where
  tree : Bytes
  node_addr : Bytes
  i : Nat
  level : Nat

/-- The outer loop `for (i = (1<<h); i > 0; i >>= 1)`, run for at most `fuel` passes. -/
def authpath_tree_loop (P : Primitives) (n : Nat) (pub_seed : Bytes) :
    Nat → authpath_tree_state → authpath_tree_state
  | 0, st => st
  | fuel + 1, st =>
    if st.i > 0 then
      let node_addr := SET_NODE_TREE_HEIGHT st.node_addr st.level
      let r := authpath_level P n pub_seed st.i st.tree node_addr
      authpath_tree_loop P n pub_seed fuel
        { tree := r.1, node_addr := r.2, i := st.i >>> 1, level := st.level + 1 }
    else st

/-- The buffer `tree` of `compute_authpath_wots` when both loops have ended. The outer
loop starts at `i = 1 << h` and halves `i`, so `h + 1` passes of fuel let it end by its
own test. -/
def authpath_tree (P : Primitives) (params : xmss_params) (u : Uninit)
    (sk_seed pub_seed addr : Bytes) : Bytes :=
  let n := params.n
  let h := params.h
  let tree := uninit u.buf (2 * (1 <<< h) * n)
  let ots_addr := wr (uninit u.ots_addr 16) 0 (rd addr 0 10)
  let ots_addr := SET_OTS_BIT ots_addr 1
  let ltree_addr := wr (uninit u.ltree_addr 16) 0 (rd addr 0 10)
  let ltree_addr := SET_OTS_BIT ltree_addr 0
  let ltree_addr := SET_LTREE_BIT ltree_addr 1
  let node_addr := wr (uninit u.node_addr 16) 0 (rd ltree_addr 0 10)
  let node_addr := SET_LTREE_BIT node_addr 0
  let node_addr := SET_NODE_PADDING node_addr
  let ls := (List.range (1 <<< h)).foldl (authpath_leaf_step P params sk_seed pub_seed)
    { tree := tree, ots_addr := ots_addr, ltree_addr := ltree_addr }
  (authpath_tree_loop P n pub_seed (h + 1)
    { tree := ls.tree, node_addr := node_addr, i := 1 <<< h, level := 0 }).tree

/-- Result of `compute_authpath_wots`: the bytes stored in `root` and in `authpath`. -/
structure authpath_result where
  root : Bytes
  authpath : Bytes

/-- The function `compute_authpath_wots`. -/
def compute_authpath_wots (P : Primitives) (params : xmss_params) (u : Uninit)
    (leaf_idx : Nat) (sk_seed pub_seed addr : Bytes) : authpath_result :=
  let n := params.n
  let h := params.h
  let tree := authpath_tree P params u sk_seed pub_seed addr
  { authpath := ((List.range h).map (fun i =>
      rd tree (((1 <<< h) >>> i) * n + ((leaf_idx >>> i) ^^^ 1) * n) n)).flatten,
    root := rd tree n n }

/-! ## xmss_keypair, xmss_sign, xmss_sign_open (xmss.c lines 324-530) -/

/-- The `len` bytes `randombytes(buf, len)` stores, drawn from the entropy source. -/
def randombytes (entropy : Nat → Nat) (len : Nat) : Bytes :=
  (List.range len).map (fun i => entropy i % 256)

/-- Result of `xmss_keypair`: the return value and the bytes stored in `pk` and `sk`. -/
structure keypair_result where
  ret : Int
  pk : Bytes
  sk : Bytes

/-- The function `xmss_keypair`. -/
def xmss_keypair (P : Primitives) (params : xmss_params) (u : Uninit) (entropy : Nat → Nat) :
    keypair_result :=
  let n := params.n
  let m := params.m
  let sk := [0, 0, 0, 0] ++ randombytes entropy (2 * n + m)
  let pub_seed := rd sk (4 + n + m) n
  let addr := List.replicate 16 0
  let root := treehash P params u params.h 0 (sk.drop 4) (sk.drop (4 + n + m)) addr
  { ret := 0, pk := root ++ pub_seed, sk := sk }

/-- Result of `xmss_sign`: the return value, `sk` as left behind, the bytes stored in
`sig_msg`, the value stored in `*sig_msg_len`, and the indices `i` for which the debug
loop prints "Different PK's". -/
structure sign_result where
  ret : Int
  sk : Bytes
  sig_msg : Bytes
  sig_msg_len : Nat
  different_pks : List Nat

/-- The function `xmss_sign`; `msg` is the `msglen` bytes of the message. -/
def xmss_sign (P : Primitives) (params : xmss_params) (u : Uninit) (sk msg pk : Bytes) :
    sign_result :=
  let n := params.n
  let m := params.m
  let idx := logical_or ((byte sk 0 <<< 24) ||| (byte sk 1 <<< 16) ||| (byte sk 2 <<< 8))
    (byte sk 3)
  let sk_seed := rd sk 4 n
  let sk_prf := rd sk (4 + n) m
  let pub_seed := rd sk (4 + n + m) n
  let sk := sk.set 0 (((idx + 1) >>> 24) &&& 255)
  let sk := sk.set 1 (((idx + 1) >>> 16) &&& 255)
  let sk := sk.set 2 (((idx + 1) >>> 8) &&& 255)
  let sk := sk.set 3 ((idx + 1) &&& 255)
  let ots_addr := List.replicate 16 0
  let R := P.prf_m msg sk_prf m
  let msg_h := P.hash_m msg R m m
  let sig_idx := [(idx >>> 24) &&& 255, (idx >>> 16) &&& 255, (idx >>> 8) &&& 255, idx &&& 255]
  let ots_addr := SET_OTS_BIT ots_addr 1
  let ots_addr := SET_OTS_ADDRESS ots_addr idx
  let s := get_seed P sk_seed ots_addr
  let wots_sig := P.wots_sign msg_h s.seed params.wots_par pub_seed s.addr
  let a := compute_authpath_wots P params u idx sk_seed pub_seed s.addr
  { ret := 0,
    sk := sk,
    sig_msg := sig_idx ++ R ++ wots_sig ++ a.authpath ++ msg,
    sig_msg_len := 0 + 4 + m + params.wots_par.keysize + params.h * n + msg.length,
    different_pks := (List.range n).filter (fun i => byte a.root i != byte pk i) }

/-- Result of `xmss_sign_open`: the return value, the bytes stored at the start of `msg`,
and the value stored in `*msglen`. -/
structure open_result where
  ret : Int
  msg : Bytes
  msglen : Nat

/-- The function `xmss_sign_open`. Every read it makes is inside `sig_msg` when the buffer
holds `sig_msg_len` bytes and `sig_msg_len` is at least `4 + m + keysize + h*n`; for the
accesses below that length see `xmss_sign_open_checked`. -/
def xmss_sign_open (P : Primitives) (params : xmss_params) (u : Uninit) (sig_msg : Bytes)
    (sig_msg_len : Nat) (pk : Bytes) : open_result :=
  let n := params.n
  let m := params.m
  let pub_seed := rd pk n n
  let ots_addr := List.replicate 16 0
  let ots_addr := SET_OTS_BIT ots_addr 1
  let ltree_addr := wr (uninit u.ltree_addr 16) 0 (rd ots_addr 0 10)
  let ltree_addr := SET_OTS_BIT ltree_addr 0
  let ltree_addr := SET_LTREE_BIT ltree_addr 1
  let node_addr := wr (uninit u.node_addr 16) 0 (rd ltree_addr 0 10)
  let node_addr := SET_LTREE_BIT node_addr 0
  let node_addr := SET_NODE_PADDING node_addr
  let idx := logical_or
    ((byte sig_msg 0 <<< 24) ||| (byte sig_msg 1 <<< 16) ||| (byte sig_msg 2 <<< 8))
    (byte sig_msg 3)
  let sig_msg := sig_msg.drop 4
  let sig_msg_len := usub64 sig_msg_len 4
  let tmp_sig_len := m + params.wots_par.keysize + params.h * n
  let m_len := usub64 sig_msg_len tmp_sig_len
  let msg_h := P.hash_m (rd sig_msg tmp_sig_len m_len) (rd sig_msg 0 m) m m
  let sig_msg := sig_msg.drop m
  let sig_msg_len := usub64 sig_msg_len m
  let ots_addr := SET_OTS_ADDRESS ots_addr idx
  let wots_pk := P.wots_pkFromSig (rd sig_msg 0 params.wots_par.keysize) msg_h
    params.wots_par pub_seed ots_addr
  let sig_msg := sig_msg.drop params.wots_par.keysize
  let sig_msg_len := usub64 sig_msg_len params.wots_par.keysize
  let ltree_addr := SET_LTREE_ADDRESS ltree_addr idx
  let t := l_tree P params wots_pk pub_seed ltree_addr
  let root := validate_authpath P params t.leaf idx sig_msg pub_seed node_addr
  let sig_msg := sig_msg.drop (params.h * n)
  let sig_msg_len := usub64 sig_msg_len (params.h * n)
  if (List.range n).all (fun i => byte root i == byte pk i) then
    { ret := 0, msg := rd sig_msg 0 sig_msg_len, msglen := sig_msg_len }
  else
    { ret := -1, msg := List.replicate sig_msg_len 0, msglen := 2 ^ 64 - 1 }

/-- An access to the `len` bytes at `buf + off`: it succeeds when they lie inside the
buffer and is `none` (undefined behaviour in C) when it runs past the last byte. -/
def in_bounds (buf : Bytes) (off len : Nat) : Option Unit :=
  if off + len ≤ buf.length then some () else none

/-- A store of `len` bytes at the start of a buffer that holds `cap` bytes. -/
def fits (cap len : Nat) : Option Unit :=
  if len ≤ cap then some () else none

/-- The function `xmss_sign_open` with every access to the caller's buffers checked:
`sig_msg` and `pk` are the arrays the two pointers designate, `msg_cap` is the number of
bytes the array behind `msg` holds, and the result is `none` when the function reads or
writes outside one of them. Each access is checked where the C code makes it, then made
as in `xmss_sign_open`: `hash_m` reads the `m_len` bytes of its input and the `m` bytes of
its key, `wots_pkFromSig` the `keysize` bytes of the signature, `validate_authpath` the
first block of the path and one more in each of its `h - 1` loop passes. The comparison
loop reads `pk[0..n)`, which the copy of `pub_seed` from `pk[n..2n)` has covered. -/
def xmss_sign_open_checked (P : Primitives) (params : xmss_params) (u : Uninit)
    (sig_msg : Bytes) (sig_msg_len : Nat) (pk : Bytes) (msg_cap : Nat) : Option open_result := do
  let n := params.n
  let m := params.m
  in_bounds pk n n
  let pub_seed := rd pk n n
  let ots_addr := List.replicate 16 0
  let ots_addr := SET_OTS_BIT ots_addr 1
  let ltree_addr := wr (uninit u.ltree_addr 16) 0 (rd ots_addr 0 10)
  let ltree_addr := SET_OTS_BIT ltree_addr 0
  let ltree_addr := SET_LTREE_BIT ltree_addr 1
  let node_addr := wr (uninit u.node_addr 16) 0 (rd ltree_addr 0 10)
  let node_addr := SET_LTREE_BIT node_addr 0
  let node_addr := SET_NODE_PADDING node_addr
  in_bounds sig_msg 0 4
  let idx := logical_or
    ((byte sig_msg 0 <<< 24) ||| (byte sig_msg 1 <<< 16) ||| (byte sig_msg 2 <<< 8))
    (byte sig_msg 3)
  let sig_msg := sig_msg.drop 4
  let sig_msg_len := usub64 sig_msg_len 4
  let tmp_sig_len := m + params.wots_par.keysize + params.h * n
  let m_len := usub64 sig_msg_len tmp_sig_len
  in_bounds sig_msg tmp_sig_len m_len
  in_bounds sig_msg 0 m
  let msg_h := P.hash_m (rd sig_msg tmp_sig_len m_len) (rd sig_msg 0 m) m m
  let sig_msg := sig_msg.drop m
  let sig_msg_len := usub64 sig_msg_len m
  let ots_addr := SET_OTS_ADDRESS ots_addr idx
  in_bounds sig_msg 0 params.wots_par.keysize
  let wots_pk := P.wots_pkFromSig (rd sig_msg 0 params.wots_par.keysize) msg_h
    params.wots_par pub_seed ots_addr
  let sig_msg := sig_msg.drop params.wots_par.keysize
  let sig_msg_len := usub64 sig_msg_len params.wots_par.keysize
  let ltree_addr := SET_LTREE_ADDRESS ltree_addr idx
  let t := l_tree P params wots_pk pub_seed ltree_addr
  in_bounds sig_msg 0 (n + (params.h - 1) * n)
  let root := validate_authpath P params t.leaf idx sig_msg pub_seed node_addr
  let sig_msg := sig_msg.drop (params.h * n)
  let sig_msg_len := usub64 sig_msg_len (params.h * n)
  if (List.range n).all (fun i => byte root i == byte pk i) then do
    in_bounds sig_msg 0 sig_msg_len
    fits msg_cap sig_msg_len
    some { ret := 0, msg := rd sig_msg 0 sig_msg_len, msglen := sig_msg_len }
  else do
    fits msg_cap sig_msg_len
    some { ret := -1, msg := List.replicate sig_msg_len 0, msglen := 2 ^ 64 - 1 }

/-! ## Reference definitions: the Merkle tree the three algorithms are compared with -/

/-- Big-endian value of the first four bytes of a buffer. -/
def be32 (b : Bytes) : Nat :=
  (byte b 0 <<< 24) ||| (byte b 1 <<< 16) ||| (byte b 2 <<< 8) ||| byte b 3

/-- Block `i` of a buffer made of `n`-byte blocks. -/
def node (n : Nat) (buf : Bytes) (i : Nat) : Bytes := rd buf (i * n) n

/-- An address with bits 1..0 of byte 15 cleared. No macro of `xmss.c` writes these two
bits. -/
def clear_key_bits (a : Bytes) : Bytes := a.set 15 (byte a 15 &&& 252)

/-- The OTS address `treehash` and `compute_authpath_wots` derive from `addr`, when the
local array held zeros before. -/
def ots_base (addr : Bytes) : Bytes :=
  SET_OTS_BIT (wr (List.replicate 16 0) 0 (rd addr 0 10)) 1

/-- The L-tree address derived from `addr`, when the local array held zeros before. -/
def ltree_base (addr : Bytes) : Bytes :=
  SET_LTREE_BIT (SET_OTS_BIT (wr (List.replicate 16 0) 0 (rd addr 0 10)) 0) 1

/-- The node address derived from `addr`, when the local array held zeros before. -/
def node_base (addr : Bytes) : Bytes :=
  SET_NODE_PADDING (SET_LTREE_BIT (wr (List.replicate 16 0) 0 (rd (ltree_base addr) 0 10)) 0)

/-- Leaf `i` of the tree: `gen_leaf_wots` under the addresses of leaf `i`. -/
def leaf_of (P : Primitives) (params : xmss_params) (sk_seed pub_seed addr : Bytes)
    (i : Nat) : Bytes :=
  (gen_leaf_wots P params sk_seed pub_seed (SET_LTREE_ADDRESS (ltree_base addr) i)
    (SET_OTS_ADDRESS (ots_base addr) i)).leaf

/-- Node `j` at level `k` of the Merkle tree over the leaves `leaf_of`: a node at level
`k + 1` is `hash_2n_n` of its two children under the node address with tree height `k`
and tree index `j`. -/
def merkle_node (P : Primitives) (params : xmss_params) (sk_seed pub_seed addr : Bytes) :
    Nat → Nat → Bytes
  | 0, j => leaf_of P params sk_seed pub_seed addr j
  | k + 1, j =>
    P.hash_2n_n
      (merkle_node P params sk_seed pub_seed addr k (2 * j) ++
        merkle_node P params sk_seed pub_seed addr k (2 * j + 1))
      pub_seed (SET_NODE_TREE_INDEX (SET_NODE_TREE_HEIGHT (node_base addr) k) j) params.n

/-- The merge loop of `treehash` on the stack as a list of (level, node) pairs, top of
the stack first, under the node addresses derived from `node_base addr`. -/
def merge_entries (P : Primitives) (params : xmss_params) (pub_seed addr : Bytes) (idx : Nat) :
    Nat → List (Nat × Bytes) → List (Nat × Bytes)
  | fuel + 1, e2 :: e1 :: rest =>
    if e2.1 = e1.1 then
      merge_entries P params pub_seed addr idx fuel
        ((e1.1 + 1,
          P.hash_2n_n (e1.2 ++ e2.2) pub_seed
            (SET_NODE_TREE_INDEX (SET_NODE_TREE_HEIGHT (node_base addr) e2.1)
              (idx >>> (e2.1 + 1))) params.n) :: rest)
    else e2 :: e1 :: rest
  | _, S => S

/-! ## Predicates used in the statements and proofs -/

/-- The hash `hash_2n_n` does not read bits 1..0 of address byte 15. -/
def ignores_key_bits (P : Primitives) : Prop :=
  ∀ inp seed a n, P.hash_2n_n inp seed a n = P.hash_2n_n inp seed (clear_key_bits a) n

/-- Two L-tree addresses that agree in all that `l_tree` does not overwrite before use. -/
def ltree_rel (a b : Bytes) : Prop :=
  a.length = 16 ∧ b.length = 16 ∧ a.take 13 = b.take 13 ∧
    byte a 13 &&& 252 = byte b 13 &&& 252

/-- Two OTS addresses that agree in all that `SET_OTS_ADDRESS` and `ZEROISE_OTS_ADDR`
do not overwrite. -/
def ots_rel (a b : Bytes) : Prop :=
  a.length = 16 ∧ b.length = 16 ∧ a.take 9 = b.take 9 ∧ byte a 9 &&& 254 = byte b 9 &&& 254

/-- Two L-tree addresses that agree in bytes 0..9. -/
def ltree_pre (a b : Bytes) : Prop :=
  a.length = 16 ∧ b.length = 16 ∧ a.take 10 = b.take 10

/-- Two node addresses that agree in all that `SET_NODE_TREE_HEIGHT` and
`SET_NODE_TREE_INDEX` do not overwrite, bits 1..0 of byte 15 apart. -/
def node_rel (a b : Bytes) : Prop :=
  a.length = 16 ∧ b.length = 16 ∧ a.take 11 = b.take 11 ∧
    byte a 11 &&& 252 = byte b 11 &&& 252

/-- Two node addresses that agree in all that `SET_NODE_TREE_INDEX` does not overwrite,
bits 1..0 of byte 15 apart. -/
def node_lev_rel (a b : Bytes) : Prop :=
  a.length = 16 ∧ b.length = 16 ∧ a.take 12 = b.take 12 ∧
    byte a 12 &&& 252 = byte b 12 &&& 252

/-- The blocks and levels of a `treehash` stack are the entries `S` (top first): the
entry at depth `|rest|` from the bottom sits in block `|rest|`. -/
def entries_at (n : Nat) (stack : Bytes) (levels : List Nat) : List (Nat × Bytes) → Prop
  | [] => True
  | e :: rest =>
    levels.getD rest.length 0 = e.1 ∧ node n stack rest.length = e.2 ∧ e.2.length = n ∧
      entries_at n stack levels rest

/-- A `treehash` state holds the entries `S` in a stack of capacity `cap`. -/
def stack_repr (n cap : Nat) (S : List (Nat × Bytes)) (st : treehash_state) : Prop :=
  st.stackoffset = S.length ∧ S.length ≤ cap ∧ st.stack.length = cap * n ∧
    st.stacklevels.length = cap ∧ entries_at n st.stack st.stacklevels S

/-- The root `xmss_sign_open` recomputes from `sig_msg` when the message it hashes has
`m_len` bytes, with every offset counted from the start of `sig_msg`: the index at 0,
`R` at 4, the WOTS+ signature at `4 + m`, the authentication path at
`4 + m + keysize` and the message at `4 + m + keysize + h*n`. -/
def sign_open_root (P : Primitives) (params : xmss_params) (u : Uninit) (sig_msg : Bytes)
    (m_len : Nat) (pk : Bytes) : Bytes :=
  let n := params.n
  let m := params.m
  let keysize := params.wots_par.keysize
  let pub_seed := rd pk n n
  let idx := logical_or
    ((byte sig_msg 0 <<< 24) ||| (byte sig_msg 1 <<< 16) ||| (byte sig_msg 2 <<< 8))
    (byte sig_msg 3)
  let ots_addr := SET_OTS_BIT (List.replicate 16 0) 1
  let ltree_addr := SET_LTREE_BIT (SET_OTS_BIT (wr (uninit u.ltree_addr 16) 0 (rd ots_addr 0 10)) 0) 1
  let node_addr :=
    SET_NODE_PADDING (SET_LTREE_BIT (wr (uninit u.node_addr 16) 0 (rd ltree_addr 0 10)) 0)
  let msg_h := P.hash_m (rd sig_msg (4 + m + keysize + params.h * n) m_len) (rd sig_msg 4 m) m m
  let wots_pk := P.wots_pkFromSig (rd sig_msg (4 + m) keysize) msg_h params.wots_par pub_seed
    (SET_OTS_ADDRESS ots_addr idx)
  let leaf := (l_tree P params wots_pk pub_seed (SET_LTREE_ADDRESS ltree_addr idx)).leaf
  validate_authpath P params leaf idx (sig_msg.drop (4 + m + keysize)) pub_seed node_addr

/-- The three addresses of a `treehash` state stand in the loop relations to the
addresses derived from `addr`. -/
def addrs_ok (addr : Bytes) (st : treehash_state) : Prop :=
  ltree_pre st.ltree_addr (ltree_base addr) ∧ ots_rel st.ots_addr (ots_base addr) ∧
    node_rel st.node_addr (node_base addr)

/-- The leaves below node `a` of level `k`, left to right. -/
def subtree_leaves (k a : Nat) : List Nat := (List.range (2 ^ k)).map (fun j => a * 2 ^ k + j)

/-- Rows `0..k` of the tree buffer of `compute_authpath_wots` hold the Merkle tree:
row `l` starts at block `2^(h-l)`. -/
def rows_ok (P : Primitives) (params : xmss_params) (sk ps addr : Bytes) (k : Nat)
    (tree : Bytes) : Prop :=
  ∀ l, l ≤ k → ∀ j, j < 2 ^ (params.h - l) →
    node params.n tree (2 ^ (params.h - l) + j) = merkle_node P params sk ps addr l j

/-! ## Concrete instances used to evaluate the functions -/

/-- A digest of a byte list into one byte, used by the concrete primitives below. -/
def mix (l : Bytes) : Nat := (l.foldl (fun acc b => (acc * 31 + b + 7) % 251) 1) % 251

/-- Concrete primitives whose `hash_2n_n` reads every byte of the address. -/
def mixPrims : Primitives where
  prg_with_counter := fun outlen key addr => List.replicate outlen (mix (key ++ addr))
  prf_m := fun inp key keylen => List.replicate keylen (mix (inp ++ key))
  hash_m := fun inp key _ n => List.replicate n (mix (key ++ inp))
  hash_2n_n := fun inp ps addr n => List.replicate n (mix (inp ++ ps ++ addr))
  wots_pkgen := fun seed wp ps addr => List.replicate wp.keysize (mix (seed ++ ps ++ addr))
  wots_sign := fun d seed wp ps addr =>
    List.replicate wp.keysize ((mix (seed ++ ps ++ addr) + mix d) % 256)
  wots_pkFromSig := fun sig d wp _ _ =>
    List.replicate wp.keysize ((sig.headD 0 + 256 - mix d) % 256)
  prf_m_len := by intros; simp
  hash_2n_n_len := by intros; simp
  wots_pkgen_len := by intros; simp
  wots_sign_len := by intros; simp
  wots_pkFromSig_len := by intros; simp

/-- Concrete primitives whose `hash_2n_n` clears bits 1..0 of address byte 15 before
use, as a hash that sets its own key and block bits there does. -/
def maskPrims : Primitives where
  prg_with_counter := fun outlen key addr => List.replicate outlen (mix (key ++ addr))
  prf_m := fun inp key keylen => List.replicate keylen (mix (inp ++ key))
  hash_m := fun inp key _ n => List.replicate n (mix (key ++ inp))
  hash_2n_n := fun inp ps addr n => List.replicate n (mix (inp ++ ps ++ clear_key_bits addr))
  wots_pkgen := fun seed wp ps addr => List.replicate wp.keysize (mix (seed ++ ps ++ addr))
  wots_sign := fun d seed wp ps addr =>
    List.replicate wp.keysize ((mix (seed ++ ps ++ addr) + mix d) % 256)
  wots_pkFromSig := fun sig d wp _ _ =>
    List.replicate wp.keysize ((sig.headD 0 + 256 - mix d) % 256)
  prf_m_len := by intros; simp
  hash_2n_n_len := by intros; simp
  wots_pkgen_len := by intros; simp
  wots_sign_len := by intros; simp
  wots_pkFromSig_len := by intros; simp

/-- Stack memory that held zeros. -/
def zeroStack : Uninit :=
  { ots_addr := fun _ => 0, ltree_addr := fun _ => 0, node_addr := fun _ => 0,
    buf := fun _ => 0, levels := fun _ => 0 }

/-- Stack memory that held 0xff bytes. -/
def onesStack : Uninit :=
  { ots_addr := fun _ => 255, ltree_addr := fun _ => 255, node_addr := fun _ => 255,
    buf := fun _ => 255, levels := fun _ => 255 }

/-- An entropy source. -/
def demoEntropy (i : Nat) : Nat := 7 * i + 1

/-- Parameters with `n = m = 32`, `h = 1`, `len = 2`. -/
def params32 : xmss_params :=
  { h := 1, m := 32, n := 32, wots_par := { len := 2, keysize := 64 } }

/-- Parameters with `n = m = 16`, `h = 1`, `len = 2`. -/
def params16 : xmss_params :=
  { h := 1, m := 16, n := 16, wots_par := { len := 2, keysize := 32 } }

/-- Parameters with `n = m = 1`, `h = 1`, `len = 2`. -/
def params1 : xmss_params :=
  { h := 1, m := 1, n := 1, wots_par := { len := 2, keysize := 2 } }

/-- The parameter set XMSS-SHA2_10_256: `n = m = 32`, `h = 10`, `len = 67`. -/
def paramsSHA2_10_256 : xmss_params :=
  { h := 10, m := 32, n := 32, wots_par := { len := 67, keysize := 2144 } }

/-! ## Reference definitions for the address fields, the L-tree and the path fold -/

/-- The tree-height field of a node address: byte 11 bits 1..0 and byte 12 bits 7..2. -/
def node_tree_height (a : Bytes) : Nat :=
  ((byte a 11 &&& 3) <<< 6) ||| ((byte a 12 >>> 2) &&& 63)

/-- The tree-index field of a node address: byte 12 bits 1..0, bytes 13 and 14, and
byte 15 bits 7..2. -/
def node_tree_index (a : Bytes) : Nat :=
  ((byte a 12 &&& 3) <<< 22) ||| ((byte a 13 &&& 255) <<< 14) ||| ((byte a 14 &&& 255) <<< 6) |||
    ((byte a 15 >>> 2) &&& 63)

/-- Parameters with `len = 1`: `n = m = 2`, `h = 1`. -/
def paramsLen1 : xmss_params :=
  { h := 1, m := 2, n := 2, wots_par := { len := 1, keysize := 2 } }

/-- The fold of the specification over an authentication path: `node_0 = leaf`, and
`node_(i+1)` is `hash_2n_n` of `node_i ‖ auth_i` when bit `i` of `idx` is 0 and of
`auth_i ‖ node_i` otherwise, under the node address with tree height `i` and tree index
`idx >> (i+1)`. The function is entered at level `i` with `node_i` and the path blocks
`auth_i, auth_(i+1), ...` still to be used. -/
def authpath_fold (P : Primitives) (n : Nat) (pub_seed addr : Bytes) (idx : Nat) :
    Nat → Bytes → List Bytes → Bytes
  | _, node, [] => node
  | i, node, auth :: rest =>
    authpath_fold P n pub_seed addr idx (i + 1)
      (P.hash_2n_n (if (idx >>> i) &&& 1 = 0 then node ++ auth else auth ++ node) pub_seed
        (SET_NODE_TREE_INDEX (SET_NODE_TREE_HEIGHT addr i) (idx >>> (i + 1))) n)
      rest

/-- Two node addresses that agree in every bit outside the tree-height and tree-index
fields (byte 11 bits 1..0, bytes 12 to 14, byte 15 bits 7..2). -/
def node_frame (a b : Bytes) : Prop :=
  a.length = 16 ∧ b.length = 16 ∧ a.take 11 = b.take 11 ∧
    byte a 11 &&& 252 = byte b 11 &&& 252 ∧ byte a 15 &&& 3 = byte b 15 &&& 3

/-- One level of the specified L-tree reduction, at tree height `k`: for `i < floor(l/2)`
nodes `2i` and `2i+1` are replaced by `hash_2n_n` of their concatenation under the L-tree
address with tree height `k` and tree index `i`; an odd last node is carried unchanged to
position `floor(l/2)`. -/
def ltree_level (P : Primitives) (n : Nat) (pub_seed addr : Bytes) (k : Nat)
    (nodes : List Bytes) : List Bytes :=
  (List.range (nodes.length / 2)).map (fun i =>
      P.hash_2n_n (nodes.getD (2 * i) [] ++ nodes.getD (2 * i + 1) []) pub_seed
        (SET_LTREE_TREE_INDEX (SET_LTREE_TREE_HEIGHT addr k) i) n) ++
    (if nodes.length % 2 = 1 then [nodes.getD (nodes.length - 1) []] else [])

/-- The specified L-tree reduction: levels are applied, the height rising by one each
time, until one node is left (at most `fuel` levels). -/
def ltree_reduce (P : Primitives) (n : Nat) (pub_seed addr : Bytes) :
    Nat → Nat → List Bytes → List Bytes
  | 0, _, nodes => nodes
  | fuel + 1, k, nodes =>
    if nodes.length > 1 then
      ltree_reduce P n pub_seed addr fuel (k + 1) (ltree_level P n pub_seed addr k nodes)
    else nodes

/-- Two L-tree addresses that agree in every bit outside the tree-height and tree-index
fields (byte 13, byte 14, byte 15 bits 7..2). -/
def ltree_frame (a b : Bytes) : Prop :=
  a.length = 16 ∧ b.length = 16 ∧ a.take 13 = b.take 13 ∧ byte a 15 &&& 3 = byte b 15 &&& 3

/-- An L-tree address that agrees with `b` outside the two fields and holds tree
height `k`. -/
def ltree_at_height (a b : Bytes) (k : Nat) : Prop :=
  ltree_frame a b ∧ byte a 13 &&& 252 = (k <<< 2) &&& 255

/-- The buffer of `l_tree` holds the nodes `N` in its first `|N|` blocks. -/
def ltree_holds (n : Nat) (buf : Bytes) (N : List Bytes) : Prop :=
  N.length * n ≤ buf.length ∧ (∀ x ∈ N, x.length = n) ∧
    ∀ i, i < N.length → node n buf i = N.getD i []

/-- State of `treehash` after the first `c` passes of its leaf loop, that is when the
leaves `index, ..., index + c - 1` have been pushed and merged. -/
def treehash_after (P : Primitives) (params : xmss_params) (u : Uninit) (height index : Nat)
    (sk_seed pub_seed addr : Bytes) (c : Nat) : treehash_state :=
  ((List.range c).map (fun k => index + k)).foldl (treehash_step P params sk_seed pub_seed)
    (treehash_init params u height addr)

/-- State of `treehash` in the pass for leaf `idx`, when the leaf has been stored on the
stack and counted and the merge loop is about to be entered. -/
def treehash_push (P : Primitives) (params : xmss_params) (sk_seed pub_seed : Bytes)
    (st : treehash_state) (idx : Nat) : treehash_state :=
  let g := gen_leaf_wots P params sk_seed pub_seed (SET_LTREE_ADDRESS st.ltree_addr idx)
    (SET_OTS_ADDRESS st.ots_addr idx)
  { stack := wr st.stack (st.stackoffset * params.n) g.leaf,
    stacklevels := st.stacklevels.set st.stackoffset 0,
    stackoffset := st.stackoffset + 1,
    ots_addr := g.ots_addr, ltree_addr := g.ltree_addr, node_addr := st.node_addr }

/-- Number of leaves below the lowest `so` entries of a `treehash` stack: an entry of
level `l` stands for `2^l` leaves. -/
def level_weight (levels : List Nat) (so : Nat) : Nat :=
  ((List.range so).map (fun i => 2 ^ levels.getD i 0)).sum

/-- The stack of `treehash` between two leaves: within capacity `cap`, levels strictly
decreasing from bottom to top, `c` leaves below the entries. -/
def stack_inv (cap : Nat) (st : treehash_state) (c : Nat) : Prop :=
  st.stacklevels.length = cap ∧ st.stackoffset ≤ cap ∧
    (∀ i j, i < j → j < st.stackoffset → st.stacklevels.getD j 0 < st.stacklevels.getD i 0) ∧
    level_weight st.stacklevels st.stackoffset = c

/-- The stack of `treehash` inside the merge loop: as `stack_inv` below the top entry,
and the top entry is not above the one below it. -/
def merge_inv (cap : Nat) (st : treehash_state) (c : Nat) : Prop :=
  st.stacklevels.length = cap ∧ 1 ≤ st.stackoffset ∧ st.stackoffset ≤ cap ∧
    (∀ i j, i < j → j + 1 < st.stackoffset →
      st.stacklevels.getD j 0 < st.stacklevels.getD i 0) ∧
    (2 ≤ st.stackoffset → st.stacklevels.getD (st.stackoffset - 1) 0 ≤
      st.stacklevels.getD (st.stackoffset - 2) 0) ∧
    level_weight st.stacklevels st.stackoffset = c

/-! ## Definitions for the addresses handed to the primitives -/

/-- The OTS address of leaf `i` under the all-zero layer/tree prefix: bytes 0..8 zero,
byte 9 = 2 (OTS bit), bytes 10..12 = `i << 1` big-endian, bytes 13..15 zero. -/
def ots_address (i : Nat) : Bytes :=
  [0, 0, 0, 0, 0, 0, 0, 0, 0, 2, (i >>> 15) &&& 255, (i >>> 7) &&& 255, (i <<< 1) &&& 255,
    0, 0, 0]

/-- The L-tree address of leaf `i` with tree height `k` and tree index `j` under the
all-zero prefix, bits 1..0 of byte 15 zero: byte 9 = 1 (L-tree bit), bytes 10..12 = `i`
big-endian, byte 13 = `k[5..0]` and `j[15..14]`, byte 14 = `j[13..6]`, byte 15 bits 7..2 =
`j[5..0]`. -/
def ltree_address (i k j : Nat) : Bytes :=
  [0, 0, 0, 0, 0, 0, 0, 0, 0, 1, (i >>> 16) &&& 255, (i >>> 8) &&& 255, i &&& 255,
    ((k <<< 2) &&& 255) ||| ((j >>> 14) &&& 3), (j >>> 6) &&& 255, (j <<< 2) &&& 255]

/-- The node address with tree height `k` and tree index `j` under the all-zero prefix,
bits 1..0 of byte 15 zero: bytes 0..10 zero, byte 11 = `k[7..6]`, byte 12 = `k[5..0]` and
`j[23..22]`, byte 13 = `j[21..14]`, byte 14 = `j[13..6]`, byte 15 bits 7..2 = `j[5..0]`. -/
def node_address (k j : Nat) : Bytes :=
  [0, 0, 0, 0, 0, 0, 0, 0, 0, 0, 0, (k >>> 6) &&& 3, ((k <<< 2) &&& 255) ||| ((j >>> 22) &&& 3),
    (j >>> 14) &&& 255, (j >>> 6) &&& 255, (j <<< 2) &&& 255]

/-- An OTS address as the leaf loops hold it: zero prefix, OTS bit set, L-tree bit free. -/
def ots_pre (a : Bytes) : Prop :=
  a.length = 16 ∧ a.take 9 = List.replicate 9 0 ∧ byte a 9 &&& 254 = 2

/-- An L-tree address as the leaf loops hold it: zero prefix, L-tree bit set, and bits 1..0
of byte 15 equal to `kb`. -/
def ltree_pre0 (a : Bytes) (kb : Nat) : Prop :=
  a.length = 16 ∧ a.take 10 = [0, 0, 0, 0, 0, 0, 0, 0, 0, 1] ∧ byte a 15 &&& 3 = kb

/-- A node address as the node loops hold it: bytes 0..10 zero, byte 11 bits 7..2 zero,
and bits 1..0 of byte 15 equal to `kb`. -/
def node_pre (a : Bytes) (kb : Nat) : Prop :=
  a.length = 16 ∧ a.take 11 = List.replicate 11 0 ∧ byte a 11 &&& 252 = 0 ∧
    byte a 15 &&& 3 = kb

/-- A node address that agrees with `b` outside the two fields and holds tree height `k`. -/
def node_at_height (a b : Bytes) (k : Nat) : Prop :=
  node_frame a b ∧ byte a 11 = (byte b 11 &&& 252) ||| ((k >>> 6) &&& 3) ∧
    byte a 12 &&& 252 = (k <<< 2) &&& 255

/-- State of `compute_authpath_wots` when its leaf loop is entered. -/
def authpath_leaf_init (params : xmss_params) (u : Uninit) (addr : Bytes) :
    authpath_leaf_state :=
  { tree := uninit u.buf (2 * (1 <<< params.h) * params.n),
    ots_addr := SET_OTS_BIT (wr (uninit u.ots_addr 16) 0 (rd addr 0 10)) 1,
    ltree_addr := SET_LTREE_BIT (SET_OTS_BIT (wr (uninit u.ltree_addr 16) 0 (rd addr 0 10)) 0) 1 }

/-- The node address of `compute_authpath_wots` when its tree loop is entered. -/
def authpath_node_init (u : Uninit) (addr : Bytes) : Bytes :=
  SET_NODE_PADDING (SET_LTREE_BIT (wr (uninit u.node_addr 16) 0
    (rd (SET_LTREE_BIT (SET_OTS_BIT (wr (uninit u.ltree_addr 16) 0 (rd addr 0 10)) 0) 1) 0 10)) 0)

/-- State of `compute_authpath_wots` after the first `c` passes of its leaf loop. -/
def authpath_leaves_after (P : Primitives) (params : xmss_params) (u : Uninit)
    (sk_seed pub_seed addr : Bytes) (c : Nat) : authpath_leaf_state :=
  (List.range c).foldl (authpath_leaf_step P params sk_seed pub_seed)
    (authpath_leaf_init params u addr)

/-- State of `compute_authpath_wots` after the first `k` passes of its tree loop. -/
def authpath_rows_after (P : Primitives) (params : xmss_params) (u : Uninit)
    (sk_seed pub_seed addr : Bytes) (k : Nat) : authpath_tree_state :=
  authpath_tree_loop P params.n pub_seed k
    { tree := (authpath_leaves_after P params u sk_seed pub_seed addr (1 <<< params.h)).tree,
      node_addr := authpath_node_init u addr, i := 1 <<< params.h, level := 0 }

/-- The inner loop `for (j = 0; j < i; j += 2)` of `compute_authpath_wots` after its first
`c` passes. -/
def authpath_level_after (P : Primitives) (n : Nat) (pub_seed : Bytes) (i : Nat)
    (tree node_addr : Bytes) (c : Nat) : Bytes × Bytes :=
  ((List.range c).map (fun t => 2 * t)).foldl
    (fun st j =>
      let node_addr := SET_NODE_TREE_INDEX st.2 (j >>> 1)
      (wr st.1 ((i >>> 1) * n + (j >>> 1) * n)
          (P.hash_2n_n (rd st.1 (i * n + j * n) (2 * n)) pub_seed node_addr n),
        node_addr))
    (tree, node_addr)

/-- State of `validate_authpath` after the first `j` passes of its loop. -/
def validate_after (P : Primitives) (params : xmss_params) (leaf : Bytes) (leafidx : Nat)
    (authpath pub_seed addr : Bytes) (j : Nat) : validate_state :=
  (List.range j).foldl (validate_step P params.n pub_seed)
    { buffer :=
        if leafidx &&& 1 ≠ 0 then rd authpath 0 params.n ++ rd leaf 0 params.n
        else rd leaf 0 params.n ++ rd authpath 0 params.n,
      leafidx := leafidx, authpath := authpath.drop params.n, addr := addr }

/-- The L-tree address `xmss_sign_open` builds from its uninitialised local array. -/
def open_ltree_addr (u : Uninit) : Bytes :=
  SET_LTREE_BIT (SET_OTS_BIT (wr (uninit u.ltree_addr 16) 0
    (rd (SET_OTS_BIT (List.replicate 16 0) 1) 0 10)) 0) 1

/-- The node address `xmss_sign_open` builds from its uninitialised local array. -/
def open_node_addr (u : Uninit) : Bytes :=
  SET_NODE_PADDING (SET_LTREE_BIT (wr (uninit u.node_addr 16) 0 (rd (open_ltree_addr u) 0 10)) 0)

/-! ## Memory, address and L-tree lemmas -/

theorem rd_length (buf : Bytes) (off len : Nat) (h : off + len ≤ buf.length) :
    (rd buf off len).length = len := by
  simp [rd]; omega

theorem wr_length (buf : Bytes) (off : Nat) (d : Bytes) (h : off + d.length ≤ buf.length) :
    (wr buf off d).length = buf.length := by
  simp [wr]; omega

theorem rd_wr_same (buf : Bytes) (off : Nat) (d : Bytes) (h : off ≤ buf.length) :
    rd (wr buf off d) off d.length = d := by
  simp [rd, wr, List.drop_append_eq_append_drop, List.take_append_eq_append_take, Nat.min_eq_left h]

theorem rd_wr_before (buf : Bytes) (off : Nat) (d : Bytes) (o len : Nat)
    (h1 : o + len ≤ off) (h : off ≤ buf.length) :
    rd (wr buf off d) o len = rd buf o len := by
  unfold rd wr
  rw [List.append_assoc, List.drop_append_of_le_length (by simp; omega),
    List.take_append_of_le_length (by simp; omega), List.drop_take]
  rw [List.take_take]
  congr 1
  omega

theorem rd_wr_after (buf : Bytes) (off : Nat) (d : Bytes) (o len : Nat)
    (h1 : off + d.length ≤ o) (h : off ≤ buf.length) :
    rd (wr buf off d) o len = rd buf o len := by
  unfold rd wr
  have e : o = (buf.take off ++ d).length + (o - (off + d.length)) := by simp; omega
  conv_lhs => rw [e, List.drop_append]
  rw [List.drop_drop]
  congr 2
  omega

theorem rd_rd (buf : Bytes) (a la b lb : Nat) (h : b + lb ≤ la) :
    rd (rd buf a la) b lb = rd buf (a + b) lb := by
  unfold rd
  rw [List.drop_take, List.take_take, List.drop_drop]
  congr 1
  · omega
  

theorem rd_append (buf : Bytes) (off a b : Nat) :
    rd buf off (a + b) = rd buf off a ++ rd buf (off + a) b := by
  unfold rd
  rw [List.take_add, List.drop_drop]

theorem len16 (a : Bytes) (h : a.length = 16) :
    ∃ a0 a1 a2 a3 a4 a5 a6 a7 a8 a9 a10 a11 a12 a13 a14 a15,
      a = [a0, a1, a2, a3, a4, a5, a6, a7, a8, a9, a10, a11, a12, a13, a14, a15] := by
  match a, h with
  | [a0, a1, a2, a3, a4, a5, a6, a7, a8, a9, a10, a11, a12, a13, a14, a15], _ =>
    exact ⟨a0, a1, a2, a3, a4, a5, a6, a7, a8, a9, a10, a11, a12, a13, a14, a15, rfl⟩

theorem and3_or_and252 (x y : Nat) : ((x &&& 3) ||| y) &&& 252 = y &&& 252 := by
  have e : (3 : Nat) &&& 252 = 0 := by decide
  rw [Nat.and_distrib_right, Nat.and_assoc, e, Nat.and_zero, Nat.zero_or]

theorem and252_or_and3 (x y : Nat) : ((x &&& 252) ||| (y &&& 3)) &&& 252 = x &&& 252 := by
  have e : (3 : Nat) &&& 252 = 0 := by decide
  rw [Nat.and_distrib_right, Nat.and_assoc, Nat.and_assoc, e, Nat.and_self, Nat.and_zero,
    Nat.or_zero]

theorem ltree_rel_height (a b : Bytes) (v : Nat) (h : a.length = 16 ∧ b.length = 16 ∧ a.take 13 = b.take 13) :
    ltree_rel (SET_LTREE_TREE_HEIGHT a v) (SET_LTREE_TREE_HEIGHT b v) := by
  obtain ⟨ha, hb, ht⟩ := h
  obtain ⟨a0, a1, a2, a3, a4, a5, a6, a7, a8, a9, a10, a11, a12, a13, a14, a15, rfl⟩ := len16 a ha
  obtain ⟨b0, b1, b2, b3, b4, b5, b6, b7, b8, b9, b10, b11, b12, b13, b14, b15, rfl⟩ := len16 b hb
  simp at ht
  simp [ltree_rel, SET_LTREE_TREE_HEIGHT, byte, ht, and3_or_and252]

theorem ltree_rel_index (a b : Bytes) (v : Nat) (h : ltree_rel a b) :
    ltree_rel (SET_LTREE_TREE_INDEX a v) (SET_LTREE_TREE_INDEX b v) ∧
    clear_key_bits (SET_LTREE_TREE_INDEX a v) = clear_key_bits (SET_LTREE_TREE_INDEX b v) := by
  obtain ⟨ha, hb, ht, h13⟩ := h
  obtain ⟨a0, a1, a2, a3, a4, a5, a6, a7, a8, a9, a10, a11, a12, a13, a14, a15, rfl⟩ := len16 a ha
  obtain ⟨b0, b1, b2, b3, b4, b5, b6, b7, b8, b9, b10, b11, b12, b13, b14, b15, rfl⟩ := len16 b hb
  simp at ht
  simp [byte] at h13
  simp [ltree_rel, SET_LTREE_TREE_INDEX, clear_key_bits, byte, ht, and3_or_and252, and252_or_and3, h13]


theorem foldl_rel {σ ι : Type} (Rel : σ → σ → Prop) (f g : σ → ι → σ) (l : List ι)
    (hstep : ∀ s1 s2 i, Rel s1 s2 → Rel (f s1 i) (g s2 i)) (s1 s2 : σ) (h : Rel s1 s2) :
    Rel (l.foldl f s1) (l.foldl g s2) := by
  induction l generalizing s1 s2 with
  | nil => exact h
  | cons x xs ih => exact ih _ _ (hstep _ _ _ h)

theorem foldl_inv {σ ι : Type} (Inv : σ → Prop) (f : σ → ι → σ) (l : List ι)
    (hstep : ∀ s i, i ∈ l → Inv s → Inv (f s i)) (s : σ) (h : Inv s) :
    Inv (l.foldl f s) := by
  induction l generalizing s with
  | nil => exact h
  | cons x xs ih =>
    exact ih (fun s i hi => hstep s i (List.mem_cons_of_mem _ hi)) _
      (hstep _ _ (List.mem_cons_self _ _) h)

theorem l_tree_pairs_rel (P : Primitives) (hH : ignores_key_bits P) (n : Nat) (ps : Bytes)
    (bound : Nat) (pk a b : Bytes) (h : ltree_rel a b) :
    (l_tree_pairs P n ps bound pk a).1 = (l_tree_pairs P n ps bound pk b).1 ∧
      ltree_rel (l_tree_pairs P n ps bound pk a).2 (l_tree_pairs P n ps bound pk b).2 := by
  unfold l_tree_pairs
  refine foldl_rel (fun s1 s2 : Bytes × Bytes => s1.1 = s2.1 ∧ ltree_rel s1.2 s2.2) _ _ _ ?_ _ _ ⟨rfl, h⟩
  intro s1 s2 i ⟨h1, h2⟩
  obtain ⟨r1, r2⟩ := ltree_rel_index s1.2 s2.2 i h2
  refine ⟨?_, r1⟩
  simp only
  rw [hH _ _ (SET_LTREE_TREE_INDEX s1.2 i), hH _ _ (SET_LTREE_TREE_INDEX s2.2 i), r2, h1]

theorem ltree_rel_take (a b : Bytes) (h : ltree_rel a b) :
    a.length = 16 ∧ b.length = 16 ∧ a.take 13 = b.take 13 := ⟨h.1, h.2.1, h.2.2.1⟩

theorem l_tree_body_rel (P : Primitives) (hH : ignores_key_bits P) (n : Nat) (ps : Bytes)
    (s1 s2 : l_tree_state) (hpk : s1.wots_pk = s2.wots_pk) (hl : s1.l = s2.l)
    (hh : s1.height = s2.height) (ha : ltree_rel s1.addr s2.addr) :
    (l_tree_body P n ps s1).wots_pk = (l_tree_body P n ps s2).wots_pk ∧
    (l_tree_body P n ps s1).l = (l_tree_body P n ps s2).l ∧
    (l_tree_body P n ps s1).height = (l_tree_body P n ps s2).height ∧
    ltree_rel (l_tree_body P n ps s1).addr (l_tree_body P n ps s2).addr := by
  obtain ⟨e1, e2⟩ := l_tree_pairs_rel P hH n ps (s2.l >>> 1) s2.wots_pk s1.addr s2.addr ha
  simp only [l_tree_body, hpk, hl, hh, e1]
  exact ⟨trivial, trivial, trivial, ltree_rel_height _ _ _ (ltree_rel_take _ _ e2)⟩

theorem l_tree_loop_rel (P : Primitives) (hH : ignores_key_bits P) (n : Nat) (ps : Bytes)
    (fuel : Nat) (s1 s2 : l_tree_state) (hpk : s1.wots_pk = s2.wots_pk) (hl : s1.l = s2.l)
    (hh : s1.height = s2.height) (ha : ltree_rel s1.addr s2.addr) :
    (l_tree_loop P n ps fuel s1).wots_pk = (l_tree_loop P n ps fuel s2).wots_pk := by
  induction fuel generalizing s1 s2 with
  | zero => exact hpk
  | succ k ih =>
    simp only [l_tree_loop, hl]
    split
    · obtain ⟨b1, b2, b3, b4⟩ := l_tree_body_rel P hH n ps s1 s2 hpk hl hh ha
      exact ih _ _ b1 b2 b3 b4
    · exact hpk

/-- The leaf `l_tree` computes depends on the address only through bytes 0..12. -/
theorem l_tree_leaf_congr (P : Primitives) (hH : ignores_key_bits P) (params : xmss_params)
    (pk ps a b : Bytes) (ha : a.length = 16) (hb : b.length = 16) (hab : a.take 13 = b.take 13) :
    (l_tree P params pk ps a).leaf = (l_tree P params pk ps b).leaf := by
  simp only [l_tree]
  rw [l_tree_loop_rel P hH params.n ps params.wots_par.len
    { wots_pk := pk, addr := SET_LTREE_TREE_HEIGHT a 0, l := params.wots_par.len, height := 0 }
    { wots_pk := pk, addr := SET_LTREE_TREE_HEIGHT b 0, l := params.wots_par.len, height := 0 }
    rfl rfl rfl (ltree_rel_height a b 0 ⟨ha, hb, hab⟩)]


/-! ### lengths in l_tree -/

theorem l_tree_pairs_length (P : Primitives) (n : Nat) (ps : Bytes) (bound : Nat)
    (pk a : Bytes) (h : bound * n ≤ pk.length) :
    (l_tree_pairs P n ps bound pk a).1.length = pk.length := by
  unfold l_tree_pairs
  refine foldl_inv (fun s : Bytes × Bytes => s.1.length = pk.length) _ _ ?_ _ rfl
  intro s i hi hs
  simp only
  rw [wr_length, hs]
  rw [P.hash_2n_n_len, hs]
  have : i < bound := List.mem_range.mp hi
  calc i * n + n = (i + 1) * n := by ring
    _ ≤ bound * n := Nat.mul_le_mul_right _ this
    _ ≤ pk.length := h

theorem l_tree_body_length (P : Primitives) (n : Nat) (ps : Bytes) (st : l_tree_state)
    (h : st.l * n ≤ st.wots_pk.length) (h2 : 1 < st.l) :
    (l_tree_body P n ps st).wots_pk.length = st.wots_pk.length ∧
      (l_tree_body P n ps st).l * n ≤ st.wots_pk.length ∧ 1 ≤ (l_tree_body P n ps st).l := by
  have hs : st.l >>> 1 = st.l / 2 := by simp [Nat.shiftRight_eq_div_pow]
  have ha : st.l &&& 1 = st.l % 2 := Nat.and_one_is_mod _
  have hb : st.l / 2 * n ≤ st.wots_pk.length :=
    le_trans (Nat.mul_le_mul_right _ (Nat.div_le_self _ _)) h
  have hp := l_tree_pairs_length P n ps (st.l / 2) st.wots_pk st.addr hb
  simp only [l_tree_body, hs, ha]
  split
  · rename_i hodd
    have h3 : (st.l / 2 + 1) * n ≤ st.l * n := Nat.mul_le_mul_right _ (by omega)
    have h4 : (st.l - 1) * n + n ≤ st.wots_pk.length := by
      have : (st.l - 1) * n + n = st.l * n := by
        have : st.l = (st.l - 1) + 1 := by omega
        conv_rhs => rw [this, Nat.add_mul, Nat.one_mul]
      omega
    have h5 : (rd (l_tree_pairs P n ps (st.l / 2) st.wots_pk st.addr).1 ((st.l - 1) * n) n).length = n :=
      rd_length _ _ _ (by rw [hp]; exact h4)
    refine ⟨?_, le_trans h3 h, by omega⟩
    rw [wr_length, hp]
    rw [h5, hp]
    have : st.l / 2 * n + n = (st.l / 2 + 1) * n := by ring
    omega
  · refine ⟨hp, hb, by omega⟩

theorem l_tree_loop_length (P : Primitives) (n : Nat) (ps : Bytes) (fuel : Nat)
    (st : l_tree_state) (h : st.l * n ≤ st.wots_pk.length) (h1 : 1 ≤ st.l) :
    (l_tree_loop P n ps fuel st).wots_pk.length = st.wots_pk.length := by
  induction fuel generalizing st with
  | zero => rfl
  | succ k ih =>
    simp only [l_tree_loop]
    split
    · rename_i hl
      obtain ⟨b1, b2, b3⟩ := l_tree_body_length P n ps st h hl
      rw [ih _ (by rw [b1]; exact b2) b3, b1]
    · rfl

theorem l_tree_leaf_length (P : Primitives) (params : xmss_params) (pk ps a : Bytes)
    (hlen : 1 ≤ params.wots_par.len) (hks : params.wots_par.len * params.n ≤ pk.length) :
    (l_tree P params pk ps a).leaf.length = params.n := by
  simp only [l_tree]
  apply rd_length
  rw [l_tree_loop_length P params.n ps _ _ hks hlen]
  simp only
  calc 0 + params.n = 1 * params.n := by ring
    _ ≤ params.wots_par.len * params.n := Nat.mul_le_mul_right _ hlen
    _ ≤ pk.length := hks

theorem gen_leaf_length (P : Primitives) (params : xmss_params) (sk ps la oa : Bytes)
    (hlen : 1 ≤ params.wots_par.len)
    (hks : params.wots_par.len * params.n ≤ params.wots_par.keysize) :
    (gen_leaf_wots P params sk ps la oa).leaf.length = params.n := by
  simp only [gen_leaf_wots]
  exact l_tree_leaf_length P params _ _ _ hlen (by rw [P.wots_pkgen_len]; exact hks)

/-! ### what l_tree leaves in the caller's address -/

theorem take_set_ge {α : Type} (l : List α) (k n : Nat) (x : α) (h : k ≤ n) :
    (l.set n x).take k = l.take k := by
  rw [List.set_take]
  exact List.set_eq_of_length_le (by simp; omega)

theorem set_ltree_height_frame (a : Bytes) (v : Nat) :
    (SET_LTREE_TREE_HEIGHT a v).length = a.length ∧
      (SET_LTREE_TREE_HEIGHT a v).take 13 = a.take 13 := by
  simp [SET_LTREE_TREE_HEIGHT, take_set_ge]

theorem set_ltree_index_frame (a : Bytes) (v : Nat) :
    (SET_LTREE_TREE_INDEX a v).length = a.length ∧
      (SET_LTREE_TREE_INDEX a v).take 13 = a.take 13 := by
  simp [SET_LTREE_TREE_INDEX, take_set_ge]


theorem l_tree_pairs_frame (P : Primitives) (n : Nat) (ps : Bytes) (bound : Nat)
    (pk a : Bytes) :
    (l_tree_pairs P n ps bound pk a).2.length = a.length ∧
      (l_tree_pairs P n ps bound pk a).2.take 13 = a.take 13 := by
  unfold l_tree_pairs
  refine foldl_inv (fun s : Bytes × Bytes => s.2.length = a.length ∧ s.2.take 13 = a.take 13)
    _ _ ?_ _ ⟨rfl, rfl⟩
  intro s i _ hs
  obtain ⟨f1, f2⟩ := set_ltree_index_frame s.2 i
  exact ⟨f1.trans hs.1, f2.trans hs.2⟩

theorem l_tree_body_frame (P : Primitives) (n : Nat) (ps : Bytes) (st : l_tree_state) :
    (l_tree_body P n ps st).addr.length = st.addr.length ∧
      (l_tree_body P n ps st).addr.take 13 = st.addr.take 13 := by
  obtain ⟨f1, f2⟩ := l_tree_pairs_frame P n ps (st.l >>> 1) st.wots_pk st.addr
  obtain ⟨g1, g2⟩ := set_ltree_height_frame
    (l_tree_pairs P n ps (st.l >>> 1) st.wots_pk st.addr).2 (st.height + 1)
  exact ⟨g1.trans f1, g2.trans f2⟩

theorem l_tree_loop_frame (P : Primitives) (n : Nat) (ps : Bytes) (fuel : Nat)
    (st : l_tree_state) :
    (l_tree_loop P n ps fuel st).addr.length = st.addr.length ∧
      (l_tree_loop P n ps fuel st).addr.take 13 = st.addr.take 13 := by
  induction fuel generalizing st with
  | zero => exact ⟨rfl, rfl⟩
  | succ k ih =>
    simp only [l_tree_loop]
    split
    · obtain ⟨b1, b2⟩ := l_tree_body_frame P n ps st
      obtain ⟨i1, i2⟩ := ih (l_tree_body P n ps st)
      exact ⟨i1.trans b1, i2.trans b2⟩
    · exact ⟨rfl, rfl⟩

theorem l_tree_frame (P : Primitives) (params : xmss_params) (pk ps a : Bytes) :
    (l_tree P params pk ps a).addr.length = a.length ∧
      (l_tree P params pk ps a).addr.take 13 = a.take 13 := by
  obtain ⟨g1, g2⟩ := set_ltree_height_frame a 0
  obtain ⟨i1, i2⟩ := l_tree_loop_frame P params.n ps params.wots_par.len
    { wots_pk := pk, addr := SET_LTREE_TREE_HEIGHT a 0, l := params.wots_par.len, height := 0 }
  exact ⟨i1.trans g1, i2.trans g2⟩

/-! ### address invariants -/

theorem and1_or_and254 (x y : Nat) : ((x &&& 1) ||| y) &&& 254 = y &&& 254 := by
  have e : (1 : Nat) &&& 254 = 0 := by decide
  rw [Nat.and_distrib_right, Nat.and_assoc, e, Nat.and_zero, Nat.zero_or]

theorem and254_or_and1 (x y : Nat) : ((x &&& 254) ||| (y &&& 1)) &&& 254 = x &&& 254 := by
  have e : (1 : Nat) &&& 254 = 0 := by decide
  rw [Nat.and_distrib_right, Nat.and_assoc, Nat.and_assoc, e, Nat.and_self, Nat.and_zero,
    Nat.or_zero]

theorem mod2_or_and254 (x y : Nat) : ((x % 2) ||| y) &&& 254 = y &&& 254 := by
  rw [← Nat.and_one_is_mod, and1_or_and254]

theorem and254_or_mod2 (x y : Nat) : ((x &&& 254) ||| (y % 2)) &&& 254 = x &&& 254 := by
  rw [← Nat.and_one_is_mod, and254_or_and1]

theorem uninit16 (f : Nat → Nat) : uninit f 16 =
    [f 0 % 256, f 1 % 256, f 2 % 256, f 3 % 256, f 4 % 256, f 5 % 256, f 6 % 256, f 7 % 256,
     f 8 % 256, f 9 % 256, f 10 % 256, f 11 % 256, f 12 % 256, f 13 % 256, f 14 % 256,
     f 15 % 256] := rfl

theorem ots_rel_init (addr : Bytes) (f : Nat → Nat) (h : addr.length = 16) :
    ots_rel (SET_OTS_BIT (wr (uninit f 16) 0 (rd addr 0 10)) 1) (ots_base addr) := by
  obtain ⟨c0, c1, c2, c3, c4, c5, c6, c7, c8, c9, c10, c11, c12, c13, c14, c15, rfl⟩ := len16 addr h
  simp [ots_rel, ots_base, uninit16, SET_OTS_BIT, wr, rd, byte]

theorem ltree_pre_init (addr : Bytes) (f : Nat → Nat) (h : addr.length = 16) :
    ltree_pre (SET_LTREE_BIT (SET_OTS_BIT (wr (uninit f 16) 0 (rd addr 0 10)) 0) 1)
      (ltree_base addr) := by
  obtain ⟨c0, c1, c2, c3, c4, c5, c6, c7, c8, c9, c10, c11, c12, c13, c14, c15, rfl⟩ := len16 addr h
  simp [ltree_pre, ltree_base, uninit16, SET_OTS_BIT, SET_LTREE_BIT, wr, rd, byte]

theorem node_rel_init (addr : Bytes) (f g : Nat → Nat) (h : addr.length = 16) :
    node_rel (SET_NODE_PADDING (SET_LTREE_BIT (wr (uninit g 16) 0
      (rd (SET_LTREE_BIT (SET_OTS_BIT (wr (uninit f 16) 0 (rd addr 0 10)) 0) 1) 0 10)) 0))
      (node_base addr) := by
  obtain ⟨c0, c1, c2, c3, c4, c5, c6, c7, c8, c9, c10, c11, c12, c13, c14, c15, rfl⟩ := len16 addr h
  have e : (3 : Nat) &&& 252 = 0 := by decide
  simp [node_rel, node_base, ltree_base, uninit16, SET_OTS_BIT, SET_LTREE_BIT, SET_NODE_PADDING,
    wr, rd, byte, Nat.and_assoc, e]

theorem ots_rel_step (a b : Bytes) (i : Nat) (h : ots_rel a b) :
    ZEROISE_OTS_ADDR (SET_OTS_ADDRESS a i) = ZEROISE_OTS_ADDR (SET_OTS_ADDRESS b i) ∧
      ots_rel (ZEROISE_OTS_ADDR (SET_OTS_ADDRESS a i)) b := by
  obtain ⟨ha, hb, ht, h9⟩ := h
  obtain ⟨a0, a1, a2, a3, a4, a5, a6, a7, a8, a9, a10, a11, a12, a13, a14, a15, rfl⟩ := len16 a ha
  obtain ⟨b0, b1, b2, b3, b4, b5, b6, b7, b8, b9, b10, b11, b12, b13, b14, b15, rfl⟩ := len16 b hb
  simp at ht
  simp [byte] at h9
  simp [ots_rel, SET_OTS_ADDRESS, ZEROISE_OTS_ADDR, byte, ht, h9, mod2_or_and254, and254_or_mod2]

theorem ltree_pre_step (a b : Bytes) (i : Nat) (h : ltree_pre a b) :
    (SET_LTREE_ADDRESS a i).length = 16 ∧ (SET_LTREE_ADDRESS b i).length = 16 ∧
      (SET_LTREE_ADDRESS a i).take 13 = (SET_LTREE_ADDRESS b i).take 13 ∧
      (SET_LTREE_ADDRESS a i).take 10 = b.take 10 := by
  obtain ⟨ha, hb, ht⟩ := h
  obtain ⟨a0, a1, a2, a3, a4, a5, a6, a7, a8, a9, a10, a11, a12, a13, a14, a15, rfl⟩ := len16 a ha
  obtain ⟨b0, b1, b2, b3, b4, b5, b6, b7, b8, b9, b10, b11, b12, b13, b14, b15, rfl⟩ := len16 b hb
  simp at ht
  simp [SET_LTREE_ADDRESS, ht]

theorem node_rel_height (a b : Bytes) (k : Nat) (h : node_rel a b) :
    node_lev_rel (SET_NODE_TREE_HEIGHT a k) (SET_NODE_TREE_HEIGHT b k) := by
  obtain ⟨ha, hb, ht, h11⟩ := h
  obtain ⟨a0, a1, a2, a3, a4, a5, a6, a7, a8, a9, a10, a11, a12, a13, a14, a15, rfl⟩ := len16 a ha
  obtain ⟨b0, b1, b2, b3, b4, b5, b6, b7, b8, b9, b10, b11, b12, b13, b14, b15, rfl⟩ := len16 b hb
  simp at ht
  simp [byte] at h11
  simp [node_lev_rel, SET_NODE_TREE_HEIGHT, byte, ht, h11, and3_or_and252]

theorem node_lev_rel_index (a b : Bytes) (t : Nat) (h : node_lev_rel a b) :
    node_lev_rel (SET_NODE_TREE_INDEX a t) b ∧
      clear_key_bits (SET_NODE_TREE_INDEX a t) = clear_key_bits (SET_NODE_TREE_INDEX b t) := by
  obtain ⟨ha, hb, ht, h12⟩ := h
  obtain ⟨a0, a1, a2, a3, a4, a5, a6, a7, a8, a9, a10, a11, a12, a13, a14, a15, rfl⟩ := len16 a ha
  obtain ⟨b0, b1, b2, b3, b4, b5, b6, b7, b8, b9, b10, b11, b12, b13, b14, b15, rfl⟩ := len16 b hb
  simp at ht
  simp [byte] at h12
  simp [node_lev_rel, SET_NODE_TREE_INDEX, clear_key_bits, byte, ht, h12, and3_or_and252,
    and252_or_and3]

theorem node_lev_rel_height (a b : Bytes) (k : Nat) (h : node_lev_rel a (SET_NODE_TREE_HEIGHT b k))
    (hb : b.length = 16) : node_rel a b := by
  obtain ⟨ha, _, ht, h12⟩ := h
  obtain ⟨a0, a1, a2, a3, a4, a5, a6, a7, a8, a9, a10, a11, a12, a13, a14, a15, rfl⟩ := len16 a ha
  obtain ⟨b0, b1, b2, b3, b4, b5, b6, b7, b8, b9, b10, b11, b12, b13, b14, b15, rfl⟩ := len16 b hb
  simp [SET_NODE_TREE_HEIGHT, byte] at ht
  simp [node_rel, byte, ht, and252_or_and3]

/-! ## Blocks of a buffer and the leaf of a loop pass -/

/-! ### blocks of a buffer -/

theorem node_wr_same (n : Nat) (buf : Bytes) (j : Nat) (d : Bytes) (hd : d.length = n)
    (h : j * n ≤ buf.length) : node n (wr buf (j * n) d) j = d := by
  unfold node
  have := rd_wr_same buf (j * n) d h
  rwa [hd] at this

theorem node_wr_ne (n : Nat) (buf : Bytes) (i j : Nat) (d : Bytes) (hd : d.length = n)
    (h : j * n ≤ buf.length) (hij : i ≠ j) : node n (wr buf (j * n) d) i = node n buf i := by
  unfold node
  rcases Nat.lt_or_gt_of_ne hij with hlt | hgt
  · apply rd_wr_before _ _ _ _ _ _ h
    calc i * n + n = (i + 1) * n := by ring
      _ ≤ j * n := Nat.mul_le_mul_right _ hlt
  · apply rd_wr_after _ _ _ _ _ _ h
    rw [hd]
    calc j * n + n = (j + 1) * n := by ring
      _ ≤ i * n := Nat.mul_le_mul_right _ hgt

theorem rd_two_nodes (n : Nat) (buf : Bytes) (i : Nat) :
    rd buf (i * n) (2 * n) = node n buf i ++ node n buf (i + 1) := by
  unfold node
  have : 2 * n = n + n := by ring
  rw [this, rd_append]
  congr 2
  ring

theorem node_length (n : Nat) (buf : Bytes) (i : Nat) (h : (i + 1) * n ≤ buf.length) :
    (node n buf i).length = n := by
  unfold node
  apply rd_length
  calc i * n + n = (i + 1) * n := by ring
    _ ≤ buf.length := h

/-! ### the leaf of a loop pass -/

theorem take_of_take13 {a b : Bytes} (h : a.take 13 = b.take 13) : a.take 10 = b.take 10 := by
  have := congrArg (List.take 10) h
  simpa [List.take_take] using this

theorem gen_leaf_spec (P : Primitives) (hH : ignores_key_bits P) (params : xmss_params)
    (sk ps addr la oa : Bytes) (i : Nat)
    (hl : ltree_pre la (ltree_base addr)) (ho : ots_rel oa (ots_base addr)) :
    (gen_leaf_wots P params sk ps (SET_LTREE_ADDRESS la i) (SET_OTS_ADDRESS oa i)).leaf =
        leaf_of P params sk ps addr i ∧
      ltree_pre (gen_leaf_wots P params sk ps (SET_LTREE_ADDRESS la i)
        (SET_OTS_ADDRESS oa i)).ltree_addr (ltree_base addr) ∧
      ots_rel (gen_leaf_wots P params sk ps (SET_LTREE_ADDRESS la i)
        (SET_OTS_ADDRESS oa i)).ots_addr (ots_base addr) := by
  obtain ⟨o1, o2⟩ := ots_rel_step oa (ots_base addr) i ho
  obtain ⟨l1, l2, l3, l4⟩ := ltree_pre_step la (ltree_base addr) i hl
  simp only [gen_leaf_wots, get_seed, leaf_of, o1]
  refine ⟨l_tree_leaf_congr P hH params _ ps _ _ l1 l2 l3, ?_, ?_⟩
  · obtain ⟨f1, f2⟩ := l_tree_frame P params
      (P.wots_pkgen (P.prg_with_counter 32 (rd sk 0 32)
        (ZEROISE_OTS_ADDR (SET_OTS_ADDRESS (ots_base addr) i))) params.wots_par ps
        (ZEROISE_OTS_ADDR (SET_OTS_ADDRESS (ots_base addr) i))) ps (SET_LTREE_ADDRESS la i)
    exact ⟨f1.trans l1, hl.2.1, (take_of_take13 f2).trans l4⟩
  · rw [← o1]; exact o2

theorem leaf_of_length (P : Primitives) (params : xmss_params) (sk ps addr : Bytes) (i : Nat)
    (hlen : 1 ≤ params.wots_par.len)
    (hks : params.wots_par.len * params.n ≤ params.wots_par.keysize) :
    (leaf_of P params sk ps addr i).length = params.n :=
  gen_leaf_length P params sk ps _ _ hlen hks

theorem merkle_node_length (P : Primitives) (params : xmss_params) (sk ps addr : Bytes)
    (hlen : 1 ≤ params.wots_par.len)
    (hks : params.wots_par.len * params.n ≤ params.wots_par.keysize) (k j : Nat) :
    (merkle_node P params sk ps addr k j).length = params.n := by
  cases k with
  | zero => exact leaf_of_length P params sk ps addr j hlen hks
  | succ k => simp [merkle_node, P.hash_2n_n_len]

/-- The hash of a node under the address a loop holds equals the hash under the address
derived from `node_base`. -/
theorem hash_node_addr (P : Primitives) (hH : ignores_key_bits P) (x ps a b : Bytes) (n k j : Nat)
    (h : node_rel a b) :
    P.hash_2n_n x ps (SET_NODE_TREE_INDEX (SET_NODE_TREE_HEIGHT a k) j) n =
        P.hash_2n_n x ps (SET_NODE_TREE_INDEX (SET_NODE_TREE_HEIGHT b k) j) n ∧
      node_rel (SET_NODE_TREE_INDEX (SET_NODE_TREE_HEIGHT a k) j) b := by
  obtain ⟨r1, r2⟩ := node_lev_rel_index _ _ j (node_rel_height a b k h)
  refine ⟨?_, node_lev_rel_height _ _ k r1 h.2.1⟩
  rw [hH x ps (SET_NODE_TREE_INDEX (SET_NODE_TREE_HEIGHT a k) j),
    hH x ps (SET_NODE_TREE_INDEX (SET_NODE_TREE_HEIGHT b k) j), r2]

/-! ## treehash computes the Merkle root -/

theorem entries_at_frame (n : Nat) (stack stack' : Bytes) (levels levels' : List Nat)
    (S : List (Nat × Bytes))
    (h : ∀ s, s < S.length → levels'.getD s 0 = levels.getD s 0 ∧
      node n stack' s = node n stack s)
    (he : entries_at n stack levels S) : entries_at n stack' levels' S := by
  induction S with
  | nil => trivial
  | cons e rest ih =>
    obtain ⟨e1, e2, e3, e4⟩ := he
    obtain ⟨f1, f2⟩ := h rest.length (by simp)
    refine ⟨f1.trans e1, f2.trans e2, e3, ih (fun s hs => h s ?_) e4⟩
    simp only [List.length_cons]; omega

theorem getD_set_same (l : List Nat) (i v : Nat) (h : i < l.length) :
    (l.set i v).getD i 0 = v := by
  simp [List.getD_eq_getElem?_getD, List.getElem?_set, h]

theorem getD_set_ne (l : List Nat) (i j v : Nat) (h : i ≠ j) :
    (l.set i v).getD j 0 = l.getD j 0 := by
  simp [List.getD_eq_getElem?_getD, List.getElem?_set, h]

/-- The merge loop of `treehash` acts on the stack as `merge_entries` does. -/
theorem treehash_merge_repr (P : Primitives) (hH : ignores_key_bits P) (params : xmss_params)
    (ps addr : Bytes) (cap idx fuel : Nat) (st : treehash_state) (S : List (Nat × Bytes))
    (hrep : stack_repr params.n cap S st) (hnode : node_rel st.node_addr (node_base addr)) :
    stack_repr params.n cap (merge_entries P params ps addr idx fuel S)
        (treehash_merge P params.n ps idx fuel st) ∧
      node_rel (treehash_merge P params.n ps idx fuel st).node_addr (node_base addr) ∧
      (treehash_merge P params.n ps idx fuel st).ots_addr = st.ots_addr ∧
      (treehash_merge P params.n ps idx fuel st).ltree_addr = st.ltree_addr := by
  induction fuel generalizing st S with
  | zero => simpa [treehash_merge, merge_entries] using ⟨hrep, hnode⟩
  | succ f ih =>
    obtain ⟨hso, hcap, hlen, hlev, hent⟩ := hrep
    match S, hso, hcap, hent with
    | [], hso, hcap, hent =>
      have : ¬ (st.stackoffset > 1) := by simp at hso; omega
      simp only [treehash_merge, merge_entries, this, false_and, if_false]
      exact ⟨⟨hso, hcap, hlen, hlev, hent⟩, hnode, trivial, trivial⟩
    | [e], hso, hcap, hent =>
      have : ¬ (st.stackoffset > 1) := by simp at hso; omega
      simp only [treehash_merge, merge_entries, this, false_and, if_false]
      exact ⟨⟨hso, hcap, hlen, hlev, hent⟩, hnode, trivial, trivial⟩
    | e2 :: e1 :: rest, hso, hcap, hent =>
      obtain ⟨a1, a2, a3, b1, b2, b3, hrest⟩ := hent
      simp only [List.length_cons] at hso hcap a1 a2
      have hso1 : st.stackoffset - 1 = rest.length + 1 := by omega
      have hso2 : st.stackoffset - 2 = rest.length := by omega
      have hgt : st.stackoffset > 1 := by omega
      simp only [treehash_merge, merge_entries, hso1, hso2, a1, b1, hgt, true_and]
      by_cases heq : e2.1 = e1.1
      · simp only [heq, if_true]
        have hbound : rest.length * params.n ≤ st.stack.length := by
          rw [hlen]; exact Nat.mul_le_mul_right _ (by omega)
        obtain ⟨hh1, hh2⟩ := hash_node_addr P hH (rd st.stack (rest.length * params.n) (2 * params.n))
          ps st.node_addr (node_base addr) params.n e1.1 (idx >>> (e1.1 + 1)) hnode
        have hrd : rd st.stack (rest.length * params.n) (2 * params.n) = e1.2 ++ e2.2 := by
          rw [rd_two_nodes, b2, a2]
        apply ih
        · refine ⟨rfl, by simp only [List.length_cons]; omega,
            ?_, by simpa using hlev, ?_⟩
          · simp only
            rw [wr_length, hlen]
            rw [P.hash_2n_n_len, hlen]
            calc rest.length * params.n + params.n = (rest.length + 1) * params.n := by ring
              _ ≤ cap * params.n := Nat.mul_le_mul_right _ (by omega)
          · refine ⟨?_, ?_, P.hash_2n_n_len _ _ _ _, ?_⟩
            · simp only
              exact getD_set_same _ _ _ (by omega)
            · simp only
              rw [node_wr_same _ _ _ _ (P.hash_2n_n_len _ _ _ _) hbound, hh1, hrd]
            · refine entries_at_frame _ _ _ _ _ _ (fun s hs => ⟨?_, ?_⟩) hrest
              · exact getD_set_ne _ _ _ _ (by omega)
              · exact node_wr_ne _ _ _ _ _ (P.hash_2n_n_len _ _ _ _) hbound (by omega)
        · exact hh2
      · simp only [heq, if_false]
        exact ⟨⟨by simp only [List.length_cons]; omega, by simp only [List.length_cons]; omega,
          hlen, hlev, a1, a2, a3, b1, b2, b3, hrest⟩, hnode, trivial, trivial⟩

/-- One pass of the leaf loop of `treehash` pushes the leaf and merges. -/
theorem treehash_step_repr (P : Primitives) (hH : ignores_key_bits P) (params : xmss_params)
    (hlen : 1 ≤ params.wots_par.len)
    (hks : params.wots_par.len * params.n ≤ params.wots_par.keysize)
    (sk ps addr : Bytes) (cap idx : Nat) (st : treehash_state) (S : List (Nat × Bytes))
    (hrep : stack_repr params.n cap S st) (hroom : S.length < cap) (ha : addrs_ok addr st) :
    stack_repr params.n cap
        (merge_entries P params ps addr idx (S.length + 1)
          ((0, leaf_of P params sk ps addr idx) :: S))
        (treehash_step P params sk ps st idx) ∧
      addrs_ok addr (treehash_step P params sk ps st idx) := by
  obtain ⟨hso, hcap, hlen', hlev, hent⟩ := hrep
  obtain ⟨al, ao, an⟩ := ha
  obtain ⟨g1, g2, g3⟩ := gen_leaf_spec P hH params sk ps addr st.ltree_addr st.ots_addr idx al ao
  have gl := gen_leaf_length P params sk ps (SET_LTREE_ADDRESS st.ltree_addr idx)
    (SET_OTS_ADDRESS st.ots_addr idx) hlen hks
  have hbound : st.stackoffset * params.n ≤ st.stack.length := by
    rw [hlen', hso]; exact Nat.mul_le_mul_right _ hcap
  have key := treehash_merge_repr P hH params ps addr cap idx (st.stackoffset + 1)
    { stack := wr st.stack (st.stackoffset * params.n)
        (gen_leaf_wots P params sk ps (SET_LTREE_ADDRESS st.ltree_addr idx)
          (SET_OTS_ADDRESS st.ots_addr idx)).leaf,
      stacklevels := st.stacklevels.set st.stackoffset 0,
      stackoffset := st.stackoffset + 1,
      ots_addr := (gen_leaf_wots P params sk ps (SET_LTREE_ADDRESS st.ltree_addr idx)
          (SET_OTS_ADDRESS st.ots_addr idx)).ots_addr,
      ltree_addr := (gen_leaf_wots P params sk ps (SET_LTREE_ADDRESS st.ltree_addr idx)
          (SET_OTS_ADDRESS st.ots_addr idx)).ltree_addr,
      node_addr := st.node_addr }
    ((0, leaf_of P params sk ps addr idx) :: S)
    (by
      refine ⟨by simp [hso], by simp only [List.length_cons]; omega, ?_, by simpa using hlev, ?_⟩
      · simp only
        rw [wr_length, hlen']
        rw [gl, hlen', hso]
        calc S.length * params.n + params.n = (S.length + 1) * params.n := by ring
          _ ≤ cap * params.n := Nat.mul_le_mul_right _ hroom
      · refine ⟨?_, ?_, ?_, ?_⟩
        · simp only [← hso]
          exact getD_set_same _ _ _ (by omega)
        · simp only [← hso]
          rw [node_wr_same _ _ _ _ gl hbound, g1]
        · exact leaf_of_length P params sk ps addr idx hlen hks
        · refine entries_at_frame _ _ _ _ _ _ (fun s hs => ⟨?_, ?_⟩) hent
          · exact getD_set_ne _ _ _ _ (by omega)
          · exact node_wr_ne _ _ _ _ _ gl hbound (by omega))
    an
  obtain ⟨k1, k2, k3, k4⟩ := key
  rw [hso] at k1 k2 k3 k4
  refine ⟨?_, ?_, ?_, ?_⟩
  · simpa only [treehash_step, hso] using k1
  · simp only [treehash_step, hso]; rw [k4]; exact g2
  · simp only [treehash_step, hso]; rw [k3]; exact g3
  · simpa only [treehash_step, hso] using k2

theorem subtree_leaves_succ (k a : Nat) :
    subtree_leaves (k + 1) a = subtree_leaves k (2 * a) ++ subtree_leaves k (2 * a + 1) := by
  unfold subtree_leaves
  have e : 2 ^ (k + 1) = 2 ^ k + 2 ^ k := by rw [pow_succ]; ring
  rw [e, List.range_add, List.map_append, List.map_map]
  congr 1
  · apply List.map_congr_left
    intro j _
    rw [← e, pow_succ]; ring
  · apply List.map_congr_left
    intro j _
    simp only [Function.comp]
    rw [← e, pow_succ]; ring

theorem merge_entries_stop (P : Primitives) (params : xmss_params) (ps addr : Bytes)
    (idx fuel k : Nat) (v : Bytes) (S : List (Nat × Bytes)) (h : ∀ e ∈ S, k < e.1) :
    merge_entries P params ps addr idx fuel ((k, v) :: S) = (k, v) :: S := by
  cases fuel with
  | zero => rfl
  | succ f =>
    cases S with
    | nil => rfl
    | cons e rest =>
      have : k ≠ e.1 := Nat.ne_of_lt (h e (List.mem_cons_self _ _))
      simp [merge_entries, this]

theorem last_leaf_shift (k a : Nat) : (a * 2 ^ (k + 1) + 2 ^ (k + 1) - 1) >>> (k + 1) = a := by
  rw [Nat.shiftRight_eq_div_pow]
  have hp : 0 < 2 ^ (k + 1) := Nat.two_pow_pos _
  have : a * 2 ^ (k + 1) + 2 ^ (k + 1) - 1 = 2 ^ (k + 1) * a + (2 ^ (k + 1) - 1) := by
    rw [Nat.mul_comm]; omega
  rw [this, Nat.mul_add_div hp, Nat.div_eq_of_lt (by omega)]
  rfl

/-- Running the leaf loop of `treehash` over the leaves below node `a` of level `k` pushes
that node of the Merkle tree and merges. -/
theorem treehash_subtree (P : Primitives) (hH : ignores_key_bits P) (params : xmss_params)
    (hlen : 1 ≤ params.wots_par.len)
    (hks : params.wots_par.len * params.n ≤ params.wots_par.keysize)
    (sk ps addr : Bytes) (cap k : Nat) :
    ∀ (a : Nat) (st : treehash_state) (S : List (Nat × Bytes)),
      stack_repr params.n cap S st → (∀ e ∈ S, k ≤ e.1) → S.length + k < cap →
      addrs_ok addr st →
      stack_repr params.n cap
          (merge_entries P params ps addr (a * 2 ^ k + 2 ^ k - 1) (S.length + 1)
            ((k, merkle_node P params sk ps addr k a) :: S))
          ((subtree_leaves k a).foldl (treehash_step P params sk ps) st) ∧
        addrs_ok addr ((subtree_leaves k a).foldl (treehash_step P params sk ps) st) := by
  induction k with
  | zero =>
    intro a st S hrep _ hroom ha
    have := treehash_step_repr P hH params hlen hks sk ps addr cap a st S hrep (by omega) ha
    simpa [subtree_leaves, merkle_node] using this
  | succ k ih =>
    intro a st S hrep hlev hroom ha
    rw [subtree_leaves_succ, List.foldl_append]
    obtain ⟨l1, l2⟩ := ih (2 * a) st S hrep (fun e he => by have := hlev e he; omega)
      (by omega) ha
    rw [merge_entries_stop P params ps addr _ _ k _ S (fun e he => hlev e he)] at l1
    obtain ⟨r1, r2⟩ := ih (2 * a + 1) _ ((k, merkle_node P params sk ps addr k (2 * a)) :: S) l1
      (by
        intro e he
        rcases List.mem_cons.mp he with rfl | he
        · exact Nat.le_refl _
        · have := hlev e he; omega)
      (by simp only [List.length_cons]; omega) l2
    refine ⟨?_, r2⟩
    have hidx : (2 * a + 1) * 2 ^ k + 2 ^ k - 1 = a * 2 ^ (k + 1) + 2 ^ (k + 1) - 1 := by
      rw [pow_succ]; congr 1; ring
    rw [hidx] at r1
    simp only [List.length_cons, merge_entries, if_true, last_leaf_shift] at r1
    simpa only [merkle_node] using r1

theorem uninit_length (f : Nat → Nat) (len : Nat) : (uninit f len).length = len := by
  simp [uninit]

theorem treehash_init_ok (params : xmss_params) (u : Uninit) (height : Nat) (addr : Bytes)
    (haddr : addr.length = 16) :
    stack_repr params.n (height + 1) [] (treehash_init params u height addr) ∧
      addrs_ok addr (treehash_init params u height addr) := by
  refine ⟨⟨rfl, Nat.zero_le _, uninit_length _ _, by simp [treehash_init, uninit_words], trivial⟩,
    ltree_pre_init addr _ haddr, ots_rel_init addr _ haddr, node_rel_init addr _ _ haddr⟩

/-- The node `treehash` returns for index 0 is the root of the Merkle tree of that
height. -/
theorem treehash_eq_merkle (P : Primitives) (hH : ignores_key_bits P) (params : xmss_params)
    (hlen : 1 ≤ params.wots_par.len)
    (hks : params.wots_par.len * params.n ≤ params.wots_par.keysize)
    (u : Uninit) (height : Nat) (sk ps addr : Bytes) (haddr : addr.length = 16) :
    treehash P params u height 0 sk ps addr = merkle_node P params sk ps addr height 0 := by
  obtain ⟨i1, i2⟩ := treehash_init_ok params u height addr haddr
  obtain ⟨r1, _⟩ := treehash_subtree P hH params hlen hks sk ps addr (height + 1) height 0
    (treehash_init params u height addr) [] i1 (by simp) (by simp) i2
  have hl : (List.range (1 <<< height)).map (fun k => 0 + k) = subtree_leaves height 0 := by
    simp [subtree_leaves, Nat.one_shiftLeft]
  unfold treehash treehash_final
  rw [hl]
  obtain ⟨_, _, _, _, e1, e2, _⟩ := r1
  have : (0 : Nat) = 0 * params.n := by simp
  simp only [List.length_nil] at e2
  unfold node at e2
  rw [Nat.zero_mul] at e2
  exact e2

/-! ## compute_authpath_wots builds the Merkle tree -/

theorem foldl_range_succ {σ : Type} (f : σ → Nat → σ) (s : σ) (c : Nat) :
    (List.range (c + 1)).foldl f s = f ((List.range c).foldl f s) c := by
  rw [List.range_succ, List.foldl_append]; rfl

/-- The leaf loop of `compute_authpath_wots` stores leaf `i` in block `2^h + i`. -/
theorem authpath_leaves_spec (P : Primitives) (hH : ignores_key_bits P) (params : xmss_params)
    (hlen : 1 ≤ params.wots_par.len)
    (hks : params.wots_par.len * params.n ≤ params.wots_par.keysize)
    (sk ps addr : Bytes) (st : authpath_leaf_state) (N : Nat)
    (hN : 2 * 2 ^ params.h ≤ N) (hl : st.tree.length = N * params.n)
    (hla : ltree_pre st.ltree_addr (ltree_base addr)) (hoa : ots_rel st.ots_addr (ots_base addr))
    (c : Nat) (hc : c ≤ 2 ^ params.h) :
    ((List.range c).foldl (authpath_leaf_step P params sk ps) st).tree.length = N * params.n ∧
      (∀ i, i < c → node params.n ((List.range c).foldl (authpath_leaf_step P params sk ps) st).tree
        (2 ^ params.h + i) = leaf_of P params sk ps addr i) ∧
      ltree_pre ((List.range c).foldl (authpath_leaf_step P params sk ps) st).ltree_addr
        (ltree_base addr) ∧
      ots_rel ((List.range c).foldl (authpath_leaf_step P params sk ps) st).ots_addr
        (ots_base addr) := by
  induction c with
  | zero => exact ⟨hl, fun i hi => absurd hi (Nat.not_lt_zero _), hla, hoa⟩
  | succ c ih =>
    obtain ⟨i1, i2, i3, i4⟩ := ih (by omega)
    rw [foldl_range_succ]
    generalize (List.range c).foldl (authpath_leaf_step P params sk ps) st = s at i1 i2 i3 i4
    obtain ⟨g1, g2, g3⟩ := gen_leaf_spec P hH params sk ps addr s.ltree_addr s.ots_addr c i3 i4
    have gl := gen_leaf_length P params sk ps (SET_LTREE_ADDRESS s.ltree_addr c)
      (SET_OTS_ADDRESS s.ots_addr c) hlen hks
    have hoff : (1 <<< params.h) * params.n + c * params.n = (2 ^ params.h + c) * params.n := by
      rw [Nat.one_shiftLeft]; ring
    have hb : (2 ^ params.h + c) * params.n ≤ s.tree.length := by
      rw [i1]; exact Nat.mul_le_mul_right _ (by omega)
    simp only [authpath_leaf_step, hoff]
    refine ⟨?_, ?_, g2, g3⟩
    · rw [wr_length, i1]
      rw [gl, i1]
      calc (2 ^ params.h + c) * params.n + params.n = (2 ^ params.h + c + 1) * params.n := by ring
        _ ≤ N * params.n := Nat.mul_le_mul_right _ (by omega)
    · intro i hi
      by_cases hic : i = c
      · subst hic
        rw [node_wr_same _ _ _ _ gl hb, g1]
      · rw [node_wr_ne _ _ _ _ _ gl hb (by omega)]
        exact i2 i (by omega)

theorem two_mul_shift (t : Nat) : (2 * t) >>> 1 = t := by
  rw [Nat.shiftRight_eq_div_pow]; omega

/-- One level of the tree build of `compute_authpath_wots`, after `c` pairs. -/
theorem authpath_level_spec (P : Primitives) (hH : ignores_key_bits P) (n : Nat)
    (ps base tree a : Bytes) (k i L : Nat) (hL : tree.length = L)
    (hb : (i >>> 1 + (i + 1) / 2) * n ≤ L) (ha : node_lev_rel a (SET_NODE_TREE_HEIGHT base k))
    (c : Nat) (hc : c ≤ (i + 1) / 2) :
    let f := fun (st : Bytes × Bytes) (t : Nat) =>
      (wr st.1 ((i >>> 1) * n + ((2 * t) >>> 1) * n)
          (P.hash_2n_n (rd st.1 (i * n + (2 * t) * n) (2 * n)) ps
            (SET_NODE_TREE_INDEX st.2 ((2 * t) >>> 1)) n),
        SET_NODE_TREE_INDEX st.2 ((2 * t) >>> 1))
    ((List.range c).foldl f (tree, a)).1.length = L ∧
      (∀ x, x < i >>> 1 ∨ i >>> 1 + c ≤ x →
        node n ((List.range c).foldl f (tree, a)).1 x = node n tree x) ∧
      (∀ t, t < c → node n ((List.range c).foldl f (tree, a)).1 (i >>> 1 + t) =
        P.hash_2n_n (node n tree (i + 2 * t) ++ node n tree (i + 2 * t + 1)) ps
          (SET_NODE_TREE_INDEX (SET_NODE_TREE_HEIGHT base k) t) n) ∧
      node_lev_rel ((List.range c).foldl f (tree, a)).2 (SET_NODE_TREE_HEIGHT base k) := by
  intro f
  induction c with
  | zero => exact ⟨hL, fun _ _ => rfl, fun t ht => absurd ht (Nat.not_lt_zero _), ha⟩
  | succ c ih =>
    obtain ⟨i1, i2, i3, i4⟩ := ih (by omega)
    rw [foldl_range_succ]
    generalize (List.range c).foldl f (tree, a) = s at i1 i2 i3 i4
    obtain ⟨r1, r2⟩ := node_lev_rel_index s.2 _ c i4
    have hdi : i >>> 1 ≤ i := by rw [Nat.shiftRight_eq_div_pow]; omega
    have hoff : (i >>> 1) * n + c * n = (i >>> 1 + c) * n := by ring
    have hoff2 : i * n + (2 * c) * n = (i + 2 * c) * n := by ring
    have hbd : (i >>> 1 + c) * n ≤ s.1.length := by
      rw [i1]; exact le_trans (Nat.mul_le_mul_right _ (by omega)) hb
    have hlen := P.hash_2n_n_len (rd s.1 ((i + 2 * c) * n) (2 * n)) ps
      (SET_NODE_TREE_INDEX s.2 c) n
    simp only [f, two_mul_shift, hoff, hoff2]
    refine ⟨?_, ?_, ?_, r1⟩
    · rw [wr_length, i1]
      rw [hlen, i1]
      calc (i >>> 1 + c) * n + n = (i >>> 1 + c + 1) * n := by ring
        _ ≤ (i >>> 1 + (i + 1) / 2) * n := Nat.mul_le_mul_right _ (by omega)
        _ ≤ L := hb
    · intro x hx
      rw [node_wr_ne _ _ _ _ _ hlen hbd (by omega)]
      exact i2 x (by omega)
    · intro t ht
      by_cases htc : t = c
      · subst htc
        rw [node_wr_same _ _ _ _ hlen hbd, rd_two_nodes, i2 _ (Or.inr (by omega)),
          i2 _ (Or.inr (by omega)), hH, r2, ← hH]
      · rw [node_wr_ne _ _ _ _ _ hlen hbd (by omega)]
        exact i3 t (by omega)

theorem authpath_level_eq (P : Primitives) (n : Nat) (ps : Bytes) (i : Nat) (tree a : Bytes) :
    authpath_level P n ps i tree a =
      (List.range ((i + 1) / 2)).foldl (fun (st : Bytes × Bytes) (t : Nat) =>
        (wr st.1 ((i >>> 1) * n + ((2 * t) >>> 1) * n)
            (P.hash_2n_n (rd st.1 (i * n + (2 * t) * n) (2 * n)) ps
              (SET_NODE_TREE_INDEX st.2 ((2 * t) >>> 1)) n),
          SET_NODE_TREE_INDEX st.2 ((2 * t) >>> 1))) (tree, a) := by
  unfold authpath_level
  rw [List.foldl_map]

theorem shift_pow (h k : Nat) (hk : k ≤ h) : (2 ^ h) >>> k = 2 ^ (h - k) := by
  rw [Nat.shiftRight_eq_div_pow, Nat.pow_div hk (by decide)]

theorem shift_pow_gt (h k : Nat) (hk : h < k) : (2 ^ h) >>> k = 0 := by
  rw [Nat.shiftRight_eq_div_pow]
  exact Nat.div_eq_of_lt (Nat.pow_lt_pow_right (by decide) hk)

theorem half_add_half (i : Nat) : i >>> 1 + (i + 1) / 2 = i := by
  rw [Nat.shiftRight_eq_div_pow]; omega

/-- The tree build of `compute_authpath_wots` fills every row with the Merkle tree. -/
theorem authpath_tree_loop_spec (P : Primitives) (hH : ignores_key_bits P)
    (params : xmss_params) (sk ps addr : Bytes) (fuel : Nat) :
    ∀ (k : Nat) (st : authpath_tree_state), fuel + k = params.h + 1 → st.level = k →
      st.i = (2 ^ params.h) >>> k → st.tree.length = 2 * 2 ^ params.h * params.n →
      rows_ok P params sk ps addr (min k params.h) st.tree →
      node_rel st.node_addr (node_base addr) →
      (authpath_tree_loop P params.n ps fuel st).tree.length = 2 * 2 ^ params.h * params.n ∧
        rows_ok P params sk ps addr params.h (authpath_tree_loop P params.n ps fuel st).tree := by
  induction fuel with
  | zero =>
    intro k st hk _ _ hL hrows _
    have : min k params.h = params.h := by omega
    rw [this] at hrows
    exact ⟨hL, hrows⟩
  | succ f ih =>
    intro k st hk hlev hi hL hrows hrel
    have hkh : k ≤ params.h := by omega
    have hi' : st.i = 2 ^ (params.h - k) := by rw [hi, shift_pow _ _ hkh]
    have hpos : st.i > 0 := by rw [hi']; exact Nat.two_pow_pos _
    have hmin : min k params.h = k := by omega
    rw [hmin] at hrows
    have hile : st.i ≤ 2 ^ params.h := by
      rw [hi']; exact Nat.pow_le_pow_right (by decide) (by omega)
    obtain ⟨s1, s2, s3, s4⟩ := authpath_level_spec P hH params.n ps (node_base addr) st.tree
      (SET_NODE_TREE_HEIGHT st.node_addr k) k st.i (2 * 2 ^ params.h * params.n) hL
      (by rw [half_add_half]; exact Nat.mul_le_mul_right _ (by omega))
      (node_rel_height _ _ k hrel) ((st.i + 1) / 2) (Nat.le_refl _)
    simp only [authpath_tree_loop, hpos, if_true, hlev, authpath_level_eq]
    apply ih (k + 1) _ (by omega) rfl
    · simp only [hi, Nat.shiftRight_add]
    · exact s1
    · intro l hl j hj
      simp only
      by_cases hlk : l ≤ k
      · rw [s2 _ (Or.inr ?_)]
        · exact hrows l hlk j hj
        · rw [half_add_half, hi']
          have : 2 ^ (params.h - k) ≤ 2 ^ (params.h - l) :=
            Nat.pow_le_pow_right (by decide) (by omega)
          omega
      · have hl1 : l = k + 1 := by omega
        have hk1 : k + 1 ≤ params.h := by omega
        subst hl1
        have e1 : st.i = 2 * 2 ^ (params.h - (k + 1)) := by
          rw [hi', ← pow_succ']; congr 1; omega
        have e2 : st.i >>> 1 = 2 ^ (params.h - (k + 1)) := by
          rw [Nat.shiftRight_eq_div_pow, e1]; omega
        have hj2 : j < (st.i + 1) / 2 := by rw [e1]; omega
        rw [← e2, s3 j hj2]
        have e3 : st.i + 2 * j + 1 = 2 ^ (params.h - k) + (2 * j + 1) := by rw [hi']; ring
        have e4 : st.i + 2 * j = 2 ^ (params.h - k) + 2 * j := by rw [hi']
        rw [e3, e4, hrows k (Nat.le_refl _) (2 * j) (by rw [← hi', e1]; omega),
          hrows k (Nat.le_refl _) (2 * j + 1) (by rw [← hi', e1]; omega)]
        rfl
    · exact node_lev_rel_height _ _ k s4 hrel.2.1

theorem xor_one_even (q : Nat) : (2 * q) ^^^ 1 = 2 * q + 1 := by
  have h1 : 2 * q = Nat.bit false q := by simp [Nat.bit]
  have h2 : (1 : Nat) = Nat.bit true 0 := by simp [Nat.bit]
  rw [h1, h2, Nat.xor_bit]
  simp [Nat.bit]

theorem xor_one_odd (q : Nat) : (2 * q + 1) ^^^ 1 = 2 * q := by
  have h1 : 2 * q + 1 = Nat.bit true q := by simp [Nat.bit]
  have h2 : (1 : Nat) = Nat.bit true 0 := by simp [Nat.bit]
  rw [h1, h2, Nat.xor_bit]
  simp [Nat.bit]

/-- The buffer `tree` of `compute_authpath_wots` ends up holding the Merkle tree. -/
theorem authpath_tree_spec (P : Primitives) (hH : ignores_key_bits P) (params : xmss_params)
    (hlen : 1 ≤ params.wots_par.len)
    (hks : params.wots_par.len * params.n ≤ params.wots_par.keysize)
    (u : Uninit) (sk ps addr : Bytes) (haddr : addr.length = 16) :
    (authpath_tree P params u sk ps addr).length = 2 * 2 ^ params.h * params.n ∧
      rows_ok P params sk ps addr params.h (authpath_tree P params u sk ps addr) := by
  unfold authpath_tree
  simp only [Nat.one_shiftLeft]
  obtain ⟨l1, l2, _, _⟩ := authpath_leaves_spec P hH params hlen hks sk ps addr
    { tree := uninit u.buf (2 * 2 ^ params.h * params.n),
      ots_addr := SET_OTS_BIT (wr (uninit u.ots_addr 16) 0 (rd addr 0 10)) 1,
      ltree_addr := SET_LTREE_BIT (SET_OTS_BIT (wr (uninit u.ltree_addr 16) 0 (rd addr 0 10)) 0) 1 }
    (2 * 2 ^ params.h) (Nat.le_refl _) (uninit_length _ _)
    (ltree_pre_init addr _ haddr) (ots_rel_init addr _ haddr) (2 ^ params.h) (Nat.le_refl _)
  apply authpath_tree_loop_spec P hH params sk ps addr (params.h + 1) 0 _ rfl rfl rfl l1
  · intro l hl j hj
    have : l = 0 := by omega
    subst this
    exact l2 j hj
  · exact node_rel_init addr _ _ haddr

/-- The root `compute_authpath_wots` returns is the root of the Merkle tree. -/
theorem compute_authpath_root (P : Primitives) (hH : ignores_key_bits P) (params : xmss_params)
    (hlen : 1 ≤ params.wots_par.len)
    (hks : params.wots_par.len * params.n ≤ params.wots_par.keysize)
    (u : Uninit) (leaf_idx : Nat) (sk ps addr : Bytes) (haddr : addr.length = 16) :
    (compute_authpath_wots P params u leaf_idx sk ps addr).root =
      merkle_node P params sk ps addr params.h 0 := by
  obtain ⟨_, r⟩ := authpath_tree_spec P hH params hlen hks u sk ps addr haddr
  have := r params.h (Nat.le_refl _) 0 (by simp)
  simp only [Nat.sub_self, pow_zero, node, Nat.add_zero, Nat.one_mul] at this
  exact this

/-- Element `i` of the authentication path `compute_authpath_wots` returns is the
sibling of the ancestor of the leaf at level `i`. -/
theorem compute_authpath_path (P : Primitives) (hH : ignores_key_bits P) (params : xmss_params)
    (hlen : 1 ≤ params.wots_par.len)
    (hks : params.wots_par.len * params.n ≤ params.wots_par.keysize)
    (u : Uninit) (leaf_idx : Nat) (sk ps addr : Bytes) (haddr : addr.length = 16)
    (hidx : leaf_idx < 2 ^ params.h) :
    (compute_authpath_wots P params u leaf_idx sk ps addr).authpath =
      ((List.range params.h).map (fun i =>
        merkle_node P params sk ps addr i ((leaf_idx >>> i) ^^^ 1))).flatten := by
  obtain ⟨_, r⟩ := authpath_tree_spec P hH params hlen hks u sk ps addr haddr
  simp only [compute_authpath_wots]
  congr 1
  apply List.map_congr_left
  intro i hi
  have hih : i < params.h := List.mem_range.mp hi
  have h1 : ((1 <<< params.h) >>> i) * params.n + ((leaf_idx >>> i) ^^^ 1) * params.n =
      (2 ^ (params.h - i) + ((leaf_idx >>> i) ^^^ 1)) * params.n := by
    rw [Nat.one_shiftLeft, shift_pow _ _ (by omega)]; ring
  rw [h1]
  apply r i (by omega)
  apply Nat.xor_lt_two_pow
  · rw [Nat.shiftRight_eq_div_pow]
    apply Nat.div_lt_of_lt_mul
    rw [← pow_add]
    have : i + (params.h - i) = params.h := by omega
    rw [this]; exact hidx
  · exact Nat.one_lt_two_pow (by omega)

/-! ## validate_authpath folds a leaf to the root -/

theorem sibling_pair (f : Nat → Bytes) (x : Nat) :
    (if x &&& 1 ≠ 0 then f (x ^^^ 1) ++ f x else f x ++ f (x ^^^ 1)) =
      f (2 * (x >>> 1)) ++ f (2 * (x >>> 1) + 1) := by
  have hs : x >>> 1 = x / 2 := by rw [Nat.shiftRight_eq_div_pow, pow_one]
  rw [Nat.and_one_is_mod, hs]
  rcases Nat.mod_two_eq_zero_or_one x with h | h
  · have e : x = 2 * (x / 2) := by omega
    have e2 : x ^^^ 1 = 2 * (x / 2) + 1 := by
      conv_lhs => rw [e]
      exact xor_one_even _
    simp only [h, ne_eq, not_true, if_false, e2]
    rw [← e]
  · have e : x = 2 * (x / 2) + 1 := by omega
    have e2 : x ^^^ 1 = 2 * (x / 2) := by
      conv_lhs => rw [e]
      exact xor_one_odd _
    simp only [h, ne_eq, one_ne_zero, not_false_eq_true, if_true, e2]
    rw [← e]

theorem blocks_length (n : Nat) (f : Nat → Bytes) (hf : ∀ i, (f i).length = n) (h : Nat) :
    (((List.range h).map f).flatten).length = h * n := by
  induction h with
  | zero => simp
  | succ h ih =>
    rw [List.range_succ, List.map_append, List.flatten_append, List.length_append, ih]
    simp [hf]; ring

/-- Block `i` of a concatenation of `n`-byte blocks followed by other bytes. -/
theorem rd_blocks (n : Nat) (f : Nat → Bytes) (hf : ∀ i, (f i).length = n) (extra : Bytes)
    (h i : Nat) (hi : i < h) :
    rd (((List.range h).map f).flatten ++ extra) (i * n) n = f i := by
  induction h with
  | zero => omega
  | succ h ih =>
    rw [List.range_succ, List.map_append, List.flatten_append, List.append_assoc]
    have hl := blocks_length n f hf h
    by_cases hih : i < h
    · have := ih hih
      unfold rd at this ⊢
      rw [List.drop_append_of_le_length (by rw [hl]; exact Nat.mul_le_mul_right _ (by omega)),
        List.take_append_of_le_length]
      · rw [List.drop_append_of_le_length (by rw [hl]; exact Nat.mul_le_mul_right _ (by omega)),
          List.take_append_of_le_length] at this
        · exact this
        · rw [List.length_drop, hl]
          have : (i + 1) * n ≤ h * n := Nat.mul_le_mul_right _ hih
          have e : (i + 1) * n = i * n + n := by ring
          omega
      · rw [List.length_drop, hl]
        have : (i + 1) * n ≤ h * n := Nat.mul_le_mul_right _ hih
        have e : (i + 1) * n = i * n + n := by ring
        omega
    · have : i = h := by omega
      subst this
      unfold rd
      rw [List.drop_append_of_le_length (by rw [hl]), ← hl, List.drop_length, List.nil_append]
      simp [hf]

/-- The loop of `validate_authpath` after `i` passes holds the two children of the
ancestor of the leaf at level `i + 1`. -/
theorem validate_loop_spec (P : Primitives) (hH : ignores_key_bits P) (params : xmss_params)
    (hlen : 1 ≤ params.wots_par.len)
    (hks : params.wots_par.len * params.n ≤ params.wots_par.keysize)
    (sk ps addr a extra : Bytes) (idx : Nat) (ha : node_rel a (node_base addr))
    (i : Nat) (hi : i + 1 ≤ params.h) :
    let auth := ((List.range params.h).map (fun i =>
      merkle_node P params sk ps addr i ((idx >>> i) ^^^ 1))).flatten ++ extra
    let st0 : validate_state :=
      { buffer := merkle_node P params sk ps addr 0 (2 * (idx >>> 1)) ++
          merkle_node P params sk ps addr 0 (2 * (idx >>> 1) + 1),
        leafidx := idx, authpath := auth.drop params.n, addr := a }
    let st := (List.range i).foldl (validate_step P params.n ps) st0
    st.buffer = merkle_node P params sk ps addr i (2 * (idx >>> (i + 1))) ++
        merkle_node P params sk ps addr i (2 * (idx >>> (i + 1)) + 1) ∧
      st.leafidx = idx >>> i ∧ st.authpath = auth.drop ((i + 1) * params.n) ∧
      node_rel st.addr (node_base addr) := by
  intro auth st0 st
  have hf : ∀ j, (merkle_node P params sk ps addr j ((idx >>> j) ^^^ 1)).length = params.n :=
    fun j => merkle_node_length P params sk ps addr hlen hks j _
  induction i with
  | zero => exact ⟨rfl, rfl, by simp [st, st0], ha⟩
  | succ i ih =>
    obtain ⟨i1, i2, i3, i4⟩ := ih (by omega)
    simp only [st, foldl_range_succ]
    generalize (List.range i).foldl (validate_step P params.n ps) st0 = s at i1 i2 i3 i4
    obtain ⟨h1, h2⟩ := hash_node_addr P hH s.buffer ps s.addr (node_base addr) params.n i
      (s.leafidx >>> 1) i4
    have hsh : s.leafidx >>> 1 = idx >>> (i + 1) := by rw [i2, Nat.shiftRight_add]
    have hrd : rd s.authpath 0 params.n =
        merkle_node P params sk ps addr (i + 1) ((idx >>> (i + 1)) ^^^ 1) := by
      rw [i3]
      have := rd_blocks params.n (fun j => merkle_node P params sk ps addr j ((idx >>> j) ^^^ 1))
        hf extra params.h (i + 1) (by omega)
      unfold rd at this ⊢
      rw [List.drop_zero]
      exact this
    have hH1 : P.hash_2n_n s.buffer ps
        (SET_NODE_TREE_INDEX (SET_NODE_TREE_HEIGHT s.addr i) (s.leafidx >>> 1)) params.n =
        merkle_node P params sk ps addr (i + 1) (idx >>> (i + 1)) := by
      rw [h1, i1, hsh]; rfl
    simp only [validate_step, hrd, hH1]
    refine ⟨?_, hsh, ?_, h2⟩
    · rw [hsh]
      have := sibling_pair (merkle_node P params sk ps addr (i + 1)) (idx >>> (i + 1))
      rw [this, ← Nat.shiftRight_add]
    · rw [i3, List.drop_drop]
      congr 1; ring

/-- Folding a leaf of the Merkle tree with the siblings of its ancestors yields the
root. -/
theorem validate_authpath_spec (P : Primitives) (hH : ignores_key_bits P) (params : xmss_params)
    (hlen : 1 ≤ params.wots_par.len)
    (hks : params.wots_par.len * params.n ≤ params.wots_par.keysize) (hh : 1 ≤ params.h)
    (sk ps addr a extra : Bytes) (idx : Nat) (hidx : idx < 2 ^ params.h)
    (ha : node_rel a (node_base addr)) :
    validate_authpath P params (merkle_node P params sk ps addr 0 idx) idx
        (((List.range params.h).map (fun i =>
          merkle_node P params sk ps addr i ((idx >>> i) ^^^ 1))).flatten ++ extra) ps a =
      merkle_node P params sk ps addr params.h 0 := by
  have hf : ∀ j, (merkle_node P params sk ps addr j ((idx >>> j) ^^^ 1)).length = params.n :=
    fun j => merkle_node_length P params sk ps addr hlen hks j _
  have hleaf : rd (merkle_node P params sk ps addr 0 idx) 0 params.n =
      merkle_node P params sk ps addr 0 idx := by
    unfold rd
    rw [List.drop_zero, List.take_of_length_le]
    rw [merkle_node_length P params sk ps addr hlen hks]
  have hauth : rd (((List.range params.h).map (fun i =>
      merkle_node P params sk ps addr i ((idx >>> i) ^^^ 1))).flatten ++ extra) 0 params.n =
      merkle_node P params sk ps addr 0 (idx ^^^ 1) := by
    have := rd_blocks params.n (fun j => merkle_node P params sk ps addr j ((idx >>> j) ^^^ 1))
      hf extra params.h 0 (by omega)
    simpa using this
  have hbuf := sibling_pair (merkle_node P params sk ps addr 0) idx
  obtain ⟨l1, l2, _, l4⟩ := validate_loop_spec P hH params hlen hks sk ps addr a extra idx ha
    (params.h - 1) (by omega)
  simp only [validate_authpath, hleaf, hauth, hbuf]
  generalize (List.range (params.h - 1)).foldl (validate_step P params.n ps) _ = s at l1 l2 l4
  obtain ⟨h1, _⟩ := hash_node_addr P hH s.buffer ps s.addr (node_base addr) params.n
    (params.h - 1) (s.leafidx >>> 1) l4
  have e : params.h - 1 + 1 = params.h := by omega
  have hz : idx >>> params.h = 0 := by
    rw [Nat.shiftRight_eq_div_pow]; exact Nat.div_eq_of_lt hidx
  rw [h1, l1, l2, ← Nat.shiftRight_add, e, hz]
  have : merkle_node P params sk ps addr params.h 0 =
      merkle_node P params sk ps addr (params.h - 1 + 1) 0 := by rw [e]
  rw [this]
  rfl

/-! ## xmss_sign_open with absolute offsets -/

theorem rd_drop (l : Bytes) (a b c : Nat) : rd (l.drop a) b c = rd l (a + b) c := by
  unfold rd; rw [List.drop_drop]

/-- The function `xmss_sign_open` with every offset counted from the start of `sig_msg`. -/
theorem xmss_sign_open_eq (P : Primitives) (params : xmss_params) (u : Uninit)
    (sig_msg : Bytes) (L : Nat) (pk : Bytes) :
    xmss_sign_open P params u sig_msg L pk =
      if (List.range params.n).all (fun i =>
          byte (sign_open_root P params u sig_msg
            (usub64 (usub64 L 4) (params.m + params.wots_par.keysize + params.h * params.n)) pk) i
            == byte pk i) then
        { ret := 0,
          msg := rd sig_msg (4 + params.m + params.wots_par.keysize + params.h * params.n)
            (usub64 (usub64 (usub64 (usub64 L 4) params.m) params.wots_par.keysize)
              (params.h * params.n)),
          msglen := usub64 (usub64 (usub64 (usub64 L 4) params.m) params.wots_par.keysize)
              (params.h * params.n) }
      else
        { ret := -1,
          msg := List.replicate
            (usub64 (usub64 (usub64 (usub64 L 4) params.m) params.wots_par.keysize)
              (params.h * params.n)) 0,
          msglen := 2 ^ 64 - 1 } := by
  have e1 : ∀ k, rd (List.drop 4 sig_msg) k = rd sig_msg (4 + k) := fun k => by
    funext c; exact rd_drop _ _ _ _
  have e2 : List.drop params.m (List.drop 4 sig_msg) = List.drop (4 + params.m) sig_msg := by
    rw [List.drop_drop]
  have e3 : List.drop params.wots_par.keysize (List.drop (4 + params.m) sig_msg) =
      List.drop (4 + params.m + params.wots_par.keysize) sig_msg := by
    rw [List.drop_drop]
  have e4 : List.drop (params.h * params.n)
      (List.drop (4 + params.m + params.wots_par.keysize) sig_msg) =
      List.drop (4 + params.m + params.wots_par.keysize + params.h * params.n) sig_msg := by
    rw [List.drop_drop]
  simp only [xmss_sign_open, sign_open_root, e1, e2, e3, e4, rd_drop, Nat.add_zero,
    ← Nat.add_assoc]

/-! ## Index handling, return values and lengths -/

theorem usub64_of_le (a b : Nat) (h : b ≤ a) : usub64 a b = a - b := by
  unfold usub64; rw [if_pos h]

theorem usub64_of_lt (a b : Nat) (h : a < b) : usub64 a b = a + 2 ^ 64 - b := by
  unfold usub64; rw [if_neg (by omega)]

theorem usub64_chain (L m ks hn : Nat) (h : 4 + m + ks + hn ≤ L) :
    usub64 (usub64 L 4) (m + ks + hn) = L - (4 + m + ks + hn) ∧
      usub64 (usub64 (usub64 (usub64 L 4) m) ks) hn = L - (4 + m + ks + hn) := by
  rw [usub64_of_le L 4 (by omega), usub64_of_le _ _ (by omega), usub64_of_le _ m (by omega),
    usub64_of_le _ ks (by omega), usub64_of_le _ hn (by omega)]
  omega

theorem usub64_chain_short (L m ks hn : Nat) (h : L < 4 + m + ks + hn)
    (h2 : 4 + m + ks + hn ≤ 2 ^ 64) :
    usub64 (usub64 L 4) (m + ks + hn) = L + 2 ^ 64 - (4 + m + ks + hn) ∧
      usub64 (usub64 (usub64 (usub64 L 4) m) ks) hn = L + 2 ^ 64 - (4 + m + ks + hn) := by
  have hp : (2 : Nat) ^ 64 = 18446744073709551616 := by norm_num
  rw [hp] at h2
  by_cases h4 : 4 ≤ L
  · rw [usub64_of_le L 4 h4, usub64_of_lt _ (m + ks + hn) (by omega)]
    refine ⟨by omega, ?_⟩
    by_cases hm : m ≤ L - 4
    · rw [usub64_of_le _ m hm]
      by_cases hk : ks ≤ L - 4 - m
      · rw [usub64_of_le _ ks hk, usub64_of_lt _ hn (by omega)]; omega
      · rw [usub64_of_lt _ ks (by omega), hp, usub64_of_le _ hn (by omega)]; omega
    · rw [usub64_of_lt _ m (by omega), hp, usub64_of_le _ ks (by omega),
        usub64_of_le _ hn (by omega)]; omega
  · rw [usub64_of_lt L 4 (by omega), hp, usub64_of_le _ (m + ks + hn) (by omega),
      usub64_of_le _ m (by omega), usub64_of_le _ ks (by omega), usub64_of_le _ hn (by omega)]
    omega

theorem all_byte_eq (n : Nat) (a b : Bytes) :
    (List.range n).all (fun i => byte a i == byte b i) = true ↔
      ∀ i, i < n → byte a i = byte b i := by
  simp [List.all_eq_true]

/-- **C5.** For `sig_msg_len >= 4 + m + keysize + h*n`, `xmss_sign_open` returns 0 exactly when
the root recomputed from the signature equals `pk[0..n]`; when it returns 0 the output
message is `sig_msg[4 + m + keysize + h*n ..]` and `*msglen` is
`sig_msg_len - (4 + m + keysize + h*n)`; when the roots differ it returns -1 and stores
that many zero bytes in `msg`. -/
theorem xmss_sign_open_verdict (P : Primitives) (params : xmss_params) (u : Uninit)
    (sig_msg : Bytes) (L : Nat) (pk : Bytes)
    (hL : 4 + params.m + params.wots_par.keysize + params.h * params.n ≤ L) :
    let off := 4 + params.m + params.wots_par.keysize + params.h * params.n
    let root := sign_open_root P params u sig_msg (L - off) pk
    let o := xmss_sign_open P params u sig_msg L pk
    (o.ret = 0 ↔ ∀ i, i < params.n → byte root i = byte pk i) ∧
      (o.ret = 0 → o.msg = rd sig_msg off (L - off) ∧ o.msglen = L - off) ∧
      ((¬ ∀ i, i < params.n → byte root i = byte pk i) →
        o.ret = -1 ∧ o.msg = List.replicate (L - off) 0) := by
  intro off root o
  obtain ⟨c1, c2⟩ := usub64_chain L params.m params.wots_par.keysize (params.h * params.n) hL
  have ho : o = _ := xmss_sign_open_eq P params u sig_msg L pk
  rw [c1, c2] at ho
  by_cases hr : ∀ i, i < params.n → byte root i = byte pk i
  · rw [if_pos ((all_byte_eq _ _ _).mpr hr)] at ho
    rw [ho]
    exact ⟨⟨fun _ => hr, fun _ => rfl⟩, fun _ => ⟨rfl, rfl⟩, fun h => absurd hr h⟩
  · rw [if_neg (fun h => hr ((all_byte_eq _ _ _).mp h))] at ho
    rw [ho]
    have hne : ¬ ((-1 : Int) = 0) := by decide
    exact ⟨⟨fun h => absurd h hne, fun h => absurd h hr⟩, fun h => absurd h hne,
      fun _ => ⟨rfl, rfl⟩⟩

set_option maxRecDepth 100000 in
/-- Instance of `xmss_sign_open_verdict`. -/
theorem xmss_sign_open_verdict_witness :
    4 + params1.m + params1.wots_par.keysize + params1.h * params1.n ≤ 9 ∧
    (let off := 4 + params1.m + params1.wots_par.keysize + params1.h * params1.n
     let root := sign_open_root maskPrims params1 zeroStack [0, 0, 0, 0, 5, 6, 7, 8, 9] (9 - off) [1, 2]
     let o := xmss_sign_open maskPrims params1 zeroStack [0, 0, 0, 0, 5, 6, 7, 8, 9] 9 [1, 2]
     (o.ret = 0 ↔ ∀ i, i < params1.n → byte root i = byte [1, 2] i) ∧
      (o.ret = 0 → o.msg = rd [0, 0, 0, 0, 5, 6, 7, 8, 9] off (9 - off) ∧ o.msglen = 9 - off) ∧
      ((¬ ∀ i, i < params1.n → byte root i = byte [1, 2] i) →
        o.ret = -1 ∧ o.msg = List.replicate (9 - off) 0)) :=
  ⟨by decide, xmss_sign_open_verdict maskPrims params1 zeroStack [0, 0, 0, 0, 5, 6, 7, 8, 9] 9
    [1, 2] (by decide)⟩

/-! ## Short input: accesses outside the caller's buffers -/

theorem in_bounds_of_le (buf : Bytes) (off len : Nat) (h : off + len ≤ buf.length) :
    in_bounds buf off len = some () := by
  unfold in_bounds; rw [if_pos h]

theorem in_bounds_of_lt (buf : Bytes) (off len : Nat) (h : buf.length < off + len) :
    in_bounds buf off len = none := by
  unfold in_bounds; rw [if_neg (by omega)]

theorem fits_of_le (cap len : Nat) (h : len ≤ cap) : fits cap len = some () := by
  unfold fits; rw [if_pos h]

/-- Where every access is inside the buffers, the checked function returns what
`xmss_sign_open` returns. -/
theorem xmss_sign_open_checked_eq (P : Primitives) (params : xmss_params) (u : Uninit)
    (sig_msg : Bytes) (L : Nat) (pk : Bytes) (msg_cap : Nat) (hh : 1 ≤ params.h)
    (hL : 4 + params.m + params.wots_par.keysize + params.h * params.n ≤ L)
    (hbuf : L ≤ sig_msg.length) (hpk : 2 * params.n ≤ pk.length)
    (hcap : L - (4 + params.m + params.wots_par.keysize + params.h * params.n) ≤ msg_cap) :
    xmss_sign_open_checked P params u sig_msg L pk msg_cap =
      some (xmss_sign_open P params u sig_msg L pk) := by
  obtain ⟨c1, c2⟩ := usub64_chain L params.m params.wots_par.keysize (params.h * params.n) hL
  have hn : params.n + (params.h - 1) * params.n = params.h * params.n := by
    obtain ⟨k, hk⟩ : ∃ k, params.h = k + 1 := ⟨params.h - 1, by omega⟩
    rw [hk, Nat.add_sub_cancel, Nat.succ_mul, Nat.add_comm]
  simp only [xmss_sign_open_checked, xmss_sign_open, c1, c2, hn]
  rw [in_bounds_of_le _ _ _ (by omega), in_bounds_of_le _ _ _ (by omega),
    in_bounds_of_le _ _ _ (by simp only [List.length_drop]; omega),
    in_bounds_of_le _ _ _ (by simp only [List.length_drop]; omega),
    in_bounds_of_le _ _ _ (by simp only [List.length_drop]; omega),
    in_bounds_of_le _ _ _ (by simp only [List.length_drop]; omega)]
  simp only [Option.bind_eq_bind, Option.some_bind, Option.bind_some]
  split
  · rw [in_bounds_of_le _ _ _ (by simp only [List.length_drop]; omega), fits_of_le _ _ hcap]
    rfl
  · rw [fits_of_le _ _ hcap]
    rfl

/-- **C4, as the code behaves.** `xmss_sign_open` makes no length check. For every `pk`, every
buffer `sig_msg` (of fewer than 2^64 bytes, as every array is) and every
`sig_msg_len < 4 + m + keysize + h*n` (that sum being at most 2^64) the unsigned
subtractions wrap: the message length handed to `hash_m`, and the bound of the final
copy loop and of the zeroing loop, are `sig_msg_len + 2^64 - (4 + m + keysize + h*n)`; the
bytes `hash_m` is asked to read end `sig_msg_len + 2^64` bytes after the start of
`sig_msg`, past the end of the buffer. The call is out of bounds and yields no result:
it returns neither a failure code nor 0. -/
theorem xmss_sign_open_short (P : Primitives) (params : xmss_params) (u : Uninit)
    (sig_msg : Bytes) (L : Nat) (pk : Bytes) (msg_cap : Nat)
    (hL : L < 4 + params.m + params.wots_par.keysize + params.h * params.n)
    (hoff : 4 + params.m + params.wots_par.keysize + params.h * params.n ≤ 2 ^ 64)
    (hbuf : sig_msg.length < 2 ^ 64) :
    let off := 4 + params.m + params.wots_par.keysize + params.h * params.n
    usub64 (usub64 L 4) (params.m + params.wots_par.keysize + params.h * params.n) =
        L + 2 ^ 64 - off ∧
      usub64 (usub64 (usub64 (usub64 L 4) params.m) params.wots_par.keysize)
        (params.h * params.n) = L + 2 ^ 64 - off ∧
      sig_msg.length < off + (L + 2 ^ 64 - off) ∧
      xmss_sign_open_checked P params u sig_msg L pk msg_cap = none := by
  intro off
  obtain ⟨c1, c2⟩ := usub64_chain_short L params.m params.wots_par.keysize
    (params.h * params.n) hL hoff
  refine ⟨c1, c2, by omega, ?_⟩
  simp only [xmss_sign_open_checked, c1]
  cases h1 : in_bounds pk params.n params.n with
  | none => rfl
  | some _ =>
    cases h2 : in_bounds sig_msg 0 4 with
    | none => rfl
    | some _ =>
      have h4 : 4 ≤ sig_msg.length := by
        unfold in_bounds at h2
        by_contra hc
        rw [if_neg (by omega)] at h2
        exact Option.noConfusion h2
      rw [in_bounds_of_lt (sig_msg.drop 4) _ _ (by simp only [List.length_drop]; omega)]
      rfl

set_option maxRecDepth 100000 in
/-- Instance of `xmss_sign_open_short`: `n = m = 1`, `keysize = 2`, `h = 1`, a 3-byte input. -/
theorem xmss_sign_open_short_witness :
    (3 < 4 + params1.m + params1.wots_par.keysize + params1.h * params1.n ∧
      4 + params1.m + params1.wots_par.keysize + params1.h * params1.n ≤ 2 ^ 64 ∧
      [0, 0, 1].length < 2 ^ 64) ∧
    (let off := 4 + params1.m + params1.wots_par.keysize + params1.h * params1.n
     usub64 (usub64 3 4) (params1.m + params1.wots_par.keysize + params1.h * params1.n) =
        3 + 2 ^ 64 - off ∧
      usub64 (usub64 (usub64 (usub64 3 4) params1.m) params1.wots_par.keysize)
        (params1.h * params1.n) = 3 + 2 ^ 64 - off ∧
      [0, 0, 1].length < off + (3 + 2 ^ 64 - off) ∧
      xmss_sign_open_checked maskPrims params1 zeroStack [0, 0, 1] 3 [1, 2] 8 = none) :=
  ⟨⟨by decide, by decide, by decide⟩,
    xmss_sign_open_short maskPrims params1 zeroStack [0, 0, 1] 3 [1, 2] 8 (by decide) (by decide)
      (by decide)⟩

set_option maxRecDepth 100000 in
/-- **C4, counterexample.** `n = m = 32`, `keysize = 64`, `h = 1`: the signature of the empty
message under a generated key has the minimum length 132, and `xmss_sign_open` returns 0
on it. Truncated by one byte and handed over with `sig_msg_len = 131`, the message length
for `hash_m` is `131 - 4 - 128 = 2^64 - 1`: the call reads outside the 131-byte buffer and
returns no result, so it does not return the failure code -1. It is the same when the
132-byte buffer is handed over with `sig_msg_len = 131`. -/
theorem short_input_out_of_bounds :
    let kp := xmss_keypair maskPrims params32 zeroStack demoEntropy
    let s := xmss_sign maskPrims params32 zeroStack kp.sk [] kp.pk
    let off := 4 + params32.m + params32.wots_par.keysize + params32.h * params32.n
    off = 132 ∧ s.sig_msg.length = 132 ∧ s.sig_msg_len = 132 ∧ kp.pk.length = 64 ∧
      (xmss_sign_open_checked maskPrims params32 zeroStack s.sig_msg 132 kp.pk 132).map
        (fun o => (o.ret, o.msglen)) = some (0, 0) ∧
      (s.sig_msg.take 131).length = 131 ∧ 131 < off ∧
      usub64 (usub64 131 4) (params32.m + params32.wots_par.keysize + params32.h * params32.n) =
        18446744073709551615 ∧
      (xmss_sign_open_checked maskPrims params32 zeroStack (s.sig_msg.take 131) 131 kp.pk
        132).isNone = true ∧
      (xmss_sign_open_checked maskPrims params32 zeroStack (s.sig_msg.take 131) 131 kp.pk
        132).map (fun o => o.ret) ≠ some (-1) ∧
      (xmss_sign_open_checked maskPrims params32 zeroStack s.sig_msg 131 kp.pk
        132).isNone = true := by
  decide

/-- **C6, as the code behaves.** Whenever `xmss_sign_open` fails, it returns -1 and the value
it leaves in `*msglen` is 2^64 - 1 (the -1 it stores, as `unsigned long long`), not 0. -/
theorem xmss_sign_open_fail_msglen (P : Primitives) (params : xmss_params) (u : Uninit)
    (sig_msg : Bytes) (L : Nat) (pk : Bytes)
    (hfail : (xmss_sign_open P params u sig_msg L pk).ret ≠ 0) :
    (xmss_sign_open P params u sig_msg L pk).ret = -1 ∧
      (xmss_sign_open P params u sig_msg L pk).msglen = 2 ^ 64 - 1 := by
  rw [xmss_sign_open_eq] at hfail ⊢
  split
  · rename_i h
    rw [if_pos h] at hfail
    exact absurd rfl hfail
  · exact ⟨rfl, rfl⟩

set_option maxRecDepth 100000 in
/-- Instance of `xmss_sign_open_fail_msglen`. -/
theorem xmss_sign_open_fail_msglen_witness :
    (xmss_sign_open maskPrims params1 zeroStack [0, 0, 0, 0, 5, 6, 7, 8, 9] 9 [1, 2]).ret ≠ 0 ∧
    ((xmss_sign_open maskPrims params1 zeroStack [0, 0, 0, 0, 5, 6, 7, 8, 9] 9 [1, 2]).ret = -1 ∧
      (xmss_sign_open maskPrims params1 zeroStack [0, 0, 0, 0, 5, 6, 7, 8, 9] 9 [1, 2]).msglen =
        2 ^ 64 - 1) :=
  ⟨by decide, xmss_sign_open_fail_msglen maskPrims params1 zeroStack [0, 0, 0, 0, 5, 6, 7, 8, 9] 9
    [1, 2] (by decide)⟩

set_option maxRecDepth 100000 in
/-- **C6, counterexample.** A key pair for `n = m = 32`, `h = 1`; the signature of the
one-byte message `61`; byte 36 (the first byte of the WOTS+ signature) altered. The
unaltered signature is accepted; on the altered one `xmss_sign_open` returns -1 and
leaves 2^64 - 1 in `*msglen`, which is not 0. -/
theorem failed_open_msglen_nonzero :
    let kp := xmss_keypair maskPrims params32 zeroStack demoEntropy
    let s := xmss_sign maskPrims params32 zeroStack kp.sk [97] kp.pk
    let altered := s.sig_msg.set 36 ((byte s.sig_msg 36 + 1) % 256)
    (xmss_sign_open maskPrims params32 zeroStack s.sig_msg s.sig_msg_len kp.pk).ret = 0 ∧
      (xmss_sign_open maskPrims params32 zeroStack altered s.sig_msg_len kp.pk).ret = -1 ∧
      (xmss_sign_open maskPrims params32 zeroStack altered s.sig_msg_len kp.pk).msglen =
        18446744073709551615 ∧
      (xmss_sign_open maskPrims params32 zeroStack altered s.sig_msg_len kp.pk).msglen ≠ 0 := by
  decide

set_option maxRecDepth 100000 in
/-- **C7, on the code.** The four index bytes of a signature reach `xmss_sign_open` only
through `(b0<<24 | b1<<16 | b2<<8) || b3`: a signature with index bytes `00 00 00 01`
and the same signature with bit 1 of byte 3 flipped (`00 00 00 03`) give the same
result, so the flipped one is accepted whenever the original is. So it is for the second
signature of a fresh key (`n = m = 32`, `h = 1`): its index bytes are `00 00 00 01`, it is
accepted, and it is accepted again with byte 3 set to `03`. -/
theorem xmss_sign_open_idx_flip (P : Primitives) (params : xmss_params) (u : Uninit)
    (rest : Bytes) (L : Nat) (pk : Bytes) :
    xmss_sign_open P params u (0 :: 0 :: 0 :: 3 :: rest) L pk =
        xmss_sign_open P params u (0 :: 0 :: 0 :: 1 :: rest) L pk ∧
      (let kp := xmss_keypair maskPrims params32 zeroStack demoEntropy
       let s1 := xmss_sign maskPrims params32 zeroStack kp.sk [1] kp.pk
       let s := xmss_sign maskPrims params32 zeroStack s1.sk [97] kp.pk
       rd s.sig_msg 0 4 = [0, 0, 0, 1] ∧
         (xmss_sign_open maskPrims params32 zeroStack s.sig_msg s.sig_msg_len kp.pk).ret = 0 ∧
         (xmss_sign_open maskPrims params32 zeroStack (s.sig_msg.set 3 3) s.sig_msg_len
           kp.pk).ret = 0) := by
  refine ⟨?_, ?_⟩
  · simp [xmss_sign_open, byte, logical_or]
  · decide

theorem logical_or_le (a b : Nat) : logical_or a b ≤ 1 := by
  unfold logical_or; split <;> omega

/-- **C2, on the code.** `xmss_sign` reads the index as `(b0<<24 | b1<<16 | b2<<8) || b3`,
which is 0 or 1. A secret key whose index bytes are `00 00 00 02` (index 2) holds
`00 00 00 02` again after `xmss_sign`, not 3; and five successive signs from a fresh key
leave the index bytes `00 00 00 02`, not 5. -/
theorem xmss_sign_index_stuck (P : Primitives) (params : xmss_params) (u : Uninit)
    (rest pk m1 m2 m3 m4 m5 : Bytes) (entropy : Nat → Nat) :
    rd (xmss_sign P params u (0 :: 0 :: 0 :: 2 :: rest) m1 pk).sk 0 4 = [0, 0, 0, 2] ∧
      rd ([m1, m2, m3, m4, m5].foldl (fun sk msg => (xmss_sign P params u sk msg pk).sk)
        (xmss_keypair P params u entropy).sk) 0 4 = [0, 0, 0, 2] := by
  have e : (2 : Nat) &&& 255 = 2 := by decide
  constructor
  · simp [xmss_sign, rd, byte, logical_or, e]
  · simp [xmss_sign, xmss_keypair, rd, byte, logical_or, e]

theorem be32_small (i : Nat) (hi : i ≤ 2) (rest : Bytes) :
    be32 ((i >>> 24 &&& 255) :: (i >>> 16 &&& 255) :: (i >>> 8 &&& 255) :: (i &&& 255) :: rest)
      = i := by
  have e : (2 : Nat) &&& 255 = 2 := by decide
  interval_cases i <;> simp [be32, byte, e]

/-- **C3, as the code behaves.** `xmss_sign` has no exhaustion check: for every secret key,
whatever index is stored in it, it returns 0, stores in `sk[0..4]` the index it emits in
`sig_msg[0..4]` plus one, and leaves `sk[4..]` unchanged. -/
theorem xmss_sign_never_refuses (P : Primitives) (params : xmss_params) (u : Uninit)
    (sk msg pk : Bytes) (hsk : 4 ≤ sk.length) :
    (xmss_sign P params u sk msg pk).ret = 0 ∧
      be32 (xmss_sign P params u sk msg pk).sk =
        be32 (xmss_sign P params u sk msg pk).sig_msg + 1 ∧
      (xmss_sign P params u sk msg pk).sk.drop 4 = sk.drop 4 := by
  refine ⟨rfl, ?_, ?_⟩
  · obtain ⟨b0, b1, b2, b3, rest, rfl⟩ :
        ∃ b0 b1 b2 b3 rest, sk = b0 :: b1 :: b2 :: b3 :: rest := by
      match sk, hsk with
      | b0 :: b1 :: b2 :: b3 :: rest, _ => exact ⟨b0, b1, b2, b3, rest, rfl⟩
    have hidx := logical_or_le ((byte (b0 :: b1 :: b2 :: b3 :: rest) 0 <<< 24) |||
      (byte (b0 :: b1 :: b2 :: b3 :: rest) 1 <<< 16) |||
      (byte (b0 :: b1 :: b2 :: b3 :: rest) 2 <<< 8)) (byte (b0 :: b1 :: b2 :: b3 :: rest) 3)
    simp only [xmss_sign, List.set_cons_zero, List.set_cons_succ, List.cons_append,
      List.nil_append]
    generalize logical_or _ _ = idx at hidx ⊢
    rw [be32_small (idx + 1) (by omega), be32_small idx (by omega)]
  · simp only [xmss_sign]
    rw [List.drop_set_of_lt _ _ (by decide), List.drop_set_of_lt _ _ (by decide),
      List.drop_set_of_lt _ _ (by decide), List.drop_set_of_lt _ _ (by decide)]

set_option maxRecDepth 100000 in
/-- Instance of `xmss_sign_never_refuses`: `h = 10` and a secret key with index bytes
`00 00 04 00`. -/
theorem xmss_sign_never_refuses_witness :
    4 ≤ ([0, 0, 4, 0] ++ List.replicate 96 7).length ∧
    ((xmss_sign maskPrims paramsSHA2_10_256 zeroStack ([0, 0, 4, 0] ++ List.replicate 96 7)
        [97, 98, 99] []).ret = 0 ∧
      be32 (xmss_sign maskPrims paramsSHA2_10_256 zeroStack ([0, 0, 4, 0] ++ List.replicate 96 7)
        [97, 98, 99] []).sk =
        be32 (xmss_sign maskPrims paramsSHA2_10_256 zeroStack
          ([0, 0, 4, 0] ++ List.replicate 96 7) [97, 98, 99] []).sig_msg + 1 ∧
      (xmss_sign maskPrims paramsSHA2_10_256 zeroStack ([0, 0, 4, 0] ++ List.replicate 96 7)
        [97, 98, 99] []).sk.drop 4 = ([0, 0, 4, 0] ++ List.replicate 96 7).drop 4) :=
  ⟨by decide, xmss_sign_never_refuses maskPrims paramsSHA2_10_256 zeroStack
    ([0, 0, 4, 0] ++ List.replicate 96 7) [97, 98, 99] [] (by decide)⟩

set_option maxRecDepth 100000 in
/-- **C3, counterexample.** With `h = 10` and a secret key whose index bytes are
`00 00 04 00` (index 1024 = 2^10), `xmss_sign` returns 0 and overwrites the index bytes
with `00 00 00 02`. -/
theorem exhausted_key_still_signs :
    (xmss_sign maskPrims paramsSHA2_10_256 zeroStack ([0, 0, 4, 0] ++ List.replicate 96 7)
        [97, 98, 99] []).ret = 0 ∧
      (xmss_sign maskPrims paramsSHA2_10_256 zeroStack ([0, 0, 4, 0] ++ List.replicate 96 7)
        [97, 98, 99] []).sk = [0, 0, 0, 2] ++ List.replicate 96 7 ∧
      (xmss_sign maskPrims paramsSHA2_10_256 zeroStack ([0, 0, 4, 0] ++ List.replicate 96 7)
        [97, 98, 99] []).sk ≠ [0, 0, 4, 0] ++ List.replicate 96 7 := by
  decide

/-- **C9.** `xmss_sign` leaves `sk[4 .. 4+2n+m)` (SK_SEED, SK_PRF, PUB_SEED) as it found
them: every byte of `sk` from offset 4 on is unchanged and `sk` keeps its length; only
`sk[0..4]` may differ. -/
theorem xmss_sign_sk_frame (P : Primitives) (params : xmss_params) (u : Uninit)
    (sk msg pk : Bytes) :
    rd (xmss_sign P params u sk msg pk).sk 4 (2 * params.n + params.m) =
        rd sk 4 (2 * params.n + params.m) ∧
      (xmss_sign P params u sk msg pk).sk.drop 4 = sk.drop 4 ∧
      (xmss_sign P params u sk msg pk).sk.length = sk.length := by
  have h : (xmss_sign P params u sk msg pk).sk.drop 4 = sk.drop 4 := by
    simp only [xmss_sign]
    rw [List.drop_set_of_lt _ _ (by decide), List.drop_set_of_lt _ _ (by decide),
      List.drop_set_of_lt _ _ (by decide), List.drop_set_of_lt _ _ (by decide)]
  refine ⟨?_, h, by simp [xmss_sign]⟩
  unfold rd
  rw [h]

/-! ## Layout of the signature -/

/-! ### lengths in compute_authpath_wots -/

theorem gen_leaf_length_le (P : Primitives) (params : xmss_params) (sk ps la oa : Bytes) :
    (gen_leaf_wots P params sk ps la oa).leaf.length ≤ params.n := by
  simp only [gen_leaf_wots, l_tree, rd]
  exact List.length_take_le _ _

theorem authpath_leaves_length (P : Primitives) (params : xmss_params)
    (sk ps : Bytes) (st : authpath_leaf_state)
    (hl : st.tree.length = 2 * 2 ^ params.h * params.n) :
    ((List.range (1 <<< params.h)).foldl (authpath_leaf_step P params sk ps) st).tree.length =
      2 * 2 ^ params.h * params.n := by
  refine foldl_inv (fun s : authpath_leaf_state => s.tree.length = 2 * 2 ^ params.h * params.n)
    _ _ ?_ _ hl
  intro s i hi hs
  have hi' : i < 2 ^ params.h := by
    have := List.mem_range.mp hi
    rwa [Nat.one_shiftLeft] at this
  have gl := gen_leaf_length_le P params sk ps (SET_LTREE_ADDRESS s.ltree_addr i)
    (SET_OTS_ADDRESS s.ots_addr i)
  simp only [authpath_leaf_step]
  rw [wr_length, hs]
  rw [hs, Nat.one_shiftLeft]
  have : (2 ^ params.h + i + 1) * params.n ≤ (2 * 2 ^ params.h) * params.n :=
    Nat.mul_le_mul_right _ (by omega)
  have e : (2 ^ params.h + i + 1) * params.n =
      2 ^ params.h * params.n + i * params.n + params.n := by ring
  omega

theorem authpath_level_length (P : Primitives) (n : Nat) (ps : Bytes) (i L : Nat)
    (tree a : Bytes) (hL : tree.length = L) (hi : i * n ≤ L) :
    (authpath_level P n ps i tree a).1.length = L := by
  rw [authpath_level_eq]
  refine foldl_inv (fun s : Bytes × Bytes => s.1.length = L) _ _ ?_ _ hL
  intro s t ht hs
  have ht' : t < (i + 1) / 2 := List.mem_range.mp ht
  simp only [two_mul_shift]
  rw [wr_length, hs]
  rw [P.hash_2n_n_len, hs]
  calc (i >>> 1) * n + t * n + n = (i >>> 1 + t + 1) * n := by ring
    _ ≤ (i >>> 1 + (i + 1) / 2) * n := Nat.mul_le_mul_right _ (by omega)
    _ = i * n := by rw [half_add_half]
    _ ≤ L := hi

theorem authpath_tree_loop_length (P : Primitives) (n : Nat) (ps : Bytes) (L fuel : Nat) :
    ∀ st : authpath_tree_state, st.tree.length = L → st.i * n ≤ L →
      (authpath_tree_loop P n ps fuel st).tree.length = L := by
  induction fuel with
  | zero => intro st h _; exact h
  | succ f ih =>
    intro st h hi
    simp only [authpath_tree_loop]
    split
    · apply ih
      · exact authpath_level_length P n ps st.i L st.tree _ h hi
      · refine le_trans (Nat.mul_le_mul_right _ ?_) hi
        simp only [Nat.shiftRight_eq_div_pow]
        exact Nat.div_le_self _ _
    · exact h

theorem authpath_tree_length (P : Primitives) (params : xmss_params)
    (u : Uninit) (sk ps addr : Bytes) :
    (authpath_tree P params u sk ps addr).length = 2 * 2 ^ params.h * params.n := by
  unfold authpath_tree
  apply authpath_tree_loop_length
  · apply authpath_leaves_length P params
    simp only [Nat.one_shiftLeft]
    exact uninit_length _ _
  · simp only [Nat.one_shiftLeft]
    exact Nat.mul_le_mul_right _ (by omega)

theorem blocks_length_lt (n : Nat) (f : Nat → Bytes) (h : Nat)
    (hf : ∀ i, i < h → (f i).length = n) :
    (((List.range h).map f).flatten).length = h * n := by
  induction h with
  | zero => simp
  | succ h ih =>
    rw [List.range_succ, List.map_append, List.flatten_append, List.length_append,
      ih (fun i hi => hf i (by omega))]
    simp [hf h (by omega)]; ring

theorem xor_one_le (x : Nat) (h : x ≤ 1) : x ^^^ 1 ≤ 1 := by
  interval_cases x <;> decide

theorem shift_le_one (x i : Nat) (h : x ≤ 1) : x >>> i ≤ 1 := by
  rw [Nat.shiftRight_eq_div_pow]
  exact le_trans (Nat.div_le_self _ _) h

/-- For a leaf index 0 or 1 the authentication path has `h` blocks of `n` bytes. -/
theorem compute_authpath_length (P : Primitives) (params : xmss_params)
    (u : Uninit) (leaf_idx : Nat) (sk ps addr : Bytes) (hidx : leaf_idx ≤ 1) :
    (compute_authpath_wots P params u leaf_idx sk ps addr).authpath.length =
      params.h * params.n := by
  simp only [compute_authpath_wots]
  apply blocks_length_lt
  intro i hi
  apply rd_length
  rw [authpath_tree_length P params, Nat.one_shiftLeft, shift_pow _ _ (by omega)]
  have h1 := xor_one_le _ (shift_le_one leaf_idx i hidx)
  have h2 : 2 ^ (params.h - i) ≤ 2 ^ params.h := Nat.pow_le_pow_right (by decide) (by omega)
  have h3 : 2 ≤ 2 ^ params.h := by
    calc 2 = 2 ^ 1 := by norm_num
      _ ≤ 2 ^ params.h := Nat.pow_le_pow_right (by decide) (by omega)
  calc 2 ^ (params.h - i) * params.n + (leaf_idx >>> i ^^^ 1) * params.n + params.n
      = (2 ^ (params.h - i) + (leaf_idx >>> i ^^^ 1) + 1) * params.n := by ring
    _ ≤ (2 * 2 ^ params.h) * params.n := Nat.mul_le_mul_right _ (by omega)

/-! ### reading the parts of a concatenation -/

theorem rd_append_left (A B : Bytes) : rd (A ++ B) 0 A.length = A := by
  simp [rd]

theorem rd_append_right (A B : Bytes) (o l : Nat) : rd (A ++ B) (A.length + o) l = rd B o l := by
  unfold rd
  rw [List.drop_append]

theorem rd_all (A : Bytes) : rd A 0 A.length = A := by simp [rd]

/-- The parts of `I ++ R ++ W ++ A ++ M` at their offsets. -/
theorem rd_five (I R W A M : Bytes) :
    rd (I ++ R ++ W ++ A ++ M) I.length R.length = R ∧
      rd (I ++ R ++ W ++ A ++ M) (I.length + R.length) W.length = W ∧
      rd (I ++ R ++ W ++ A ++ M) (I.length + R.length + W.length) A.length = A ∧
      (I ++ R ++ W ++ A ++ M).drop (I.length + R.length + W.length + A.length) = M := by
  refine ⟨?_, ?_, ?_, ?_⟩
  · have : I ++ R ++ W ++ A ++ M = I ++ (R ++ (W ++ A ++ M)) := by simp
    rw [this]
    have := rd_append_right I (R ++ (W ++ A ++ M)) 0 R.length
    rw [Nat.add_zero] at this
    rw [this, rd_append_left]
  · have : I ++ R ++ W ++ A ++ M = (I ++ R) ++ (W ++ (A ++ M)) := by simp
    rw [this]
    have := rd_append_right (I ++ R) (W ++ (A ++ M)) 0 W.length
    rw [Nat.add_zero, List.length_append] at this
    rw [this, rd_append_left]
  · have : I ++ R ++ W ++ A ++ M = (I ++ R ++ W) ++ (A ++ M) := by simp
    rw [this]
    have := rd_append_right (I ++ R ++ W) (A ++ M) 0 A.length
    rw [Nat.add_zero, List.length_append, List.length_append] at this
    rw [this, rd_append_left]
  · have : I.length + R.length + W.length + A.length = (I ++ R ++ W ++ A).length := by
      simp only [List.length_append]
    rw [this, List.drop_left]

/-- **C8.** For every `sk` and `msg`, `xmss_sign` sets
`*sig_msg_len = 4 + m + keysize + h*n + |msg|` (2503 for XMSS-SHA2_10_256 and a 3-byte
message) and stores that many bytes: after the four index bytes,
`R = prf_m(msg, SK_PRF)` at `[4, 4+m)`, the WOTS+ signature of `hash_m(msg, R)` at
`[4+m, 4+m+keysize)`, the authentication path `compute_authpath_wots` returns at the
next `h*n` bytes, and `msg` unchanged last. -/
theorem xmss_sign_layout (P : Primitives) (params : xmss_params) (u : Uninit)
    (sk msg pk : Bytes) :
    let n := params.n
    let m := params.m
    let keysize := params.wots_par.keysize
    let s := xmss_sign P params u sk msg pk
    let idx := logical_or ((byte sk 0 <<< 24) ||| (byte sk 1 <<< 16) ||| (byte sk 2 <<< 8))
      (byte sk 3)
    let R := P.prf_m msg (rd sk (4 + n) m) m
    let g := get_seed P (rd sk 4 n) (SET_OTS_ADDRESS (SET_OTS_BIT (List.replicate 16 0) 1) idx)
    let wots_sig := P.wots_sign (P.hash_m msg R m m) g.seed params.wots_par
      (rd sk (4 + n + m) n) g.addr
    let a := compute_authpath_wots P params u idx (rd sk 4 n) (rd sk (4 + n + m) n) g.addr
    s.sig_msg_len = 4 + m + keysize + params.h * n + msg.length ∧
      s.sig_msg.length = s.sig_msg_len ∧
      rd s.sig_msg 4 m = R ∧
      rd s.sig_msg (4 + m) keysize = wots_sig ∧
      rd s.sig_msg (4 + m + keysize) (params.h * n) = a.authpath ∧
      s.sig_msg.drop (4 + m + keysize + params.h * n) = msg ∧
      (xmss_sign P paramsSHA2_10_256 u sk [97, 98, 99] pk).sig_msg_len = 2503 := by
  intro n m keysize s idx R g wots_sig a
  have hR : R.length = m := P.prf_m_len _ _ _
  have hW : wots_sig.length = keysize := P.wots_sign_len _ _ _ _ _
  have hA : a.authpath.length = params.h * n :=
    compute_authpath_length P params u idx _ _ _ (logical_or_le _ _)
  have hs : s.sig_msg = [(idx >>> 24) &&& 255, (idx >>> 16) &&& 255, (idx >>> 8) &&& 255,
      idx &&& 255] ++ R ++ wots_sig ++ a.authpath ++ msg := rfl
  obtain ⟨r1, r2, r3, r4⟩ := rd_five [(idx >>> 24) &&& 255, (idx >>> 16) &&& 255,
    (idx >>> 8) &&& 255, idx &&& 255] R wots_sig a.authpath msg
  simp only [List.length_cons, List.length_nil, hR, hW, hA] at r1 r2 r3 r4
  refine ⟨?_, ?_, ?_, ?_, ?_, ?_, rfl⟩
  · show 0 + 4 + m + keysize + params.h * n + msg.length = _
    omega
  · rw [hs]
    show _ = 0 + 4 + m + keysize + params.h * n + msg.length
    simp only [List.length_append, List.length_cons, List.length_nil, hR, hW, hA]
  · rw [hs]; exact r1
  · rw [hs]; exact r2
  · rw [hs]; exact r3
  · rw [hs]; exact r4

/-! ## Independence of the tree from the address type bits -/

theorem merkle_node_congr_seed (P : Primitives) (params : xmss_params) (sk sk' ps addr : Bytes)
    (h : rd sk 0 32 = rd sk' 0 32) (k j : Nat) :
    merkle_node P params sk ps addr k j = merkle_node P params sk' ps addr k j := by
  induction k generalizing j with
  | zero => simp only [merkle_node, leaf_of, gen_leaf_wots, get_seed, h]
  | succ k ih => simp only [merkle_node, ih]

theorem and253_and254 (x : Nat) : x &&& 253 &&& 254 = x &&& 252 := by
  rw [Nat.and_assoc]; rfl

theorem and252_and254 (x : Nat) : x &&& 252 &&& 254 = x &&& 252 := by
  rw [Nat.and_assoc]; rfl

theorem or2_and254 (x : Nat) : (x ||| 2) &&& 254 = (x &&& 254) ||| 2 := by
  rw [Nat.and_distrib_right]; rfl

theorem or1_and254 (x : Nat) : (x ||| 1) &&& 254 = x &&& 254 := by
  rw [Nat.and_distrib_right]
  have : (1 : Nat) &&& 254 = 0 := by decide
  rw [this, Nat.or_zero]

/-- Addresses with the same layer/tree prefix (bytes 0..8 and bits 7..2 of byte 9) give
the same derived addresses. -/
theorem base_congr (addr addr' : Bytes) (h : addr.length = 16) (h' : addr'.length = 16)
    (hpre : addr.take 9 = addr'.take 9) (h9 : byte addr 9 &&& 252 = byte addr' 9 &&& 252) :
    ots_rel (ots_base addr) (ots_base addr') ∧ ltree_pre (ltree_base addr) (ltree_base addr') ∧
      node_base addr = node_base addr' := by
  obtain ⟨a0, a1, a2, a3, a4, a5, a6, a7, a8, a9, a10, a11, a12, a13, a14, a15, rfl⟩ := len16 addr h
  obtain ⟨b0, b1, b2, b3, b4, b5, b6, b7, b8, b9, b10, b11, b12, b13, b14, b15, rfl⟩ := len16 addr' h'
  simp at hpre
  simp [byte] at h9
  simp [ots_rel, ltree_pre, ots_base, ltree_base, node_base, SET_OTS_BIT, SET_LTREE_BIT,
    SET_NODE_PADDING, wr, rd, byte, hpre, h9, or2_and254, or1_and254, and253_and254,
    and252_and254]

theorem merkle_node_congr_addr (P : Primitives) (hH : ignores_key_bits P) (params : xmss_params)
    (sk ps addr addr' : Bytes) (h : addr.length = 16) (h' : addr'.length = 16)
    (hpre : addr.take 9 = addr'.take 9) (h9 : byte addr 9 &&& 252 = byte addr' 9 &&& 252)
    (k j : Nat) :
    merkle_node P params sk ps addr k j = merkle_node P params sk ps addr' k j := by
  obtain ⟨b1, b2, b3⟩ := base_congr addr addr' h h' hpre h9
  induction k generalizing j with
  | zero =>
    exact (gen_leaf_spec P hH params sk ps addr' (ltree_base addr) (ots_base addr) j b2 b1).1
  | succ k ih => simp only [merkle_node, ih, b3]

/-! ## What xmss_sign_open recomputes from a signature -/

/-- The OTS address `xmss_sign` builds for index 0 or 1: `ZEROISE_OTS_ADDR` leaves it as
it is, and it has the all-zero layer/tree prefix. -/
theorem sign_addr_facts (idx : Nat) (hidx : idx ≤ 1) :
    ZEROISE_OTS_ADDR (SET_OTS_ADDRESS (SET_OTS_BIT (List.replicate 16 0) 1) idx) =
        SET_OTS_ADDRESS (SET_OTS_BIT (List.replicate 16 0) 1) idx ∧
      (SET_OTS_ADDRESS (SET_OTS_BIT (List.replicate 16 0) 1) idx).length = 16 ∧
      (SET_OTS_ADDRESS (SET_OTS_BIT (List.replicate 16 0) 1) idx).take 9 =
        (List.replicate 16 0).take 9 ∧
      byte (SET_OTS_ADDRESS (SET_OTS_BIT (List.replicate 16 0) 1) idx) 9 &&& 252 =
        byte (List.replicate 16 0) 9 &&& 252 := by
  interval_cases idx <;> decide

theorem open_addr_facts :
    (SET_OTS_BIT (List.replicate 16 0) 1).length = 16 ∧
      (SET_OTS_BIT (List.replicate 16 0) 1).take 9 = (List.replicate 16 0).take 9 ∧
      byte (SET_OTS_BIT (List.replicate 16 0) 1) 9 &&& 252 = byte (List.replicate 16 0) 9 &&& 252 ∧
      ots_base (SET_OTS_BIT (List.replicate 16 0) 1) = SET_OTS_BIT (List.replicate 16 0) 1 := by
  decide

theorem sig_idx_bytes (idx : Nat) (hidx : idx ≤ 1) :
    [(idx >>> 24) &&& 255, (idx >>> 16) &&& 255, (idx >>> 8) &&& 255, idx &&& 255] =
      [0, 0, 0, idx] := by
  interval_cases idx <;> decide

theorem logical_or_zero (idx : Nat) (hidx : idx ≤ 1) :
    logical_or ((0 <<< 24) ||| (0 <<< 16) ||| (0 <<< 8)) idx = idx := by
  interval_cases idx <;> decide

/-- The root `xmss_sign_open` recomputes from what `xmss_sign` emits for leaf index 0 or 1
is the root of the Merkle tree over the signer's seeds. -/
theorem open_root_of_signed (P : Primitives) (hH : ignores_key_bits P)
    (hW : ∀ d seed wp ps addr,
      P.wots_pkFromSig (P.wots_sign d seed wp ps addr) d wp ps addr = P.wots_pkgen seed wp ps addr)
    (params : xmss_params) (hh : 1 ≤ params.h) (hlen : 1 ≤ params.wots_par.len)
    (hks : params.wots_par.len * params.n ≤ params.wots_par.keysize)
    (us uv : Uninit) (SK PS SP msg pk : Bytes) (idx : Nat) (hidx : idx ≤ 1)
    (hpk : rd pk params.n params.n = PS) :
    let g := get_seed P SK (SET_OTS_ADDRESS (SET_OTS_BIT (List.replicate 16 0) 1) idx)
    let R := P.prf_m msg SP params.m
    let W := P.wots_sign (P.hash_m msg R params.m params.m) g.seed params.wots_par PS g.addr
    let A := (compute_authpath_wots P params us idx SK PS g.addr).authpath
    sign_open_root P params uv ([0, 0, 0, idx] ++ R ++ W ++ A ++ msg) msg.length pk =
      merkle_node P params SK PS (List.replicate 16 0) params.h 0 := by
  intro g R W A
  obtain ⟨z1, z2, z3, z4⟩ := sign_addr_facts idx hidx
  obtain ⟨o1, o2, o3, o4⟩ := open_addr_facts
  have hg : g.addr = SET_OTS_ADDRESS (SET_OTS_BIT (List.replicate 16 0) 1) idx := z1
  have hR : R.length = params.m := P.prf_m_len _ _ _
  have hWl : W.length = params.wots_par.keysize := P.wots_sign_len _ _ _ _ _
  have hidx2 : idx < 2 ^ params.h :=
    lt_of_le_of_lt hidx (Nat.one_lt_two_pow (by omega))
  have hA : A = ((List.range params.h).map (fun i =>
      merkle_node P params SK PS (SET_OTS_BIT (List.replicate 16 0) 1) i
        ((idx >>> i) ^^^ 1))).flatten := by
    show (compute_authpath_wots P params us idx SK PS g.addr).authpath = _
    rw [compute_authpath_path P hH params hlen hks us idx SK PS g.addr (by rw [hg]; exact z2)
      hidx2]
    congr 1
    apply List.map_congr_left
    intro i _
    exact merkle_node_congr_addr P hH params SK PS _ _ (by rw [hg]; exact z2) o1
      (by rw [hg, z3, o2]) (by rw [hg, z4, o3]) _ _
  have hAl : A.length = params.h * params.n := by
    rw [hA]
    exact blocks_length _ _ (fun j => merkle_node_length P params SK PS _ hlen hks j _) _
  obtain ⟨r1, r2, r3, r4⟩ := rd_five [0, 0, 0, idx] R W A msg
  simp only [List.length_cons, List.length_nil, hR, hWl, hAl] at r1 r2 r3 r4
  have hmsg : rd ([0, 0, 0, idx] ++ R ++ W ++ A ++ msg)
      (4 + params.m + params.wots_par.keysize + params.h * params.n) msg.length = msg := by
    unfold rd
    have e : 4 + params.m + params.wots_par.keysize + params.h * params.n =
        0 + 1 + 1 + 1 + 1 + params.m + params.wots_par.keysize + params.h * params.n := by omega
    rw [e, r4, List.take_length]
  have hdrop : ([0, 0, 0, idx] ++ R ++ W ++ A ++ msg).drop (4 + params.m + params.wots_par.keysize)
      = A ++ msg := by
    have e : 4 + params.m + params.wots_par.keysize = ([0, 0, 0, idx] ++ R ++ W).length := by
      simp only [List.length_append, List.length_cons, List.length_nil, hR, hWl]
    rw [List.append_assoc ([0, 0, 0, idx] ++ R ++ W), e, List.drop_left]
  have hb : logical_or
      ((byte ([0, 0, 0, idx] ++ R ++ W ++ A ++ msg) 0 <<< 24) |||
        (byte ([0, 0, 0, idx] ++ R ++ W ++ A ++ msg) 1 <<< 16) |||
        (byte ([0, 0, 0, idx] ++ R ++ W ++ A ++ msg) 2 <<< 8))
      (byte ([0, 0, 0, idx] ++ R ++ W ++ A ++ msg) 3) = idx := by
    have e : [0, 0, 0, idx] ++ R ++ W ++ A ++ msg =
        0 :: 0 :: 0 :: idx :: (R ++ W ++ A ++ msg) := by simp
    rw [e]
    simp only [byte, List.getD_cons_zero, List.getD_cons_succ]
    exact logical_or_zero idx hidx
  have hr1 : rd ([0, 0, 0, idx] ++ R ++ W ++ A ++ msg) 4 params.m = R := by
    have e : (4 : Nat) = 0 + 1 + 1 + 1 + 1 := by omega
    rw [e]; exact r1
  have hr2 : rd ([0, 0, 0, idx] ++ R ++ W ++ A ++ msg) (4 + params.m) params.wots_par.keysize
      = W := by
    have e : 4 + params.m = 0 + 1 + 1 + 1 + 1 + params.m := by omega
    rw [e]; exact r2
  -- the leaf
  have hleaf : (l_tree P params (P.wots_pkgen g.seed params.wots_par PS g.addr) PS
      (SET_LTREE_ADDRESS (SET_LTREE_BIT (SET_OTS_BIT (wr (uninit uv.ltree_addr 16) 0
        (rd (SET_OTS_BIT (List.replicate 16 0) 1) 0 10)) 0) 1) idx)).leaf =
      merkle_node P params SK PS (SET_OTS_BIT (List.replicate 16 0) 1) 0 idx := by
    obtain ⟨l1, l2, l3, _⟩ := ltree_pre_step _ _ idx
      (ltree_pre_init (SET_OTS_BIT (List.replicate 16 0) 1) uv.ltree_addr o1)
    rw [l_tree_leaf_congr P hH params _ PS _ _ l1 l2 l3]
    simp only [merkle_node, leaf_of, gen_leaf_wots, get_seed, o4]
    rfl
  have hnode := node_rel_init (SET_OTS_BIT (List.replicate 16 0) 1) uv.ltree_addr uv.node_addr o1
  simp only [sign_open_root, hb, hmsg, hr1, hr2, hdrop, hpk]
  rw [← hg, hW, hleaf, hA,
    validate_authpath_spec P hH params hlen hks hh SK PS _ _ msg idx hidx2 hnode]
  exact merkle_node_congr_addr P hH params SK PS _ _ o1 (by simp) o2 o3 _ _

/-! ## Key generation -/

theorem mix_lt (l : Bytes) : mix l < 251 := Nat.mod_lt _ (by decide)

theorem clear_key_bits_idem (a : Bytes) : clear_key_bits (clear_key_bits a) = clear_key_bits a := by
  unfold clear_key_bits
  by_cases h : 15 < a.length
  · have : byte (a.set 15 (byte a 15 &&& 252)) 15 = byte a 15 &&& 252 := by
      unfold byte
      exact getD_set_same _ _ _ h
    rw [this, List.set_set, Nat.and_assoc, Nat.and_self]
  · have e : a.set 15 (byte a 15 &&& 252) = a := List.set_eq_of_length_le (by omega)
    rw [e, e]

theorem maskPrims_ignores : ignores_key_bits maskPrims := by
  intro inp seed a n
  show List.replicate n (mix (inp ++ seed ++ clear_key_bits a)) =
    List.replicate n (mix (inp ++ seed ++ clear_key_bits (clear_key_bits a)))
  rw [clear_key_bits_idem]

theorem wots_demo (ks x d : Nat) (hx : x < 251) (hd : d < 251) :
    List.replicate ks (((List.replicate ks ((x + d) % 256)).headD 0 + 256 - d) % 256) =
      List.replicate ks x := by
  cases ks with
  | zero => rfl
  | succ k =>
    have : ((x + d) % 256 + 256 - d) % 256 = x := by omega
    simp [List.replicate_succ, this]

theorem maskPrims_wots (d seed : Bytes) (wp : wots_params) (ps addr : Bytes) :
    maskPrims.wots_pkFromSig (maskPrims.wots_sign d seed wp ps addr) d wp ps addr =
      maskPrims.wots_pkgen seed wp ps addr :=
  wots_demo _ _ _ (mix_lt _) (mix_lt _)

theorem mixPrims_wots (d seed : Bytes) (wp : wots_params) (ps addr : Bytes) :
    mixPrims.wots_pkFromSig (mixPrims.wots_sign d seed wp ps addr) d wp ps addr =
      mixPrims.wots_pkgen seed wp ps addr :=
  wots_demo _ _ _ (mix_lt _) (mix_lt _)

theorem randombytes_length (e : Nat → Nat) (len : Nat) : (randombytes e len).length = len := by
  simp [randombytes]

/-- What `xmss_keypair` stores: the seeds, and as root the root of the Merkle tree over
them. -/
theorem keypair_facts (P : Primitives) (hH : ignores_key_bits P) (params : xmss_params)
    (hlen : 1 ≤ params.wots_par.len)
    (hks : params.wots_par.len * params.n ≤ params.wots_par.keysize)
    (u : Uninit) (entropy : Nat → Nat) :
    let kp := xmss_keypair P params u entropy
    let PS := rd kp.sk (4 + params.n + params.m) params.n
    kp.sk.drop (4 + params.n + params.m) = PS ∧ PS.length = params.n ∧
      kp.pk = merkle_node P params (kp.sk.drop 4) PS (List.replicate 16 0) params.h 0 ++ PS := by
  intro kp PS
  have hsk : kp.sk = [0, 0, 0, 0] ++ randombytes entropy (2 * params.n + params.m) := rfl
  have hl : kp.sk.length = 4 + (2 * params.n + params.m) := by
    rw [hsk, List.length_append, randombytes_length]; rfl
  have hd : (kp.sk.drop (4 + params.n + params.m)).length = params.n := by
    rw [List.length_drop, hl]; omega
  have h1 : kp.sk.drop (4 + params.n + params.m) = PS := by
    show _ = rd kp.sk _ _
    unfold rd
    rw [List.take_of_length_le (by omega)]
  refine ⟨h1, by rw [← h1]; exact hd, ?_⟩
  show treehash P params u params.h 0 (kp.sk.drop 4) (kp.sk.drop (4 + params.n + params.m))
    (List.replicate 16 0) ++ rd kp.sk (4 + params.n + params.m) params.n = _
  rw [treehash_eq_merkle P hH params hlen hks u params.h _ _ _ (by simp), h1]

/-- The seeds `xmss_sign` copies out of a secret key that agrees with a generated one
from byte 4 on. -/
theorem sign_seeds (params : xmss_params) (sk ksk : Bytes) (hsk : sk.drop 4 = ksk.drop 4)
    (hn : 32 ≤ params.n) :
    rd (rd sk 4 params.n) 0 32 = rd (ksk.drop 4) 0 32 ∧
      rd sk (4 + params.n + params.m) params.n = rd ksk (4 + params.n + params.m) params.n ∧
      rd sk (4 + params.n) params.m = rd ksk (4 + params.n) params.m := by
  refine ⟨?_, ?_, ?_⟩
  · unfold rd
    rw [List.drop_zero, List.drop_zero, List.take_take, hsk, Nat.min_eq_left hn]
  · have e : 4 + params.n + params.m = 4 + (params.n + params.m) := by omega
    rw [e, ← rd_drop sk, ← rd_drop ksk, hsk]
  · rw [← rd_drop sk, ← rd_drop ksk, hsk]

theorem byte_append_left (X Y : Bytes) (i : Nat) (h : i < X.length) :
    byte (X ++ Y) i = byte X i := by
  unfold byte
  simp [List.getD_eq_getElem?_getD, List.getElem?_append_left h]

/-! ## TreeHash and the full-tree build -/

/-- The root `xmss_sign` computes for a secret key that agrees with a generated one from
byte 4 on is the root stored in the public key. -/
theorem sign_root_eq (P : Primitives) (hH : ignores_key_bits P) (params : xmss_params)
    (hlen : 1 ≤ params.wots_par.len)
    (hks : params.wots_par.len * params.n ≤ params.wots_par.keysize) (hn : 32 ≤ params.n)
    (uk us : Uninit) (entropy : Nat → Nat) (sk : Bytes) (idx : Nat) (hidx : idx ≤ 1)
    (hsk : sk.drop 4 = (xmss_keypair P params uk entropy).sk.drop 4) :
    (compute_authpath_wots P params us idx (rd sk 4 params.n)
        (rd sk (4 + params.n + params.m) params.n)
        (get_seed P (rd sk 4 params.n)
          (SET_OTS_ADDRESS (SET_OTS_BIT (List.replicate 16 0) 1) idx)).addr).root =
      merkle_node P params ((xmss_keypair P params uk entropy).sk.drop 4)
        (rd (xmss_keypair P params uk entropy).sk (4 + params.n + params.m) params.n)
        (List.replicate 16 0) params.h 0 := by
  obtain ⟨z1, z2, z3, z4⟩ := sign_addr_facts idx hidx
  obtain ⟨s1, s2, _⟩ := sign_seeds params sk _ hsk hn
  have hg : (get_seed P (rd sk 4 params.n)
      (SET_OTS_ADDRESS (SET_OTS_BIT (List.replicate 16 0) 1) idx)).addr =
      SET_OTS_ADDRESS (SET_OTS_BIT (List.replicate 16 0) 1) idx := z1
  rw [hg, compute_authpath_root P hH params hlen hks us idx _ _ _ z2, s2,
    merkle_node_congr_addr P hH params _ _ _ (List.replicate 16 0) z2 (by simp) z3 z4,
    merkle_node_congr_seed P params _ _ _ _ s1]

/-- **C10, as the code behaves.** Assume `hash_2n_n` does not read bits 1..0 of address
byte 15 (the two bits no macro of `xmss.c` writes), and a parameter set with
`keysize >= len*n >= n`. Then the node `treehash(height = h, index = 0)` returns equals the
root `compute_authpath_wots` returns for any `leaf_idx`, whatever the uninitialised
locals held, under the same seeds and the same layer/tree address prefix (bytes 0..8 and
bits 7..2 of byte 9); both are the root of the Merkle tree. If moreover `n >= 32`, the
root `xmss_keypair` stores in `pk` is the Merkle root under its SK_SEED and PUB_SEED, and
the debug comparison in `xmss_sign` finds no differing byte for a key that agrees with
the generated one from byte 4 on. -/
theorem treehash_eq_authpath_root (P : Primitives)
    (hH : ∀ inp seed a n, P.hash_2n_n inp seed a n = P.hash_2n_n inp seed (clear_key_bits a) n)
    (params : xmss_params) (hlen : 1 ≤ params.wots_par.len)
    (hks : params.wots_par.len * params.n ≤ params.wots_par.keysize)
    (u1 u2 : Uninit) (leaf_idx : Nat) (sk_seed pub_seed addr1 addr2 : Bytes)
    (h1 : addr1.length = 16) (h2 : addr2.length = 16) (h3 : addr1.take 9 = addr2.take 9)
    (h4 : byte addr1 9 &&& 252 = byte addr2 9 &&& 252)
    (uk us : Uninit) (entropy : Nat → Nat) (sk msg : Bytes) :
    treehash P params u1 params.h 0 sk_seed pub_seed addr1 =
        (compute_authpath_wots P params u2 leaf_idx sk_seed pub_seed addr2).root ∧
      treehash P params u1 params.h 0 sk_seed pub_seed addr1 =
        merkle_node P params sk_seed pub_seed addr1 params.h 0 ∧
      (32 ≤ params.n →
        rd (xmss_keypair P params uk entropy).pk 0 params.n =
          merkle_node P params (rd (xmss_keypair P params uk entropy).sk 4 params.n)
            (rd (xmss_keypair P params uk entropy).sk (4 + params.n + params.m) params.n)
            (List.replicate 16 0) params.h 0 ∧
        (sk.drop 4 = (xmss_keypair P params uk entropy).sk.drop 4 →
          (xmss_sign P params us sk msg (xmss_keypair P params uk entropy).pk).different_pks =
            [])) := by
  have hT := treehash_eq_merkle P hH params hlen hks u1 params.h sk_seed pub_seed addr1 h1
  obtain ⟨k1, k2, k3⟩ := keypair_facts P hH params hlen hks uk entropy
  have hml := merkle_node_length P params ((xmss_keypair P params uk entropy).sk.drop 4)
    (rd (xmss_keypair P params uk entropy).sk (4 + params.n + params.m) params.n)
    (List.replicate 16 0) hlen hks params.h 0
  refine ⟨?_, hT, fun hn => ⟨?_, fun hsk => ?_⟩⟩
  · rw [hT, compute_authpath_root P hH params hlen hks u2 leaf_idx sk_seed pub_seed addr2 h2]
    exact merkle_node_congr_addr P hH params _ _ _ _ h1 h2 h3 h4 _ _
  · rw [k3]
    have := rd_append_left (merkle_node P params ((xmss_keypair P params uk entropy).sk.drop 4)
      (rd (xmss_keypair P params uk entropy).sk (4 + params.n + params.m) params.n)
      (List.replicate 16 0) params.h 0)
      (rd (xmss_keypair P params uk entropy).sk (4 + params.n + params.m) params.n)
    rw [hml] at this
    rw [this]
    apply merkle_node_congr_seed
    exact ((sign_seeds params _ _ rfl hn).1).symm
  · have hroot := sign_root_eq P hH params hlen hks hn uk us entropy sk
      (logical_or ((byte sk 0 <<< 24) ||| (byte sk 1 <<< 16) ||| (byte sk 2 <<< 8)) (byte sk 3))
      (logical_or_le _ _) hsk
    simp only [xmss_sign]
    rw [hroot, k3]
    apply List.filter_eq_nil_iff.mpr
    intro i hi
    have hi' : i < params.n := List.mem_range.mp hi
    rw [byte_append_left _ _ _ (by rw [hml]; exact hi')]
    simp

/-! ## Sign then open -/

theorem sign_sk_drop (P : Primitives) (params : xmss_params) (u : Uninit) (sk msg pk : Bytes) :
    (xmss_sign P params u sk msg pk).sk.drop 4 = sk.drop 4 := by
  simp only [xmss_sign]
  rw [List.drop_set_of_lt _ _ (by decide), List.drop_set_of_lt _ _ (by decide),
    List.drop_set_of_lt _ _ (by decide), List.drop_set_of_lt _ _ (by decide)]

theorem signs_keep_seeds (P : Primitives) (params : xmss_params) (pk : Bytes)
    (earlier : List (Uninit × Bytes)) (sk0 : Bytes) :
    (earlier.foldl (fun sk e => (xmss_sign P params e.1 sk e.2 pk).sk) sk0).drop 4 =
      sk0.drop 4 := by
  induction earlier generalizing sk0 with
  | nil => rfl
  | cons e rest ih =>
    rw [List.foldl_cons, ih, sign_sk_drop]

/-- The bytes `xmss_sign` stores in `sig_msg`. -/
theorem sign_sig (P : Primitives) (params : xmss_params) (us : Uninit) (sk msg pk : Bytes) :
    (xmss_sign P params us sk msg pk).sig_msg =
      [0, 0, 0, (logical_or ((byte sk 0 <<< 24) ||| (byte sk 1 <<< 16) ||| (byte sk 2 <<< 8)) (byte sk 3))] ++
      (P.prf_m msg (rd sk (4 + params.n) params.m) params.m) ++
      (P.wots_sign (P.hash_m msg (P.prf_m msg (rd sk (4 + params.n) params.m) params.m) params.m params.m) (get_seed P (rd sk 4 params.n) (SET_OTS_ADDRESS (SET_OTS_BIT (List.replicate 16 0) 1) (logical_or ((byte sk 0 <<< 24) ||| (byte sk 1 <<< 16) ||| (byte sk 2 <<< 8)) (byte sk 3)))).seed params.wots_par (rd sk (4 + params.n + params.m) params.n) (get_seed P (rd sk 4 params.n) (SET_OTS_ADDRESS (SET_OTS_BIT (List.replicate 16 0) 1) (logical_or ((byte sk 0 <<< 24) ||| (byte sk 1 <<< 16) ||| (byte sk 2 <<< 8)) (byte sk 3)))).addr) ++
      (compute_authpath_wots P params us (logical_or ((byte sk 0 <<< 24) ||| (byte sk 1 <<< 16) ||| (byte sk 2 <<< 8)) (byte sk 3)) (rd sk 4 params.n) (rd sk (4 + params.n + params.m) params.n) (get_seed P (rd sk 4 params.n) (SET_OTS_ADDRESS (SET_OTS_BIT (List.replicate 16 0) 1) (logical_or ((byte sk 0 <<< 24) ||| (byte sk 1 <<< 16) ||| (byte sk 2 <<< 8)) (byte sk 3)))).addr).authpath ++ msg := by
  simp only [xmss_sign]
  rw [sig_idx_bytes _ (logical_or_le _ _)]

/-- Signing with a secret key that agrees with a generated one from byte 4 on, then
opening under the generated public key, returns the message. -/
theorem roundtrip_core (P : Primitives) (hH : ignores_key_bits P)
    (hW : ∀ d seed wp ps addr,
      P.wots_pkFromSig (P.wots_sign d seed wp ps addr) d wp ps addr = P.wots_pkgen seed wp ps addr)
    (params : xmss_params) (hh : 1 ≤ params.h) (hn : 32 ≤ params.n)
    (hlen : 1 ≤ params.wots_par.len)
    (hks : params.wots_par.len * params.n ≤ params.wots_par.keysize)
    (uk us uv : Uninit) (entropy : Nat → Nat) (sk msg : Bytes)
    (hsk : sk.drop 4 = (xmss_keypair P params uk entropy).sk.drop 4) :
    xmss_sign_open P params uv
        (xmss_sign P params us sk msg (xmss_keypair P params uk entropy).pk).sig_msg
        (xmss_sign P params us sk msg (xmss_keypair P params uk entropy).pk).sig_msg_len
        (xmss_keypair P params uk entropy).pk =
      { ret := 0, msg := msg, msglen := msg.length } := by
  obtain ⟨k1, k2, k3⟩ := keypair_facts P hH params hlen hks uk entropy
  obtain ⟨s1, s2, _⟩ := sign_seeds params sk _ hsk hn
  have hidx := logical_or_le ((byte sk 0 <<< 24) ||| (byte sk 1 <<< 16) ||| (byte sk 2 <<< 8))
    (byte sk 3)
  have hml := merkle_node_length P params ((xmss_keypair P params uk entropy).sk.drop 4)
    (rd (xmss_keypair P params uk entropy).sk (4 + params.n + params.m) params.n)
    (List.replicate 16 0) hlen hks params.h 0
  have hpk : rd (xmss_keypair P params uk entropy).pk params.n params.n =
      rd sk (4 + params.n + params.m) params.n := by
    rw [k3, s2]
    have := rd_append_right (merkle_node P params ((xmss_keypair P params uk entropy).sk.drop 4)
      (rd (xmss_keypair P params uk entropy).sk (4 + params.n + params.m) params.n)
      (List.replicate 16 0) params.h 0)
      (rd (xmss_keypair P params uk entropy).sk (4 + params.n + params.m) params.n) 0 params.n
    rw [hml, Nat.add_zero] at this
    rw [this]
    have e := rd_all (rd (xmss_keypair P params uk entropy).sk (4 + params.n + params.m) params.n)
    rw [k2] at e
    exact e
  have hroot := open_root_of_signed P hH hW params hh hlen hks us uv (rd sk 4 params.n)
    (rd sk (4 + params.n + params.m) params.n) (rd sk (4 + params.n) params.m) msg
    (xmss_keypair P params uk entropy).pk _ hidx hpk
  dsimp only at hroot
  have hL : (xmss_sign P params us sk msg (xmss_keypair P params uk entropy).pk).sig_msg_len =
      4 + params.m + params.wots_par.keysize + params.h * params.n + msg.length := by
    show 0 + 4 + params.m + params.wots_par.keysize + params.h * params.n + msg.length = _
    omega
  obtain ⟨c1, c2⟩ := usub64_chain
    (4 + params.m + params.wots_par.keysize + params.h * params.n + msg.length) params.m
    params.wots_par.keysize (params.h * params.n) (by omega)
  have hsub : 4 + params.m + params.wots_par.keysize + params.h * params.n + msg.length -
      (4 + params.m + params.wots_par.keysize + params.h * params.n) = msg.length := by omega
  rw [hsub] at c1 c2
  rw [xmss_sign_open_eq, hL, c1, c2, sign_sig, hroot]
  have hcond : (List.range params.n).all (fun i =>
      byte (merkle_node P params (rd sk 4 params.n) (rd sk (4 + params.n + params.m) params.n)
        (List.replicate 16 0) params.h 0) i == byte (xmss_keypair P params uk entropy).pk i) =
      true := by
    rw [all_byte_eq]
    intro i hi
    rw [k3, byte_append_left _ _ _ (by rw [hml]; exact hi), s2,
      merkle_node_congr_seed P params _ _ _ _ s1]
  rw [if_pos hcond]
  have hA := compute_authpath_length P params us _ (rd sk 4 params.n)
    (rd sk (4 + params.n + params.m) params.n)
    (get_seed P (rd sk 4 params.n) (SET_OTS_ADDRESS (SET_OTS_BIT (List.replicate 16 0) 1)
      (logical_or ((byte sk 0 <<< 24) ||| (byte sk 1 <<< 16) ||| (byte sk 2 <<< 8))
        (byte sk 3)))).addr hidx
  obtain ⟨_, _, _, r4⟩ := rd_five
    [0, 0, 0, logical_or ((byte sk 0 <<< 24) ||| (byte sk 1 <<< 16) ||| (byte sk 2 <<< 8))
      (byte sk 3)]
    (P.prf_m msg (rd sk (4 + params.n) params.m) params.m)
    (P.wots_sign (P.hash_m msg (P.prf_m msg (rd sk (4 + params.n) params.m) params.m)
        params.m params.m)
      (get_seed P (rd sk 4 params.n) (SET_OTS_ADDRESS (SET_OTS_BIT (List.replicate 16 0) 1)
        (logical_or ((byte sk 0 <<< 24) ||| (byte sk 1 <<< 16) ||| (byte sk 2 <<< 8))
          (byte sk 3)))).seed params.wots_par (rd sk (4 + params.n + params.m) params.n)
      (get_seed P (rd sk 4 params.n) (SET_OTS_ADDRESS (SET_OTS_BIT (List.replicate 16 0) 1)
        (logical_or ((byte sk 0 <<< 24) ||| (byte sk 1 <<< 16) ||| (byte sk 2 <<< 8))
          (byte sk 3)))).addr)
    (compute_authpath_wots P params us
      (logical_or ((byte sk 0 <<< 24) ||| (byte sk 1 <<< 16) ||| (byte sk 2 <<< 8)) (byte sk 3))
      (rd sk 4 params.n) (rd sk (4 + params.n + params.m) params.n)
      (get_seed P (rd sk 4 params.n) (SET_OTS_ADDRESS (SET_OTS_BIT (List.replicate 16 0) 1)
        (logical_or ((byte sk 0 <<< 24) ||| (byte sk 1 <<< 16) ||| (byte sk 2 <<< 8))
          (byte sk 3)))).addr).authpath msg
  simp only [List.length_cons, List.length_nil, P.prf_m_len, P.wots_sign_len, hA] at r4
  have e : 4 + params.m + params.wots_par.keysize + params.h * params.n =
      0 + 1 + 1 + 1 + 1 + params.m + params.wots_par.keysize + params.h * params.n := by omega
  have hmsg : ∀ (S : Bytes) (off : Nat), S.drop off = msg → rd S off msg.length = msg := by
    intro S off h
    unfold rd
    rw [h, List.take_length]
  congr 1
  refine hmsg _ _ ?_
  rw [e]
  exact r4

/-! ## Round trip -/

/-- **C1, as the code behaves.** Assume the hash primitives are fixed functions of their
inputs, WOTS+ is correct, and in addition `hash_2n_n` does not read bits 1..0 of address
byte 15 (which no macro of `xmss.c` writes and the callers leave uninitialised). For every
parameter set with `h >= 1`, `n >= 32` (`get_seed` always reads a 32-byte key) and
`keysize >= len*n >= n`, every key pair produced by `xmss_keypair`, also after any
number of earlier signs, and every message `msg`: `xmss_sign` returns 0 and
`xmss_sign_open` on its output returns 0 with the message `msg` and `*msglen = |msg|`,
whatever the uninitialised locals of the three calls held. -/
theorem xmss_roundtrip (P : Primitives)
    (hH : ∀ inp seed a n, P.hash_2n_n inp seed a n = P.hash_2n_n inp seed (clear_key_bits a) n)
    (hW : ∀ d seed wp ps addr,
      P.wots_pkFromSig (P.wots_sign d seed wp ps addr) d wp ps addr = P.wots_pkgen seed wp ps addr)
    (params : xmss_params) (hh : 1 ≤ params.h) (hn : 32 ≤ params.n)
    (hlen : 1 ≤ params.wots_par.len)
    (hks : params.wots_par.len * params.n ≤ params.wots_par.keysize)
    (uk us uv : Uninit) (entropy : Nat → Nat) (earlier : List (Uninit × Bytes)) (msg : Bytes) :
    let kp := xmss_keypair P params uk entropy
    let sk := earlier.foldl (fun sk e => (xmss_sign P params e.1 sk e.2 kp.pk).sk) kp.sk
    let s := xmss_sign P params us sk msg kp.pk
    let o := xmss_sign_open P params uv s.sig_msg s.sig_msg_len kp.pk
    s.ret = 0 ∧ o.ret = 0 ∧ o.msg = msg ∧ o.msglen = msg.length := by
  intro kp sk s o
  have ho : o = { ret := 0, msg := msg, msglen := msg.length } :=
    roundtrip_core P hH hW params hh hn hlen hks uk us uv entropy sk msg
      (signs_keep_seeds P params kp.pk earlier kp.sk)
  rw [ho]
  exact ⟨rfl, rfl, rfl, rfl⟩

set_option maxRecDepth 100000 in
/-- Instance of `xmss_roundtrip`: `n = m = 32`, `h = 1`, two earlier signs. -/
theorem xmss_roundtrip_witness :
    ((∀ inp seed a n, maskPrims.hash_2n_n inp seed a n =
        maskPrims.hash_2n_n inp seed (clear_key_bits a) n) ∧
      (∀ d seed wp ps addr, maskPrims.wots_pkFromSig (maskPrims.wots_sign d seed wp ps addr) d wp
        ps addr = maskPrims.wots_pkgen seed wp ps addr) ∧
      1 ≤ params32.h ∧ 32 ≤ params32.n ∧ 1 ≤ params32.wots_par.len ∧
      params32.wots_par.len * params32.n ≤ params32.wots_par.keysize) ∧
    (let kp := xmss_keypair maskPrims params32 zeroStack demoEntropy
     let sk := [(zeroStack, [1]), (onesStack, [2, 3])].foldl
       (fun sk e => (xmss_sign maskPrims params32 e.1 sk e.2 kp.pk).sk) kp.sk
     let s := xmss_sign maskPrims params32 onesStack sk [97, 98, 99] kp.pk
     let o := xmss_sign_open maskPrims params32 zeroStack s.sig_msg s.sig_msg_len kp.pk
     s.ret = 0 ∧ o.ret = 0 ∧ o.msg = [97, 98, 99] ∧ o.msglen = [97, 98, 99].length) :=
  ⟨⟨maskPrims_ignores, maskPrims_wots, by decide, by decide, by decide, by decide⟩,
    xmss_roundtrip maskPrims maskPrims_ignores maskPrims_wots params32 (by decide) (by decide)
      (by decide) (by decide) zeroStack onesStack zeroStack demoEntropy
      [(zeroStack, [1]), (onesStack, [2, 3])] [97, 98, 99]⟩

set_option maxRecDepth 100000 in
/-- **C1, counterexample.** (a) `n = m = 32`, `h = 1`, primitives that are fixed functions of
their inputs with WOTS+ correct, but whose `hash_2n_n` reads all 16 address bytes: a key
pair and a signature made with stack memory that held zeros is rejected by
`xmss_sign_open` when its uninitialised address arrays held 0xff bytes. (b) `n = m = 16`,
`h = 1`, a `hash_2n_n` that ignores the two bits, all stack memory zero: `get_seed` reads a
32-byte key where `xmss_sign` holds only the 16 bytes of SK_SEED, and the signature of a
fresh key is rejected. -/
theorem roundtrip_fails_without_assumptions :
    ((∀ d seed wp ps addr, mixPrims.wots_pkFromSig (mixPrims.wots_sign d seed wp ps addr) d wp
        ps addr = mixPrims.wots_pkgen seed wp ps addr) ∧ 1 ≤ params32.h ∧
      (xmss_sign_open mixPrims params32 onesStack
        (xmss_sign mixPrims params32 zeroStack
          (xmss_keypair mixPrims params32 zeroStack demoEntropy).sk [97, 98, 99]
          (xmss_keypair mixPrims params32 zeroStack demoEntropy).pk).sig_msg
        (xmss_sign mixPrims params32 zeroStack
          (xmss_keypair mixPrims params32 zeroStack demoEntropy).sk [97, 98, 99]
          (xmss_keypair mixPrims params32 zeroStack demoEntropy).pk).sig_msg_len
        (xmss_keypair mixPrims params32 zeroStack demoEntropy).pk).ret = -1) ∧
    ((∀ inp seed a n, maskPrims.hash_2n_n inp seed a n =
        maskPrims.hash_2n_n inp seed (clear_key_bits a) n) ∧
      (∀ d seed wp ps addr, maskPrims.wots_pkFromSig (maskPrims.wots_sign d seed wp ps addr) d wp
        ps addr = maskPrims.wots_pkgen seed wp ps addr) ∧ 1 ≤ params16.h ∧
      (xmss_sign_open maskPrims params16 zeroStack
        (xmss_sign maskPrims params16 zeroStack
          (xmss_keypair maskPrims params16 zeroStack demoEntropy).sk [97, 98, 99]
          (xmss_keypair maskPrims params16 zeroStack demoEntropy).pk).sig_msg
        (xmss_sign maskPrims params16 zeroStack
          (xmss_keypair maskPrims params16 zeroStack demoEntropy).sk [97, 98, 99]
          (xmss_keypair maskPrims params16 zeroStack demoEntropy).pk).sig_msg_len
        (xmss_keypair maskPrims params16 zeroStack demoEntropy).pk).ret = -1) :=
  ⟨⟨mixPrims_wots, by decide, by decide⟩,
    ⟨maskPrims_ignores, maskPrims_wots, by decide, by decide⟩⟩

set_option maxRecDepth 100000 in
/-- Instance of `treehash_eq_authpath_root`: `n = m = 32`, `h = 1`. -/
theorem treehash_eq_authpath_root_witness :
    ((∀ inp seed a n, maskPrims.hash_2n_n inp seed a n =
        maskPrims.hash_2n_n inp seed (clear_key_bits a) n) ∧
      1 ≤ params32.wots_par.len ∧
      params32.wots_par.len * params32.n ≤ params32.wots_par.keysize ∧
      (List.replicate 16 0).length = 16 ∧ (SET_OTS_BIT (List.replicate 16 0) 1).length = 16 ∧
      (List.replicate 16 0).take 9 = (SET_OTS_BIT (List.replicate 16 0) 1).take 9 ∧
      byte (List.replicate 16 0) 9 &&& 252 = byte (SET_OTS_BIT (List.replicate 16 0) 1) 9 &&& 252 ∧
      32 ≤ params32.n) ∧
    (treehash maskPrims params32 zeroStack params32.h 0 (List.replicate 32 5)
        (List.replicate 32 9) (List.replicate 16 0) =
        (compute_authpath_wots maskPrims params32 onesStack 1 (List.replicate 32 5)
          (List.replicate 32 9) (SET_OTS_BIT (List.replicate 16 0) 1)).root ∧
      treehash maskPrims params32 zeroStack params32.h 0 (List.replicate 32 5)
        (List.replicate 32 9) (List.replicate 16 0) =
        merkle_node maskPrims params32 (List.replicate 32 5) (List.replicate 32 9)
          (List.replicate 16 0) params32.h 0 ∧
      rd (xmss_keypair maskPrims params32 zeroStack demoEntropy).pk 0 params32.n =
        merkle_node maskPrims params32
          (rd (xmss_keypair maskPrims params32 zeroStack demoEntropy).sk 4 params32.n)
          (rd (xmss_keypair maskPrims params32 zeroStack demoEntropy).sk
            (4 + params32.n + params32.m) params32.n)
          (List.replicate 16 0) params32.h 0 ∧
      (xmss_sign maskPrims params32 onesStack
        (xmss_keypair maskPrims params32 zeroStack demoEntropy).sk [97]
        (xmss_keypair maskPrims params32 zeroStack demoEntropy).pk).different_pks = []) :=
  have t := treehash_eq_authpath_root maskPrims maskPrims_ignores params32 (by decide) (by decide)
    zeroStack onesStack 1 (List.replicate 32 5) (List.replicate 32 9) (List.replicate 16 0)
    (SET_OTS_BIT (List.replicate 16 0) 1) (by decide) (by decide) (by decide) (by decide)
    zeroStack onesStack demoEntropy
    (xmss_keypair maskPrims params32 zeroStack demoEntropy).sk [97]
  ⟨⟨maskPrims_ignores, by decide, by decide, by decide, by decide, by decide, by decide,
      by decide⟩,
    t.1, t.2.1, (t.2.2 (by decide)).1, (t.2.2 (by decide)).2 rfl⟩

set_option maxRecDepth 100000 in
/-- **C10, counterexample.** `n = m = 32`, `keysize = 64`, `h = 1`, 32-byte seeds, primitives
that are fixed functions of their inputs, with a `hash_2n_n` that reads all 16 address
bytes: `treehash` run over stack memory that held zeros and `compute_authpath_wots` run
over stack memory that held 0xff bytes return different roots for the same seeds and the
same address. The node address of each keeps bits 1..0 of byte 15 as the stack held
them. -/
theorem roots_differ_without_assumptions :
    (List.replicate 32 5).length = params32.n ∧ (List.replicate 32 9).length = params32.n ∧
      treehash mixPrims params32 zeroStack params32.h 0 (List.replicate 32 5)
          (List.replicate 32 9) (List.replicate 16 0) ≠
        (compute_authpath_wots mixPrims params32 onesStack 0 (List.replicate 32 5)
          (List.replicate 32 9) (List.replicate 16 0)).root := by
  decide

/-! ## Bit fields of the address macros -/

theorem tb255 (i : Nat) : Nat.testBit 255 i = decide (i < 8) := by
  have : (255 : Nat) = 2 ^ 8 - 1 := by norm_num
  rw [this, Nat.testBit_two_pow_sub_one]

theorem tb3 (i : Nat) : Nat.testBit 3 i = decide (i < 2) := by
  have : (3 : Nat) = 2 ^ 2 - 1 := by norm_num
  rw [this, Nat.testBit_two_pow_sub_one]

theorem tb63 (i : Nat) : Nat.testBit 63 i = decide (i < 6) := by
  have : (63 : Nat) = 2 ^ 6 - 1 := by norm_num
  rw [this, Nat.testBit_two_pow_sub_one]

theorem tb252 (i : Nat) : Nat.testBit 252 i = decide (2 ≤ i ∧ i < 8) := by
  have : (252 : Nat) = 63 <<< 2 := by decide
  rw [this, Nat.testBit_shiftLeft, tb63]
  by_cases h : 2 ≤ i <;> simp [h] <;> omega

theorem tb_hi (x n i : Nat) (hx : x < 2 ^ n) (hi : n ≤ i) : Nat.testBit x i = false :=
  Nat.testBit_lt_two_pow (lt_of_lt_of_le hx (Nat.pow_le_pow_right (by decide) hi))

/-- Bits 7..2 of a byte written as `(old & 3) | ((v << 2) & 255)` are `v[5..0]`. -/
theorem field_hi6 (x v : Nat) : (((x &&& 3) ||| ((v <<< 2) &&& 255)) >>> 2) &&& 63 = v &&& 63 := by
  apply Nat.eq_of_testBit_eq
  intro i
  simp only [Nat.testBit_shiftRight, Nat.testBit_or, Nat.testBit_and, Nat.testBit_shiftLeft, tb3,
    tb255, tb63]
  by_cases h : i < 6 <;> simp [h] <;> omega

theorem field_hi6_shr (x v : Nat) : ((x &&& 3) ||| ((v <<< 2) &&& 255)) >>> 2 = v &&& 63 := by
  apply Nat.eq_of_testBit_eq
  intro i
  simp only [Nat.testBit_shiftRight, Nat.testBit_or, Nat.testBit_and, Nat.testBit_shiftLeft, tb3,
    tb255, tb63]
  by_cases h : i < 6 <;> simp [h] <;> omega

/-- Bits 1..0 of a byte written as `(old & 3) | ((v << 2) & 255)` are those of `old`. -/
theorem field_lo2_keep (x v : Nat) : ((x &&& 3) ||| ((v <<< 2) &&& 255)) &&& 3 = x &&& 3 := by
  apply Nat.eq_of_testBit_eq
  intro i
  simp only [Nat.testBit_or, Nat.testBit_and, Nat.testBit_shiftLeft, tb3, tb255]
  by_cases h : i < 2 <;> simp [h]

/-- Bits 1..0 of a byte written as `(old & 252) | (w & 3)` are those of `w`. -/
theorem field_lo2 (x w : Nat) : ((x &&& 252) ||| (w &&& 3)) &&& 3 = w &&& 3 := by
  apply Nat.eq_of_testBit_eq
  intro i
  simp only [Nat.testBit_or, Nat.testBit_and, tb3, tb252]
  by_cases h : i < 2 <;> simp [h]

theorem shl2_and252 (v : Nat) : ((v <<< 2) &&& 255) &&& 252 = (v <<< 2) &&& 255 := by
  apply Nat.eq_of_testBit_eq
  intro i
  simp only [Nat.testBit_and, Nat.testBit_shiftLeft, tb255, tb252]
  by_cases h : 2 ≤ i <;> by_cases h8 : i < 8 <;> simp [h, h8]

theorem and254_and1 (x : Nat) : (x &&& 254) &&& 1 = 0 := by
  rw [Nat.and_assoc]
  have e : (254 : Nat) &&& 1 = 0 := by decide
  rw [e, Nat.and_zero]

theorem and254_mod2 (x : Nat) : (x &&& 254) % 2 = 0 := by
  rw [← Nat.and_one_is_mod, and254_and1]

theorem and254_and254 (x : Nat) : (x &&& 254) &&& 254 = x &&& 254 := by
  rw [Nat.and_assoc, Nat.and_self]

/-- **C16, as the code behaves.** For every 16-byte address `a` and every value `v`
(22-bit or not), after `SET_LTREE_TREE_INDEX(a, v)` byte 13 bits 1..0 are `v[15..14]`,
byte 14 is `v[13..6]` and byte 15 bits 7..2 are `v[5..0]`: the macro stores the low 16
bits of `v`. -/
theorem set_ltree_tree_index_fields (a : Bytes) (v : Nat) (ha : a.length = 16) :
    byte (SET_LTREE_TREE_INDEX a v) 13 &&& 3 = (v >>> 14) &&& 3 ∧
      byte (SET_LTREE_TREE_INDEX a v) 14 = (v >>> 6) &&& 255 ∧
      byte (SET_LTREE_TREE_INDEX a v) 15 >>> 2 = v &&& 63 := by
  obtain ⟨a0, a1, a2, a3, a4, a5, a6, a7, a8, a9, a10, a11, a12, a13, a14, a15, rfl⟩ := len16 a ha
  simp [SET_LTREE_TREE_INDEX, byte, field_lo2, field_hi6_shr]

/-- Instance of `set_ltree_tree_index_fields`: the all-zero address and `v = 0x12345`. -/
theorem set_ltree_tree_index_fields_witness :
    (List.replicate 16 0).length = 16 ∧
    (byte (SET_LTREE_TREE_INDEX (List.replicate 16 0) 74565) 13 &&& 3 = (74565 >>> 14) &&& 3 ∧
      byte (SET_LTREE_TREE_INDEX (List.replicate 16 0) 74565) 14 = (74565 >>> 6) &&& 255 ∧
      byte (SET_LTREE_TREE_INDEX (List.replicate 16 0) 74565) 15 >>> 2 = 74565 &&& 63) :=
  ⟨by decide, set_ltree_tree_index_fields (List.replicate 16 0) 74565 (by decide)⟩

/-- **C16, counterexample.** The all-zero address and the 22-bit value
`v = 2^20 + 2^12 + 2^6`, for which `v[21..20] = 1`, `v[19..12] = 1` and `v[11..6] = 1`:
after `SET_LTREE_TREE_INDEX` byte 13 bits 1..0 are 0, byte 14 is 65 and byte 15 bits 7..2
are 0. -/
theorem ltree_tree_index_low_bits :
    (1052736 : Nat) < 2 ^ 22 ∧
      byte (SET_LTREE_TREE_INDEX (List.replicate 16 0) 1052736) 13 &&& 3 = 0 ∧
      (1052736 >>> 20) &&& 3 = 1 ∧
      byte (SET_LTREE_TREE_INDEX (List.replicate 16 0) 1052736) 14 = 65 ∧
      (1052736 >>> 12) &&& 255 = 1 ∧
      byte (SET_LTREE_TREE_INDEX (List.replicate 16 0) 1052736) 15 >>> 2 = 0 ∧
      (1052736 >>> 6) &&& 63 = 1 := by
  decide

/-- **C17, as the code behaves.** For every 16-byte address `a`, `ZEROISE_OTS_ADDR(a)`
clears bit 0 of byte 12, leaves bits 7..1 of byte 12 and bytes 0..11 unchanged, and sets
bytes 13, 14 and 15 to 0; `get_seed` hands the address so changed back to its caller. -/
theorem zeroise_ots_addr_fields (a : Bytes) (ha : a.length = 16) :
    byte (ZEROISE_OTS_ADDR a) 12 &&& 1 = 0 ∧
      byte (ZEROISE_OTS_ADDR a) 12 &&& 254 = byte a 12 &&& 254 ∧
      byte (ZEROISE_OTS_ADDR a) 13 = 0 ∧ byte (ZEROISE_OTS_ADDR a) 14 = 0 ∧
      byte (ZEROISE_OTS_ADDR a) 15 = 0 ∧
      (ZEROISE_OTS_ADDR a).take 12 = a.take 12 ∧ (ZEROISE_OTS_ADDR a).length = 16 ∧
      ∀ (P : Primitives) (sk_seed : Bytes), (get_seed P sk_seed a).addr = ZEROISE_OTS_ADDR a := by
  obtain ⟨a0, a1, a2, a3, a4, a5, a6, a7, a8, a9, a10, a11, a12, a13, a14, a15, rfl⟩ := len16 a ha
  refine ⟨?_, ?_, ?_, ?_, ?_, ?_, ?_, fun _ _ => rfl⟩ <;>
    simp [ZEROISE_OTS_ADDR, byte, and254_mod2, and254_and254]

/-- Instance of `zeroise_ots_addr_fields`: an address whose bytes 12..15 are `ff`. -/
theorem zeroise_ots_addr_fields_witness :
    (List.replicate 12 0 ++ [255, 255, 255, 255]).length = 16 ∧
    (byte (ZEROISE_OTS_ADDR (List.replicate 12 0 ++ [255, 255, 255, 255])) 12 &&& 1 = 0 ∧
      byte (ZEROISE_OTS_ADDR (List.replicate 12 0 ++ [255, 255, 255, 255])) 12 &&& 254 =
        byte (List.replicate 12 0 ++ [255, 255, 255, 255]) 12 &&& 254 ∧
      byte (ZEROISE_OTS_ADDR (List.replicate 12 0 ++ [255, 255, 255, 255])) 13 = 0 ∧
      byte (ZEROISE_OTS_ADDR (List.replicate 12 0 ++ [255, 255, 255, 255])) 14 = 0 ∧
      byte (ZEROISE_OTS_ADDR (List.replicate 12 0 ++ [255, 255, 255, 255])) 15 = 0 ∧
      (ZEROISE_OTS_ADDR (List.replicate 12 0 ++ [255, 255, 255, 255])).take 12 =
        (List.replicate 12 0 ++ [255, 255, 255, 255]).take 12 ∧
      (ZEROISE_OTS_ADDR (List.replicate 12 0 ++ [255, 255, 255, 255])).length = 16 ∧
      ∀ (P : Primitives) (sk_seed : Bytes),
        (get_seed P sk_seed (List.replicate 12 0 ++ [255, 255, 255, 255])).addr =
          ZEROISE_OTS_ADDR (List.replicate 12 0 ++ [255, 255, 255, 255])) :=
  ⟨by decide, zeroise_ots_addr_fields (List.replicate 12 0 ++ [255, 255, 255, 255]) (by decide)⟩

/-- **C17, counterexample.** An address whose byte 12 is `01`: after `ZEROISE_OTS_ADDR`
byte 12 is `00`, so bit 0 of byte 12 has changed from 1 to 0. -/
theorem zeroise_clears_key_bit :
    byte (List.replicate 12 0 ++ [1, 0, 0, 0]) 12 &&& 1 = 1 ∧
      byte (ZEROISE_OTS_ADDR (List.replicate 12 0 ++ [1, 0, 0, 0])) 12 &&& 1 = 0 ∧
      byte (ZEROISE_OTS_ADDR (List.replicate 12 0 ++ [1, 0, 0, 0])) 12 &&& 1 ≠
        byte (List.replicate 12 0 ++ [1, 0, 0, 0]) 12 &&& 1 := by
  decide

theorem height_readback (x11 x12 t v : Nat) (ht : t < 2 ^ 8) :
    ((((x11 &&& 252) ||| ((t >>> 6) &&& 3)) &&& 3) <<< 6) |||
      ((((((x12 &&& 3) ||| ((t <<< 2) &&& 255)) &&& 252) ||| ((v >>> 22) &&& 3)) >>> 2) &&& 63) = t := by
  apply Nat.eq_of_testBit_eq
  intro i
  simp only [Nat.testBit_shiftRight, Nat.testBit_or, Nat.testBit_and, Nat.testBit_shiftLeft, tb3,
    tb255, tb63, tb252]
  by_cases h8 : i < 8
  · interval_cases i <;> simp
  · have a1 : ¬ (i - 6 < 2) := by omega
    have a2 : ¬ (2 + i < 8) := by omega
    have a3 : ¬ (i < 6) := by omega
    simp [a1, a2, a3, tb_hi t 8 i ht (by omega)]

theorem index_readback (x12 x15 t v : Nat) (hv : v < 2 ^ 24) :
    ((((((x12 &&& 3) ||| ((t <<< 2) &&& 255)) &&& 252) ||| ((v >>> 22) &&& 3)) &&& 3) <<< 22) |||
      ((((v >>> 14) &&& 255) &&& 255) <<< 14) ||| ((((v >>> 6) &&& 255) &&& 255) <<< 6) |||
      ((((x15 &&& 3) ||| ((v <<< 2) &&& 255)) >>> 2) &&& 63) = v := by
  apply Nat.eq_of_testBit_eq
  intro i
  simp only [Nat.testBit_shiftRight, Nat.testBit_or, Nat.testBit_and, Nat.testBit_shiftLeft, tb3,
    tb255, tb63, tb252]
  by_cases h8 : i < 24
  · interval_cases i <;> simp
  · have a1 : ¬ (i - 22 < 2) := by omega
    have a2 : ¬ (i - 14 < 8) := by omega
    have a3 : ¬ (i - 6 < 8) := by omega
    have a4 : ¬ (i < 6) := by omega
    simp [a1, a2, a3, a4, tb_hi v 24 i hv (by omega)]

theorem shr6_and3 (t : Nat) (ht : t < 2 ^ 8) : (t >>> 6) &&& 3 = t >>> 6 := by
  apply Nat.eq_of_testBit_eq
  intro i
  simp only [Nat.testBit_shiftRight, Nat.testBit_and, tb3]
  by_cases h : i < 2
  · simp [h]
  · simp [h, tb_hi t 8 (6 + i) ht (by omega)]

theorem shr22_and3 (v : Nat) (hv : v < 2 ^ 24) : (v >>> 22) &&& 3 = v >>> 22 := by
  apply Nat.eq_of_testBit_eq
  intro i
  simp only [Nat.testBit_shiftRight, Nat.testBit_and, tb3]
  by_cases h : i < 2
  · simp [h]
  · simp [h, tb_hi v 24 (22 + i) hv (by omega)]

/-- The two node-address setters commute. -/
theorem node_setters_comm (a : Bytes) (t v : Nat) (ha : a.length = 16) :
    SET_NODE_TREE_HEIGHT (SET_NODE_TREE_INDEX a v) t =
      SET_NODE_TREE_INDEX (SET_NODE_TREE_HEIGHT a t) v := by
  obtain ⟨a0, a1, a2, a3, a4, a5, a6, a7, a8, a9, a10, a11, a12, a13, a14, a15, rfl⟩ := len16 a ha
  simp only [SET_NODE_TREE_HEIGHT, SET_NODE_TREE_INDEX, byte, List.set_cons_succ, List.set_cons_zero, List.getD_cons_succ, List.getD_cons_zero]
  simp only [field_lo2, and3_or_and252, shl2_and252]
  rw [Nat.or_comm (v >>> 22 &&& 3)]

/-- **C18.** For every 16-byte address `a`, height `t < 2^8` and index `v < 2^24`:
`SET_NODE_TREE_HEIGHT` stores `t[7..6]` in byte 11 bits 1..0 and `t[5..0]` in byte 12 bits
7..2; `SET_NODE_TREE_INDEX` stores `v[23..22]` in byte 12 bits 1..0, `v[21..14]` in byte
13, `v[13..6]` in byte 14 and `v[5..0]` in byte 15 bits 7..2; each leaves all other bits
as they were; the two setters commute, and after both, in either order, the height field
reads `t` and the index field reads `v`. -/
theorem node_setters_field_exact (a : Bytes) (t v : Nat) (ha : a.length = 16) (ht : t < 2 ^ 8)
    (hv : v < 2 ^ 24) :
    (byte (SET_NODE_TREE_HEIGHT a t) 11 &&& 3 = t >>> 6 ∧
      (byte (SET_NODE_TREE_HEIGHT a t) 12 >>> 2) &&& 63 = t &&& 63) ∧
    (byte (SET_NODE_TREE_HEIGHT a t) 11 &&& 252 = byte a 11 &&& 252 ∧
      byte (SET_NODE_TREE_HEIGHT a t) 12 &&& 3 = byte a 12 &&& 3 ∧
      ∀ i, i ≠ 11 → i ≠ 12 → byte (SET_NODE_TREE_HEIGHT a t) i = byte a i) ∧
    (byte (SET_NODE_TREE_INDEX a v) 12 &&& 3 = v >>> 22 ∧
      byte (SET_NODE_TREE_INDEX a v) 13 = (v >>> 14) &&& 255 ∧
      byte (SET_NODE_TREE_INDEX a v) 14 = (v >>> 6) &&& 255 ∧
      (byte (SET_NODE_TREE_INDEX a v) 15 >>> 2) &&& 63 = v &&& 63) ∧
    (byte (SET_NODE_TREE_INDEX a v) 12 &&& 252 = byte a 12 &&& 252 ∧
      byte (SET_NODE_TREE_INDEX a v) 15 &&& 3 = byte a 15 &&& 3 ∧
      ∀ i, i < 12 → byte (SET_NODE_TREE_INDEX a v) i = byte a i) ∧
    SET_NODE_TREE_HEIGHT (SET_NODE_TREE_INDEX a v) t =
      SET_NODE_TREE_INDEX (SET_NODE_TREE_HEIGHT a t) v ∧
    node_tree_height (SET_NODE_TREE_INDEX (SET_NODE_TREE_HEIGHT a t) v) = t ∧
    node_tree_index (SET_NODE_TREE_INDEX (SET_NODE_TREE_HEIGHT a t) v) = v ∧
    node_tree_height (SET_NODE_TREE_HEIGHT (SET_NODE_TREE_INDEX a v) t) = t ∧
    node_tree_index (SET_NODE_TREE_HEIGHT (SET_NODE_TREE_INDEX a v) t) = v := by
  have hother_h : ∀ i, i ≠ 11 → i ≠ 12 → byte (SET_NODE_TREE_HEIGHT a t) i = byte a i := by
    intro i h11 h12
    simp only [SET_NODE_TREE_HEIGHT, byte]
    rw [getD_set_ne _ _ _ _ (Ne.symm h11), getD_set_ne _ _ _ _ (Ne.symm h12)]
  have hother_i : ∀ i, i < 12 → byte (SET_NODE_TREE_INDEX a v) i = byte a i := by
    intro i hi
    simp only [SET_NODE_TREE_INDEX, byte]
    rw [getD_set_ne _ _ _ _ (by omega), getD_set_ne _ _ _ _ (by omega),
      getD_set_ne _ _ _ _ (by omega), getD_set_ne _ _ _ _ (by omega)]
  have hc := node_setters_comm a t v ha
  obtain ⟨a0, a1, a2, a3, a4, a5, a6, a7, a8, a9, a10, a11, a12, a13, a14, a15, rfl⟩ := len16 a ha
  have r1 : node_tree_height (SET_NODE_TREE_INDEX (SET_NODE_TREE_HEIGHT
      [a0, a1, a2, a3, a4, a5, a6, a7, a8, a9, a10, a11, a12, a13, a14, a15] t) v) = t := by
    simp only [node_tree_height, SET_NODE_TREE_HEIGHT, SET_NODE_TREE_INDEX, byte]
    simp only [List.set_cons_succ, List.set_cons_zero, List.getD_cons_succ, List.getD_cons_zero]
    exact height_readback a11 a12 t v ht
  have r2 : node_tree_index (SET_NODE_TREE_INDEX (SET_NODE_TREE_HEIGHT
      [a0, a1, a2, a3, a4, a5, a6, a7, a8, a9, a10, a11, a12, a13, a14, a15] t) v) = v := by
    simp only [node_tree_index, SET_NODE_TREE_HEIGHT, SET_NODE_TREE_INDEX, byte]
    simp only [List.set_cons_succ, List.set_cons_zero, List.getD_cons_succ, List.getD_cons_zero]
    exact index_readback a12 a15 t v hv
  refine ⟨⟨?_, ?_⟩, ⟨?_, ?_, hother_h⟩, ⟨?_, ?_, ?_, ?_⟩, ⟨?_, ?_, hother_i⟩, hc, r1, r2, ?_, ?_⟩
  · simp only [SET_NODE_TREE_HEIGHT, byte, List.set_cons_succ, List.set_cons_zero, List.getD_cons_succ, List.getD_cons_zero]
    rw [field_lo2, shr6_and3 t ht]
  · simp [SET_NODE_TREE_HEIGHT, byte, field_hi6]
  · simp [SET_NODE_TREE_HEIGHT, byte, and252_or_and3]
  · simp [SET_NODE_TREE_HEIGHT, byte, field_lo2_keep]
  · simp only [SET_NODE_TREE_INDEX, byte, List.set_cons_succ, List.set_cons_zero, List.getD_cons_succ, List.getD_cons_zero]
    rw [field_lo2, shr22_and3 v hv]
  · simp [SET_NODE_TREE_INDEX, byte]
  · simp [SET_NODE_TREE_INDEX, byte]
  · simp [SET_NODE_TREE_INDEX, byte, field_hi6]
  · simp [SET_NODE_TREE_INDEX, byte, and252_or_and3]
  · simp [SET_NODE_TREE_INDEX, byte, field_lo2_keep]
  · rw [hc]; exact r1
  · rw [hc]; exact r2

/-- Instance of `node_setters_field_exact`: an address of `ff` bytes, height 0xa5 and index
0xabcdef. -/
theorem node_setters_field_exact_witness :
    ((List.replicate 16 255).length = 16 ∧ 165 < 2 ^ 8 ∧ 11259375 < 2 ^ 24) ∧
    node_tree_height (SET_NODE_TREE_INDEX (SET_NODE_TREE_HEIGHT (List.replicate 16 255) 165)
      11259375) = 165 ∧
    node_tree_index (SET_NODE_TREE_HEIGHT (SET_NODE_TREE_INDEX (List.replicate 16 255) 11259375)
      165) = 11259375 :=
  have h := node_setters_field_exact (List.replicate 16 255) 165 11259375 (by decide) (by decide)
    (by decide)
  ⟨⟨by decide, by decide, by decide⟩, h.2.2.2.2.2.1, h.2.2.2.2.2.2.2.2⟩

/-- **C11.** When `len` is 1, the loop `while (l > 1)` of `l_tree` is not entered: the loop
state is left as it was, so no `hash_2n_n` call is made, `wots_pk` is unchanged, and the
leaf is the first `n` bytes of `wots_pk`; the result is the same for every choice of the
hash primitives, for every input, `pub_seed` and address. -/
theorem l_tree_len_one (P : Primitives) (params : xmss_params) (wots_pk pub_seed addr : Bytes)
    (hlen : params.wots_par.len = 1) :
    l_tree_loop P params.n pub_seed params.wots_par.len
        { wots_pk := wots_pk, addr := SET_LTREE_TREE_HEIGHT addr 0, l := params.wots_par.len,
          height := 0 } =
        { wots_pk := wots_pk, addr := SET_LTREE_TREE_HEIGHT addr 0, l := params.wots_par.len,
          height := 0 } ∧
      (l_tree P params wots_pk pub_seed addr).leaf = rd wots_pk 0 params.n ∧
      (l_tree P params wots_pk pub_seed addr).wots_pk = wots_pk ∧
      (l_tree P params wots_pk pub_seed addr).addr = SET_LTREE_TREE_HEIGHT addr 0 ∧
      ∀ Q : Primitives,
        l_tree Q params wots_pk pub_seed addr = l_tree P params wots_pk pub_seed addr := by
  have h : ∀ Q : Primitives, l_tree_loop Q params.n pub_seed params.wots_par.len
      { wots_pk := wots_pk, addr := SET_LTREE_TREE_HEIGHT addr 0, l := params.wots_par.len,
        height := 0 } =
      { wots_pk := wots_pk, addr := SET_LTREE_TREE_HEIGHT addr 0, l := params.wots_par.len,
        height := 0 } := by
    intro Q
    rw [hlen]
    simp [l_tree_loop]
  have hl : ∀ Q : Primitives, l_tree Q params wots_pk pub_seed addr =
      { leaf := rd wots_pk 0 params.n, wots_pk := wots_pk,
        addr := SET_LTREE_TREE_HEIGHT addr 0 } := by
    intro Q
    simp only [l_tree]
    rw [h Q]
  refine ⟨h P, ?_, ?_, ?_, ?_⟩
  · rw [hl P]
  · rw [hl P]
  · rw [hl P]
  · intro Q
    rw [hl P, hl Q]

/-- Instance of `l_tree_len_one`: `n = 2`, `len = 1`, a buffer of two bytes. -/
theorem l_tree_len_one_witness :
    paramsLen1.wots_par.len = 1 ∧
    (l_tree mixPrims paramsLen1 [7, 9] [1, 2] (List.replicate 16 0)).leaf = [7, 9] :=
  ⟨by decide,
    (l_tree_len_one mixPrims paramsLen1 [7, 9] [1, 2] (List.replicate 16 0) (by decide)).2.1⟩

theorem or_eq_zero (x y : Nat) (h : x ||| y = 0) : x = 0 ∧ y = 0 := by
  have hb : ∀ i, (x.testBit i || y.testBit i) = false := by
    intro i
    rw [← Nat.testBit_or, h, Nat.zero_testBit]
  constructor
  · apply Nat.eq_of_testBit_eq
    intro i
    have := hb i
    simp only [Bool.or_eq_false_iff] at this
    rw [this.1, Nat.zero_testBit]
  · apply Nat.eq_of_testBit_eq
    intro i
    have := hb i
    simp only [Bool.or_eq_false_iff] at this
    rw [this.2, Nat.zero_testBit]

theorem shl_eq_zero (x k : Nat) (h : x <<< k = 0) : x = 0 := by
  rw [Nat.shiftLeft_eq] at h
  rcases Nat.mul_eq_zero.mp h with h | h
  · exact h
  · exact absurd h (Nat.pos_iff_ne_zero.mp (Nat.two_pow_pos k))

/-- The index expression `(b0<<24 | b1<<16 | b2<<8) || b3` is 0 when the four bytes are
zero and 1 otherwise. -/
theorem index_flag (b0 b1 b2 b3 : Nat) :
    logical_or ((b0 <<< 24) ||| (b1 <<< 16) ||| (b2 <<< 8)) b3 =
      if b0 = 0 ∧ b1 = 0 ∧ b2 = 0 ∧ b3 = 0 then 0 else 1 := by
  unfold logical_or
  by_cases h : b0 = 0 ∧ b1 = 0 ∧ b2 = 0 ∧ b3 = 0
  · obtain ⟨rfl, rfl, rfl, rfl⟩ := h
    simp
  · rw [if_neg h, if_pos]
    by_contra hc
    apply h
    simp only [not_or, not_not] at hc
    obtain ⟨h1, h2⟩ := hc
    obtain ⟨h12, h3⟩ := or_eq_zero _ _ h1
    obtain ⟨h11, h22⟩ := or_eq_zero _ _ h12
    exact ⟨shl_eq_zero _ _ h11, shl_eq_zero _ _ h22, shl_eq_zero _ _ h3, h2⟩

/-- **C19.** The index `xmss_sign` extracts from `sk` is 0 when `sk[0..4]` are all zero and
1 otherwise: that value is written to `sig_msg[0..4]`, is the OTS index of the address
handed to `get_seed` and `wots_sign`, is the leaf index of the authentication path, and
the index stored back is that value plus one, hence 1 or 2. `xmss_sign_open` reads the
index of a signature in the same way: its result is that for the signature with index
bytes `00 00 00 00` or `00 00 00 01`. -/
theorem index_is_zero_or_one (P : Primitives) (params : xmss_params) (u : Uninit)
    (sk msg pk sig_msg : Bytes) (L : Nat) :
    let idx := if byte sk 0 = 0 ∧ byte sk 1 = 0 ∧ byte sk 2 = 0 ∧ byte sk 3 = 0 then 0 else 1
    let g := get_seed P (rd sk 4 params.n)
      (SET_OTS_ADDRESS (SET_OTS_BIT (List.replicate 16 0) 1) idx)
    let R := P.prf_m msg (rd sk (4 + params.n) params.m) params.m
    let wots_sig := P.wots_sign (P.hash_m msg R params.m params.m) g.seed params.wots_par
      (rd sk (4 + params.n + params.m) params.n) g.addr
    let a := compute_authpath_wots P params u idx (rd sk 4 params.n)
      (rd sk (4 + params.n + params.m) params.n) g.addr
    let jdx := if byte sig_msg 0 = 0 ∧ byte sig_msg 1 = 0 ∧ byte sig_msg 2 = 0 ∧
      byte sig_msg 3 = 0 then 0 else 1
    logical_or ((byte sk 0 <<< 24) ||| (byte sk 1 <<< 16) ||| (byte sk 2 <<< 8)) (byte sk 3) =
        idx ∧
      (xmss_sign P params u sk msg pk).sig_msg =
        [0, 0, 0, idx] ++ R ++ wots_sig ++ a.authpath ++ msg ∧
      (xmss_sign P params u sk msg pk).sk = (((sk.set 0 0).set 1 0).set 2 0).set 3 (idx + 1) ∧
      (idx + 1 = 1 ∨ idx + 1 = 2) ∧
      logical_or ((byte sig_msg 0 <<< 24) ||| (byte sig_msg 1 <<< 16) ||| (byte sig_msg 2 <<< 8))
        (byte sig_msg 3) = jdx ∧
      xmss_sign_open P params u sig_msg L pk =
        xmss_sign_open P params u ([0, 0, 0, jdx] ++ sig_msg.drop 4) L pk := by
  intro idx g R wots_sig a jdx
  have hi : logical_or ((byte sk 0 <<< 24) ||| (byte sk 1 <<< 16) ||| (byte sk 2 <<< 8))
      (byte sk 3) = idx := index_flag _ _ _ _
  have hj : logical_or ((byte sig_msg 0 <<< 24) ||| (byte sig_msg 1 <<< 16) |||
      (byte sig_msg 2 <<< 8)) (byte sig_msg 3) = jdx := index_flag _ _ _ _
  have hidx : idx ≤ 1 := by
    show (if _ then 0 else 1) ≤ 1
    split <;> omega
  have hjdx : jdx ≤ 1 := by
    show (if _ then 0 else 1) ≤ 1
    split <;> omega
  have e0 : ∀ x, x ≤ 1 → (x >>> 24) &&& 255 = 0 ∧ (x >>> 16) &&& 255 = 0 ∧
      (x >>> 8) &&& 255 = 0 ∧ x &&& 255 = x := by
    intro x hx
    interval_cases x <;> decide
  have e1 : ∀ x, x ≤ 1 → ((x + 1) >>> 24) &&& 255 = 0 ∧ ((x + 1) >>> 16) &&& 255 = 0 ∧
      ((x + 1) >>> 8) &&& 255 = 0 ∧ (x + 1) &&& 255 = x + 1 := by
    intro x hx
    interval_cases x <;> decide
  refine ⟨hi, ?_, ?_, ?_, hj, ?_⟩
  · simp only [xmss_sign]
    rw [hi, (e0 idx hidx).1, (e0 idx hidx).2.1, (e0 idx hidx).2.2.1, (e0 idx hidx).2.2.2]
  · simp only [xmss_sign]
    rw [hi, (e1 idx hidx).1, (e1 idx hidx).2.1, (e1 idx hidx).2.2.1, (e1 idx hidx).2.2.2]
  · omega
  · have hk : logical_or ((byte ([0, 0, 0, jdx] ++ sig_msg.drop 4) 0 <<< 24) |||
        (byte ([0, 0, 0, jdx] ++ sig_msg.drop 4) 1 <<< 16) |||
        (byte ([0, 0, 0, jdx] ++ sig_msg.drop 4) 2 <<< 8))
        (byte ([0, 0, 0, jdx] ++ sig_msg.drop 4) 3) = jdx := by
      rw [index_flag]
      simp only [byte, List.cons_append, List.nil_append, List.getD_cons_zero,
        List.getD_cons_succ]
      interval_cases jdx <;> simp
    have hd : ([0, 0, 0, jdx] ++ sig_msg.drop 4).drop 4 = sig_msg.drop 4 := rfl
    simp only [xmss_sign_open]
    rw [hj, hk, hd]

/-! ## validate_authpath as a fold -/

theorem node_frame_refl (a : Bytes) (h : a.length = 16) : node_frame a a :=
  ⟨h, h, rfl, rfl, rfl⟩

/-- Addresses that agree outside the two fields give the same address once both fields are
set, and setting the fields keeps the agreement. -/
theorem node_frame_set (a b : Bytes) (k j : Nat) (h : node_frame a b) :
    SET_NODE_TREE_INDEX (SET_NODE_TREE_HEIGHT a k) j =
        SET_NODE_TREE_INDEX (SET_NODE_TREE_HEIGHT b k) j ∧
      node_frame (SET_NODE_TREE_INDEX (SET_NODE_TREE_HEIGHT a k) j) b := by
  obtain ⟨ha, hb, ht, h11, h15⟩ := h
  obtain ⟨a0, a1, a2, a3, a4, a5, a6, a7, a8, a9, a10, a11, a12, a13, a14, a15, rfl⟩ := len16 a ha
  obtain ⟨b0, b1, b2, b3, b4, b5, b6, b7, b8, b9, b10, b11, b12, b13, b14, b15, rfl⟩ := len16 b hb
  simp only [List.take_succ_cons, List.take_zero, List.cons.injEq, and_true] at ht
  obtain ⟨rfl, rfl, rfl, rfl, rfl, rfl, rfl, rfl, rfl, rfl, rfl⟩ := ht
  simp only [byte, List.getD_cons_succ, List.getD_cons_zero] at h11 h15
  constructor
  · simp only [SET_NODE_TREE_HEIGHT, SET_NODE_TREE_INDEX, byte, List.set_cons_succ,
      List.set_cons_zero, List.getD_cons_succ, List.getD_cons_zero, and3_or_and252, h11, h15]
  · refine ⟨by simp [SET_NODE_TREE_HEIGHT, SET_NODE_TREE_INDEX], rfl, ?_, ?_, ?_⟩
    · simp [SET_NODE_TREE_HEIGHT, SET_NODE_TREE_INDEX]
    · simp only [SET_NODE_TREE_HEIGHT, SET_NODE_TREE_INDEX, byte, List.set_cons_succ,
        List.set_cons_zero, List.getD_cons_succ, List.getD_cons_zero, and252_or_and3, h11]
    · simp only [SET_NODE_TREE_HEIGHT, SET_NODE_TREE_INDEX, byte, List.set_cons_succ,
        List.set_cons_zero, List.getD_cons_succ, List.getD_cons_zero, field_lo2_keep, h15]

theorem rd_flatten_head (n : Nat) (a : Bytes) (rest : List Bytes) (ha : a.length = n) :
    rd ((a :: rest).flatten) 0 n = a ∧ ((a :: rest).flatten).drop n = rest.flatten := by
  subst ha
  simp [rd]

theorem rd_self (a : Bytes) (n : Nat) (h : a.length = n) : rd a 0 n = a := by
  subst h
  simp [rd]

theorem authpath_fold_cons (P : Primitives) (n : Nat) (pub_seed addr : Bytes) (idx i : Nat)
    (node auth : Bytes) (rest : List Bytes) :
    authpath_fold P n pub_seed addr idx i node (auth :: rest) =
      authpath_fold P n pub_seed addr idx (i + 1)
        (P.hash_2n_n (if (idx >>> i) &&& 1 = 0 then node ++ auth else auth ++ node) pub_seed
          (SET_NODE_TREE_INDEX (SET_NODE_TREE_HEIGHT addr i) (idx >>> (i + 1))) n) rest := rfl

/-- The state of `validate_authpath` after `j` passes of its loop, and the specified fold
from level `j` on. -/
theorem validate_loop_fold (P : Primitives) (params : xmss_params) (leaf : Bytes) (idx : Nat)
    (auths : List Bytes) (pub_seed addr : Bytes) (haddr : addr.length = 16)
    (hleaf : leaf.length = params.n) (hblk : ∀ a ∈ auths, a.length = params.n)
    (j : Nat) (hj : j < auths.length) :
    let st0 : validate_state :=
      { buffer := if idx &&& 1 ≠ 0 then rd auths.flatten 0 params.n ++ rd leaf 0 params.n
          else rd leaf 0 params.n ++ rd auths.flatten 0 params.n,
        leafidx := idx, authpath := auths.flatten.drop params.n, addr := addr }
    let st := (List.range j).foldl (validate_step P params.n pub_seed) st0
    st.leafidx = idx >>> j ∧ st.authpath = (auths.drop (j + 1)).flatten ∧
      node_frame st.addr addr ∧
      ∃ node auth, node.length = params.n ∧ auths.drop j = auth :: auths.drop (j + 1) ∧
        st.buffer = (if (idx >>> j) &&& 1 = 0 then node ++ auth else auth ++ node) ∧
        authpath_fold P params.n pub_seed addr idx 0 leaf auths =
          authpath_fold P params.n pub_seed addr idx j node (auths.drop j) := by
  intro st0 st
  induction j with
  | zero =>
    obtain ⟨a0, rest, rfl⟩ : ∃ a0 rest, auths = a0 :: rest := by
      cases auths with
      | nil => simp at hj
      | cons a0 rest => exact ⟨a0, rest, rfl⟩
    have ha0 : a0.length = params.n := hblk a0 (by simp)
    obtain ⟨r1, r2⟩ := rd_flatten_head params.n a0 rest ha0
    refine ⟨rfl, ?_, node_frame_refl addr haddr, leaf, a0, hleaf, rfl, ?_, rfl⟩
    · show (a0 :: rest).flatten.drop params.n = _
      rw [r2]; rfl
    · show (if idx &&& 1 ≠ 0 then _ else _) = _
      rw [r1, rd_self leaf _ hleaf, Nat.shiftRight_zero]
      by_cases hb : idx &&& 1 = 0
      · rw [if_neg (not_not.mpr hb), if_pos hb]
      · rw [if_pos hb, if_neg hb]
  | succ j ih =>
    obtain ⟨h1, h2, h3, node, auth, hn, hd, hbuf, hfold⟩ := ih (by omega)
    have hst : st = validate_step P params.n pub_seed
        ((List.range j).foldl (validate_step P params.n pub_seed) st0) j :=
      foldl_range_succ _ _ _
    obtain ⟨auth', hd'⟩ : ∃ auth', auths.drop (j + 1) = auth' :: auths.drop (j + 1 + 1) := by
      have : (auths.drop (j + 1)).length = auths.length - (j + 1) := List.length_drop _ _
      cases hdr : auths.drop (j + 1) with
      | nil => rw [hdr] at this; simp at this; omega
      | cons x xs =>
        refine ⟨x, ?_⟩
        have := List.drop_drop 1 (j + 1) auths
        rw [hdr] at this
        simp only [List.drop_succ_cons, List.drop_zero] at this
        rw [this]
    have hmem : auth' ∈ auths := by
      have : auth' ∈ auths.drop (j + 1) := by rw [hd']; simp
      exact List.mem_of_mem_drop this
    have ha' : auth'.length = params.n := hblk auth' hmem
    obtain ⟨r1, r2⟩ := rd_flatten_head params.n auth' (auths.drop (j + 1 + 1)) ha'
    obtain ⟨f1, f2⟩ := node_frame_set _ _ j (idx >>> (j + 1)) h3
    have hsh : (idx >>> j) >>> 1 = idx >>> (j + 1) := by
      rw [← Nat.shiftRight_add]
    rw [hst]
    simp only [validate_step]
    rw [h1, h2, hd', r1, r2, hsh, f1]
    refine ⟨rfl, rfl, ?_, ?_⟩
    · rw [← f1]; exact f2
    · refine ⟨P.hash_2n_n ((List.range j).foldl (validate_step P params.n pub_seed) st0).buffer
        pub_seed (SET_NODE_TREE_INDEX (SET_NODE_TREE_HEIGHT addr j) (idx >>> (j + 1))) params.n,
        auth', P.hash_2n_n_len _ _ _ _, rfl, ?_, ?_⟩
      · by_cases hb : idx >>> (j + 1) &&& 1 = 0
        · rw [if_neg (not_not.mpr hb), if_pos hb]
        · rw [if_pos hb, if_neg hb]
      · rw [hfold, hd, authpath_fold_cons, hbuf, hd']

/-- **C13.** For `h >= 1`, a leaf of `n` bytes, an index `idx` and an authentication path
of `h` blocks of `n` bytes, the root `validate_authpath` stores is `node_h` of the
recurrence `node_0 = leaf`, `node_(i+1) = hash_2n_n(node_i ‖ auth_i)` if bit `i` of `idx` is
0 and `hash_2n_n(auth_i ‖ node_i)` otherwise, each hash under the caller's node address
with tree height `i` and tree index `idx >> (i+1)` set. -/
theorem validate_authpath_is_fold (P : Primitives) (params : xmss_params) (hh : 1 ≤ params.h)
    (leaf : Bytes) (idx : Nat) (auths : List Bytes) (pub_seed addr : Bytes)
    (haddr : addr.length = 16) (hleaf : leaf.length = params.n)
    (hlen : auths.length = params.h) (hblk : ∀ a ∈ auths, a.length = params.n) :
    validate_authpath P params leaf idx auths.flatten pub_seed addr =
      authpath_fold P params.n pub_seed addr idx 0 leaf auths := by
  obtain ⟨h1, h2, h3, node, auth, hn, hd, hbuf, hfold⟩ :=
    validate_loop_fold P params leaf idx auths pub_seed addr haddr hleaf hblk (params.h - 1)
      (by omega)
  have hnil : auths.drop (params.h - 1 + 1) = [] := by
    apply List.drop_eq_nil_of_le
    omega
  obtain ⟨f1, _⟩ := node_frame_set _ _ (params.h - 1) (idx >>> (params.h - 1 + 1)) h3
  have hsh : (idx >>> (params.h - 1)) >>> 1 = idx >>> (params.h - 1 + 1) := by
    rw [← Nat.shiftRight_add]
  simp only [validate_authpath]
  rw [h1, hsh, f1, hbuf, hfold, hd, hnil]
  rfl

/-- Instance of `validate_authpath_is_fold`: `n = 1`, `h = 1`, index 1. -/
theorem validate_authpath_is_fold_witness :
    (1 ≤ params1.h ∧ (List.replicate 16 0).length = 16 ∧ [5].length = params1.n ∧
      [[9]].length = params1.h ∧ ∀ a ∈ [[9]], a.length = params1.n) ∧
    validate_authpath mixPrims params1 [5] 1 [[9]].flatten [3] (List.replicate 16 0) =
      authpath_fold mixPrims params1.n [3] (List.replicate 16 0) 1 0 [5] [[9]] :=
  ⟨⟨by decide, by decide, by decide, by decide, by decide⟩,
    validate_authpath_is_fold mixPrims params1 (by decide) [5] 1 [[9]] [3] (List.replicate 16 0)
      (by decide) (by decide) (by decide) (by decide)⟩

/-! ## l_tree as the level-by-level reduction -/

theorem ltree_frame_refl (a : Bytes) (h : a.length = 16) : ltree_frame a a :=
  ⟨h, h, rfl, rfl⟩

theorem ltree_set_height (a b : Bytes) (k : Nat) (h : ltree_frame a b) :
    ltree_at_height (SET_LTREE_TREE_HEIGHT a k) b k := by
  obtain ⟨ha, hb, ht, h15⟩ := h
  obtain ⟨a0, a1, a2, a3, a4, a5, a6, a7, a8, a9, a10, a11, a12, a13, a14, a15, rfl⟩ := len16 a ha
  obtain ⟨b0, b1, b2, b3, b4, b5, b6, b7, b8, b9, b10, b11, b12, b13, b14, b15, rfl⟩ := len16 b hb
  simp only [byte, List.getD_cons_succ, List.getD_cons_zero] at h15
  refine ⟨⟨by simp [SET_LTREE_TREE_HEIGHT], rfl, ?_, ?_⟩, ?_⟩
  · simpa [SET_LTREE_TREE_HEIGHT] using ht
  · simpa [SET_LTREE_TREE_HEIGHT, byte] using h15
  · simp only [SET_LTREE_TREE_HEIGHT, byte, List.set_cons_succ, List.set_cons_zero,
      List.getD_cons_succ, List.getD_cons_zero, and3_or_and252, shl2_and252]

theorem ltree_set_index (a b : Bytes) (k i : Nat) (h : ltree_at_height a b k) :
    SET_LTREE_TREE_INDEX a i = SET_LTREE_TREE_INDEX (SET_LTREE_TREE_HEIGHT b k) i ∧
      ltree_at_height (SET_LTREE_TREE_INDEX a i) b k := by
  obtain ⟨⟨ha, hb, ht, h15⟩, h13⟩ := h
  obtain ⟨a0, a1, a2, a3, a4, a5, a6, a7, a8, a9, a10, a11, a12, a13, a14, a15, rfl⟩ := len16 a ha
  obtain ⟨b0, b1, b2, b3, b4, b5, b6, b7, b8, b9, b10, b11, b12, b13, b14, b15, rfl⟩ := len16 b hb
  simp only [List.take_succ_cons, List.take_zero, List.cons.injEq, and_true] at ht
  obtain ⟨rfl, rfl, rfl, rfl, rfl, rfl, rfl, rfl, rfl, rfl, rfl, rfl, rfl⟩ := ht
  simp only [byte, List.getD_cons_succ, List.getD_cons_zero] at h15 h13
  refine ⟨?_, ⟨by simp [SET_LTREE_TREE_INDEX], rfl, ?_, ?_⟩, ?_⟩
  · simp only [SET_LTREE_TREE_HEIGHT, SET_LTREE_TREE_INDEX, byte, List.set_cons_succ,
      List.set_cons_zero, List.getD_cons_succ, List.getD_cons_zero, and3_or_and252, shl2_and252,
      h13, h15]
  · simp [SET_LTREE_TREE_INDEX]
  · simp only [SET_LTREE_TREE_INDEX, byte, List.set_cons_succ, List.set_cons_zero,
      List.getD_cons_succ, List.getD_cons_zero, field_lo2_keep, h15]
  · simp only [SET_LTREE_TREE_INDEX, byte, List.set_cons_succ, List.set_cons_zero,
      List.getD_cons_succ, List.getD_cons_zero, and252_or_and3]
    exact h13

theorem l_tree_pairs_succ (P : Primitives) (n : Nat) (ps : Bytes) (c : Nat) (pk a : Bytes) :
    l_tree_pairs P n ps (c + 1) pk a =
      (wr (l_tree_pairs P n ps c pk a).1 (c * n)
          (P.hash_2n_n (rd (l_tree_pairs P n ps c pk a).1 (c * 2 * n) (2 * n)) ps
            (SET_LTREE_TREE_INDEX (l_tree_pairs P n ps c pk a).2 c) n),
        SET_LTREE_TREE_INDEX (l_tree_pairs P n ps c pk a).2 c) := by
  simp only [l_tree_pairs]
  rw [foldl_range_succ]

theorem getD_length (N : List Bytes) (n i : Nat) (hN : ∀ x ∈ N, x.length = n)
    (hi : i < N.length) : (N.getD i []).length = n := by
  apply hN
  rw [List.getD_eq_getElem _ _ hi]
  exact List.getElem_mem hi

/-- The inner loop of `l_tree` after `c` passes: blocks `0..c-1` hold the hashes of the
pairs, every other block is as before. -/
theorem l_tree_pairs_spec (P : Primitives) (n : Nat) (ps addr : Bytes) (k : Nat)
    (N : List Bytes) (pk a : Bytes) (hpk : ltree_holds n pk N) (ha : ltree_at_height a addr k)
    (c : Nat) (hc : 2 * c ≤ N.length) :
    (l_tree_pairs P n ps c pk a).1.length = pk.length ∧
      (∀ i, c ≤ i → node n (l_tree_pairs P n ps c pk a).1 i = node n pk i) ∧
      (∀ i, i < c → node n (l_tree_pairs P n ps c pk a).1 i =
        P.hash_2n_n (N.getD (2 * i) [] ++ N.getD (2 * i + 1) []) ps
          (SET_LTREE_TREE_INDEX (SET_LTREE_TREE_HEIGHT addr k) i) n) ∧
      ltree_at_height (l_tree_pairs P n ps c pk a).2 addr k := by
  obtain ⟨hL, hN, hblk⟩ := hpk
  induction c with
  | zero =>
    refine ⟨rfl, fun _ _ => rfl, fun i hi => absurd hi (Nat.not_lt_zero _), ha⟩
  | succ c ih =>
    obtain ⟨i1, i2, i3, i4⟩ := ih (by omega)
    obtain ⟨s1, s2⟩ := ltree_set_index _ _ k c i4
    rw [l_tree_pairs_succ, s1]
    have hcn : c * n ≤ (l_tree_pairs P n ps c pk a).1.length := by
      rw [i1]
      exact le_trans (Nat.mul_le_mul_right _ (by omega)) hL
    have hcn1 : c * n + n ≤ (l_tree_pairs P n ps c pk a).1.length := by
      rw [i1]
      have : (c + 1) * n ≤ N.length * n := Nat.mul_le_mul_right _ (by omega)
      have e : (c + 1) * n = c * n + n := by ring
      omega
    have hrd : rd (l_tree_pairs P n ps c pk a).1 (c * 2 * n) (2 * n) =
        N.getD (2 * c) [] ++ N.getD (2 * c + 1) [] := by
      rw [rd_two_nodes, i2 _ (by omega), i2 _ (by omega), hblk _ (by omega), hblk _ (by omega),
        Nat.mul_comm c 2]
    rw [hrd]
    refine ⟨?_, ?_, ?_, ?_⟩
    · rw [wr_length _ _ _ (by rw [P.hash_2n_n_len]; exact hcn1), i1]
    · intro i hi
      rw [node_wr_ne _ _ _ _ _ (P.hash_2n_n_len _ _ _ _) hcn (by omega), i2 _ (by omega)]
    · intro i hi
      by_cases hic : i = c
      · subst hic
        rw [node_wr_same _ _ _ _ (P.hash_2n_n_len _ _ _ _) hcn]
      · rw [node_wr_ne _ _ _ _ _ (P.hash_2n_n_len _ _ _ _) hcn hic, i3 _ (by omega)]
    · rw [← s1]; exact s2

theorem shr1_div2 (x : Nat) : x >>> 1 = x / 2 := by
  rw [Nat.shiftRight_eq_div_pow, Nat.pow_one]

theorem and1_ne_zero (x : Nat) : x &&& 1 ≠ 0 ↔ x % 2 = 1 := by
  rw [Nat.and_one_is_mod]; omega

theorem ltree_level_length (P : Primitives) (n : Nat) (ps addr : Bytes) (k : Nat)
    (N : List Bytes) :
    (ltree_level P n ps addr k N).length = N.length / 2 + N.length % 2 := by
  unfold ltree_level
  rw [List.length_append, List.length_map, List.length_range]
  split
  · rename_i h; rw [h]; rfl
  · rename_i h
    have : N.length % 2 = 0 := by omega
    rw [this]; rfl

theorem ltree_level_getD_lt (P : Primitives) (n : Nat) (ps addr : Bytes) (k : Nat)
    (N : List Bytes) (i : Nat) (hi : i < N.length / 2) :
    (ltree_level P n ps addr k N).getD i [] =
      P.hash_2n_n (N.getD (2 * i) [] ++ N.getD (2 * i + 1) []) ps
        (SET_LTREE_TREE_INDEX (SET_LTREE_TREE_HEIGHT addr k) i) n := by
  unfold ltree_level
  rw [List.getD_eq_getElem?_getD, List.getElem?_append_left (by simpa using hi)]
  simp [hi]

theorem ltree_level_getD_last (P : Primitives) (n : Nat) (ps addr : Bytes) (k : Nat)
    (N : List Bytes) (h : N.length % 2 = 1) :
    (ltree_level P n ps addr k N).getD (N.length / 2) [] = N.getD (N.length - 1) [] := by
  unfold ltree_level
  rw [List.getD_eq_getElem?_getD, List.getElem?_append_right (by simp), if_pos h]
  simp

theorem ltree_level_blocks (P : Primitives) (n : Nat) (ps addr : Bytes) (k : Nat)
    (N : List Bytes) (hN : ∀ x ∈ N, x.length = n) :
    ∀ x ∈ ltree_level P n ps addr k N, x.length = n := by
  intro x hx
  unfold ltree_level at hx
  rcases List.mem_append.mp hx with h | h
  · obtain ⟨i, _, rfl⟩ := List.mem_map.mp h
    exact P.hash_2n_n_len _ _ _ _
  · split at h
    · rename_i hodd
      simp only [List.mem_singleton] at h
      rw [h]
      exact getD_length N n _ hN (by omega)
    · simp at h

theorem l_tree_body_l (P : Primitives) (n : Nat) (ps : Bytes) (st : l_tree_state) :
    (l_tree_body P n ps st).l = st.l / 2 + st.l % 2 := by
  simp only [l_tree_body, shr1_div2]
  by_cases h : st.l % 2 = 1
  · rw [if_pos ((and1_ne_zero _).mpr h), h]
  · rw [if_neg (fun hc => h ((and1_ne_zero _).mp hc))]
    have : st.l % 2 = 0 := by omega
    rw [this]; rfl

/-- One pass of the `while` loop of `l_tree` turns the nodes `N` into the next level. -/
theorem l_tree_body_spec (P : Primitives) (n : Nat) (ps addr : Bytes) (st : l_tree_state)
    (N : List Bytes) (hl : st.l = N.length) (h2 : 1 < st.l)
    (hold : ltree_holds n st.wots_pk N) (ha : ltree_at_height st.addr addr st.height) :
    (l_tree_body P n ps st).l = (ltree_level P n ps addr st.height N).length ∧
      (l_tree_body P n ps st).height = st.height + 1 ∧
      ltree_holds n (l_tree_body P n ps st).wots_pk (ltree_level P n ps addr st.height N) ∧
      ltree_at_height (l_tree_body P n ps st).addr addr (st.height + 1) := by
  obtain ⟨p1, p2, p3, p4⟩ := l_tree_pairs_spec P n ps addr st.height N st.wots_pk st.addr hold ha
    (st.l >>> 1) (by rw [shr1_div2, hl]; omega)
  obtain ⟨hL, hN, hblk⟩ := hold
  have hlen := ltree_level_length P n ps addr st.height N
  refine ⟨by rw [l_tree_body_l, hlen, hl], rfl, ?_, ?_⟩
  · have hb : st.l >>> 1 = N.length / 2 := by rw [shr1_div2, hl]
    by_cases hodd : N.length % 2 = 1
    · have hpk : (l_tree_body P n ps st).wots_pk =
          wr (l_tree_pairs P n ps (st.l >>> 1) st.wots_pk st.addr).1 ((N.length / 2) * n)
            (node n (l_tree_pairs P n ps (st.l >>> 1) st.wots_pk st.addr).1 (N.length - 1)) := by
        simp only [l_tree_body]
        rw [if_pos ((and1_ne_zero _).mpr (by rw [hl]; exact hodd)), hb, hl]
        rfl
      have hcarry : node n (l_tree_pairs P n ps (st.l >>> 1) st.wots_pk st.addr).1
          (N.length - 1) = N.getD (N.length - 1) [] := by
        rw [p2 _ (by rw [hb]; omega), hblk _ (by omega)]
      have hclen : (N.getD (N.length - 1) []).length = n := getD_length N n _ hN (by omega)
      have hoff : N.length / 2 * n ≤
          (l_tree_pairs P n ps (st.l >>> 1) st.wots_pk st.addr).1.length := by
        rw [p1]
        exact le_trans (Nat.mul_le_mul_right _ (by omega)) hL
      rw [hpk, hcarry]
      refine ⟨?_, ltree_level_blocks P n ps addr st.height N hN, ?_⟩
      · rw [wr_length, p1, hlen]
        · exact le_trans (Nat.mul_le_mul_right _ (by omega)) hL
        · rw [hclen, p1]
          have : (N.length / 2 + 1) * n ≤ N.length * n := Nat.mul_le_mul_right _ (by omega)
          have e : (N.length / 2 + 1) * n = N.length / 2 * n + n := by ring
          omega
      · intro i hi
        rw [hlen] at hi
        by_cases hib : i = N.length / 2
        · rw [hib, node_wr_same _ _ _ _ hclen hoff, ltree_level_getD_last _ _ _ _ _ _ hodd]
        · rw [node_wr_ne _ _ _ _ _ hclen hoff hib, p3 _ (by rw [hb]; omega),
            ltree_level_getD_lt _ _ _ _ _ _ _ (by omega)]
    · have hpk : (l_tree_body P n ps st).wots_pk =
          (l_tree_pairs P n ps (st.l >>> 1) st.wots_pk st.addr).1 := by
        simp only [l_tree_body]
        rw [if_neg (fun hc => hodd (by rw [← hl]; exact (and1_ne_zero _).mp hc))]
      rw [hpk]
      refine ⟨?_, ltree_level_blocks P n ps addr st.height N hN, ?_⟩
      · rw [p1, hlen]
        exact le_trans (Nat.mul_le_mul_right _ (by omega)) hL
      · intro i hi
        rw [hlen] at hi
        rw [p3 _ (by rw [hb]; omega), ltree_level_getD_lt _ _ _ _ _ _ _ (by omega)]
  · exact ltree_set_height _ _ _ p4.1

theorem node_zero (n : Nat) (buf : Bytes) : node n buf 0 = rd buf 0 n := by
  simp [node]

/-- The `while` loop of `l_tree` with enough fuel ends by its own test with `l = 1`, the
same state for every larger fuel, and block 0 is the one node the specified reduction
leaves. -/
theorem l_tree_loop_spec (P : Primitives) (n : Nat) (ps addr : Bytes) (fuel : Nat) :
    ∀ (st : l_tree_state) (N : List Bytes), st.l = N.length → 1 ≤ st.l → st.l ≤ fuel + 1 →
      ltree_holds n st.wots_pk N → ltree_at_height st.addr addr st.height →
      (l_tree_loop P n ps fuel st).l = 1 ∧
        (∀ fuel', st.l ≤ fuel' + 1 → l_tree_loop P n ps fuel' st = l_tree_loop P n ps fuel st) ∧
        (∀ rf, N.length ≤ rf + 1 → ltree_reduce P n ps addr rf st.height N =
          [node n (l_tree_loop P n ps fuel st).wots_pk 0]) := by
  induction fuel with
  | zero =>
    intro st N hl h1 hf hold ha
    have hl1 : st.l = 1 := by omega
    have hN1 : N.length = 1 := by omega
    obtain ⟨x, rfl⟩ : ∃ x, N = [x] := by
      match N, hN1 with
      | [x], _ => exact ⟨x, rfl⟩
    refine ⟨hl1, ?_, ?_⟩
    · intro fuel' _
      cases fuel' with
      | zero => rfl
      | succ f =>
        simp only [l_tree_loop]
        rw [if_neg (by omega)]
    · intro rf _
      have h0 := hold.2.2 0 (by simp)
      simp only [l_tree_loop]
      rw [h0]
      cases rf with
      | zero => rfl
      | succ r => simp [ltree_reduce]
  | succ fuel ih =>
    intro st N hl h1 hf hold ha
    by_cases h2 : 1 < st.l
    · obtain ⟨b1, b2, b3, b4⟩ := l_tree_body_spec P n ps addr st N hl h2 hold ha
      have hlen := ltree_level_length P n ps addr st.height N
      have hl' : (l_tree_body P n ps st).l ≤ fuel + 1 := by rw [b1, hlen]; omega
      have hl1 : 1 ≤ (l_tree_body P n ps st).l := by rw [b1, hlen]; omega
      rw [← b2] at b4
      obtain ⟨r1, r2, r3⟩ := ih (l_tree_body P n ps st) _ b1 hl1 hl' b3 b4
      have hstep : l_tree_loop P n ps (fuel + 1) st =
          l_tree_loop P n ps fuel (l_tree_body P n ps st) := by
        simp only [l_tree_loop]
        rw [if_pos h2]
      rw [hstep]
      refine ⟨r1, ?_, ?_⟩
      · intro fuel' hf'
        cases fuel' with
        | zero => omega
        | succ f =>
          simp only [l_tree_loop]
          rw [if_pos h2]
          exact r2 f (by rw [b1, hlen]; omega)
      · intro rf hrf
        cases rf with
        | zero => omega
        | succ r =>
          simp only [ltree_reduce]
          rw [if_pos (by omega)]
          rw [b2] at r3
          exact r3 r (by rw [hlen]; omega)
    · have hl1 : st.l = 1 := by omega
      have hN1 : N.length = 1 := by omega
      obtain ⟨x, rfl⟩ : ∃ x, N = [x] := by
        match N, hN1 with
        | [x], _ => exact ⟨x, rfl⟩
      have hstop : l_tree_loop P n ps (fuel + 1) st = st := by
        simp only [l_tree_loop]
        rw [if_neg h2]
      rw [hstop]
      refine ⟨hl1, ?_, ?_⟩
      · intro fuel' _
        cases fuel' with
        | zero => rfl
        | succ f =>
          simp only [l_tree_loop]
          rw [if_neg h2]
      · intro rf _
        have h0 := hold.2.2 0 (by simp)
        rw [h0]
        cases rf with
        | zero => rfl
        | succ r => simp [ltree_reduce]

theorem rd_blocks_list (n : Nat) (N : List Bytes) (extra : Bytes)
    (hN : ∀ x ∈ N, x.length = n) :
    N.flatten.length = N.length * n ∧
      ∀ i, i < N.length → node n (N.flatten ++ extra) i = N.getD i [] := by
  induction N with
  | nil => exact ⟨by simp, fun i hi => absurd hi (Nat.not_lt_zero _)⟩
  | cons x xs ih =>
    have hx : x.length = n := hN x (by simp)
    obtain ⟨i1, i2⟩ := ih (fun y hy => hN y (by simp [hy]))
    constructor
    · simp only [List.flatten_cons, List.length_append, List.length_cons, i1, hx]
      ring
    · intro i hi
      cases i with
      | zero =>
        subst hx
        simp [node, rd]
      | succ i =>
        have := i2 i (by simpa using hi)
        rw [List.getD_cons_succ, ← this]
        subst hx
        simp only [node, rd, List.flatten_cons, List.append_assoc]
        rw [List.drop_append_eq_append_drop]
        have e : (i + 1) * x.length - x.length = i * x.length := by
          rw [Nat.add_mul, Nat.one_mul, Nat.add_sub_cancel]
        have e2 : List.drop ((i + 1) * x.length) x = [] := by
          apply List.drop_eq_nil_of_le
          rw [Nat.add_mul, Nat.one_mul]
          omega
        rw [e, e2, List.nil_append]

/-- **C15.** For every `len >= 1` and every buffer `wots_pk` that starts with `len` nodes
of `n` bytes, `l_tree` ends by its own loop test with `l = 1` (also with any larger
fuel), and the leaf it returns is the single node left by the level-by-level reduction of
the `len` nodes: at tree height `k`, nodes `2i` and `2i+1` become `hash_2n_n` of their
concatenation under the caller's L-tree address with tree height `k` and tree index `i`
set, and an odd last node is carried to position `floor(l/2)` unchanged. -/
theorem l_tree_is_reduction (P : Primitives) (params : xmss_params) (nodes : List Bytes)
    (extra pub_seed addr : Bytes) (hlen : nodes.length = params.wots_par.len)
    (h1 : 1 ≤ params.wots_par.len) (hblk : ∀ x ∈ nodes, x.length = params.n)
    (haddr : addr.length = 16) :
    let st0 : l_tree_state :=
      { wots_pk := nodes.flatten ++ extra, addr := SET_LTREE_TREE_HEIGHT addr 0,
        l := params.wots_par.len, height := 0 }
    (l_tree_loop P params.n pub_seed params.wots_par.len st0).l = 1 ∧
      (∀ fuel, params.wots_par.len ≤ fuel →
        l_tree_loop P params.n pub_seed fuel st0 =
          l_tree_loop P params.n pub_seed params.wots_par.len st0) ∧
      ∀ fuel, params.wots_par.len ≤ fuel →
        ltree_reduce P params.n pub_seed addr fuel 0 nodes =
          [(l_tree P params (nodes.flatten ++ extra) pub_seed addr).leaf] := by
  intro st0
  obtain ⟨q1, q2⟩ := rd_blocks_list params.n nodes extra hblk
  have hold : ltree_holds params.n st0.wots_pk nodes := by
    refine ⟨?_, hblk, q2⟩
    show nodes.length * params.n ≤ (nodes.flatten ++ extra).length
    rw [List.length_append, q1]
    omega
  have ha : ltree_at_height st0.addr addr st0.height :=
    ltree_set_height addr addr 0 (ltree_frame_refl addr haddr)
  obtain ⟨r1, r2, r3⟩ := l_tree_loop_spec P params.n pub_seed addr params.wots_par.len st0 nodes
    hlen.symm h1 (Nat.le_succ _) hold ha
  refine ⟨r1, fun fuel hf => r2 fuel (le_trans hf (Nat.le_succ _)), ?_⟩
  intro fuel hf
  have := r3 fuel (by rw [hlen]; omega)
  rw [this, node_zero]
  rfl

/-- Instance of `l_tree_is_reduction`: three nodes of one byte. -/
theorem l_tree_is_reduction_witness :
    ([[1], [2], [3]].length = 3 ∧ 1 ≤ 3 ∧ (∀ x ∈ [[1], [2], [3]], x.length = 1) ∧
      (List.replicate 16 0).length = 16) ∧
    ltree_reduce mixPrims 1 [9] (List.replicate 16 0) 3 0 [[1], [2], [3]] =
      [(l_tree mixPrims { h := 1, m := 1, n := 1, wots_par := { len := 3, keysize := 3 } }
        ([[1], [2], [3]].flatten ++ []) [9] (List.replicate 16 0)).leaf] :=
  ⟨⟨by decide, by decide, by decide, by decide⟩,
    (l_tree_is_reduction mixPrims { h := 1, m := 1, n := 1, wots_par := { len := 3, keysize := 3 } }
      [[1], [2], [3]] [] [9] (List.replicate 16 0) (by decide) (by decide) (by decide)
      (by decide)).2.2 3 (Nat.le_refl _)⟩

/-! ## The stack of treehash -/

theorem treehash_step_eq (P : Primitives) (params : xmss_params) (sk ps : Bytes)
    (st : treehash_state) (idx : Nat) :
    treehash_step P params sk ps st idx =
      treehash_merge P params.n ps idx (st.stackoffset + 1)
        (treehash_push P params sk ps st idx) := rfl

theorem treehash_after_succ (P : Primitives) (params : xmss_params) (u : Uninit)
    (height index : Nat) (sk ps addr : Bytes) (c : Nat) :
    treehash_after P params u height index sk ps addr (c + 1) =
      treehash_step P params sk ps (treehash_after P params u height index sk ps addr c)
        (index + c) := by
  simp only [treehash_after]
  rw [List.range_succ, List.map_append, List.foldl_append]
  rfl

theorem level_weight_succ (levels : List Nat) (so : Nat) :
    level_weight levels (so + 1) = level_weight levels so + 2 ^ levels.getD so 0 := by
  simp only [level_weight]
  rw [List.range_succ, List.map_append, List.sum_append]
  simp

theorem level_weight_congr (l1 l2 : List Nat) (so : Nat)
    (h : ∀ i, i < so → l1.getD i 0 = l2.getD i 0) : level_weight l1 so = level_weight l2 so := by
  induction so with
  | zero => rfl
  | succ so ih =>
    rw [level_weight_succ, level_weight_succ, ih (fun i hi => h i (by omega)), h so (by omega)]

theorem level_le_weight (levels : List Nat) (so i : Nat) (hi : i < so) :
    2 ^ levels.getD i 0 ≤ level_weight levels so := by
  induction so with
  | zero => omega
  | succ so ih =>
    rw [level_weight_succ]
    by_cases h : i = so
    · subst h; exact Nat.le_add_left _ _
    · exact Nat.le_trans (ih (by omega)) (Nat.le_add_right _ _)

/-- Strictly decreasing levels: entry `so - 1 - d` has level at least `d`. -/
theorem level_ge_depth (levels : List Nat) (so : Nat)
    (hdec : ∀ i j, i < j → j < so → levels.getD j 0 < levels.getD i 0) :
    ∀ d, d < so → d ≤ levels.getD (so - 1 - d) 0 := by
  intro d
  induction d with
  | zero => intro _; omega
  | succ d ih =>
    intro hd
    have h1 := ih (by omega)
    have h2 := hdec (so - 1 - (d + 1)) (so - 1 - d) (by omega) (by omega)
    omega

/-- Strictly decreasing levels weigh less than twice the bottom entry. -/
theorem weight_lt_bottom (levels : List Nat) (so : Nat)
    (hdec : ∀ i j, i < j → j < so → levels.getD j 0 < levels.getD i 0) :
    ∀ m, 1 ≤ m → m ≤ so →
      level_weight levels m + 2 ^ levels.getD (m - 1) 0 ≤ 2 ^ (levels.getD 0 0 + 1) := by
  intro m
  induction m with
  | zero => intro h; omega
  | succ m ih =>
    intro _ hm
    by_cases h0 : m = 0
    · subst h0
      rw [level_weight_succ]
      simp only [level_weight, List.range_zero, List.map_nil, List.sum_nil, Nat.zero_add,
        Nat.sub_self]
      rw [Nat.pow_succ]
      generalize 2 ^ levels.getD 0 0 = x
      omega
    · have h1 := ih (by omega) (by omega)
      have h2 := hdec (m - 1) m (by omega) (by omega)
      have h3 : 2 ^ (levels.getD m 0 + 1) ≤ 2 ^ levels.getD (m - 1) 0 :=
        Nat.pow_le_pow_right (by decide) h2
      rw [level_weight_succ, Nat.add_sub_cancel]
      rw [Nat.pow_succ] at h3
      generalize 2 ^ levels.getD m 0 = x at h3 ⊢
      generalize 2 ^ levels.getD (m - 1) 0 = y at h1 h3 ⊢
      omega

theorem weight_two (levels : List Nat) (so : Nat) (h : 2 ≤ so) :
    2 ^ levels.getD 0 0 + 1 ≤ level_weight levels so := by
  induction so with
  | zero => omega
  | succ so ih =>
    rw [level_weight_succ]
    by_cases h2 : so = 1
    · subst h2
      rw [level_weight_succ]
      simp only [level_weight, List.range_zero, List.map_nil, List.sum_nil, Nat.zero_add]
      have : 1 ≤ 2 ^ levels.getD 1 0 := Nat.one_le_two_pow
      omega
    · exact Nat.le_trans (ih (by omega)) (Nat.le_add_right _ _)

/-- What `stack_inv` gives for `c <= 2^h` leaves: no level above `h`, at most `h + 1`
entries, room for one more entry while `c < 2^h`, and one entry of level `h` when
`c = 2^h`. -/
theorem stack_inv_bounds (cap h : Nat) (st : treehash_state) (c : Nat)
    (hinv : stack_inv cap st c) (hc : c ≤ 2 ^ h) :
    (∀ i, i < st.stackoffset → st.stacklevels.getD i 0 ≤ h) ∧ st.stackoffset ≤ h + 1 ∧
      (c < 2 ^ h → st.stackoffset ≤ h) ∧
      (c = 2 ^ h → st.stackoffset = 1 ∧ st.stacklevels.getD 0 0 = h) := by
  obtain ⟨_, _, hdec, hw⟩ := hinv
  have hlev : ∀ i, i < st.stackoffset → st.stacklevels.getD i 0 ≤ h := by
    intro i hi
    have := level_le_weight st.stacklevels st.stackoffset i hi
    rw [hw] at this
    exact (Nat.pow_le_pow_iff_right (by decide)).mp (le_trans this hc)
  have hcount : ∀ b, c < 2 ^ b → st.stackoffset ≤ b := by
    intro b hb
    by_contra hcon
    have hpos : 0 < st.stackoffset := by omega
    have h1 := level_ge_depth st.stacklevels st.stackoffset hdec (st.stackoffset - 1) (by omega)
    have e : st.stackoffset - 1 - (st.stackoffset - 1) = 0 := by omega
    rw [e] at h1
    have h2 := level_le_weight st.stacklevels st.stackoffset 0 hpos
    rw [hw] at h2
    have h3 : st.stacklevels.getD 0 0 < b :=
      (Nat.pow_lt_pow_iff_right (by decide)).mp (lt_of_le_of_lt h2 hb)
    omega
  refine ⟨hlev, ?_, hcount h, ?_⟩
  · apply hcount (h + 1)
    have : 2 ^ h < 2 ^ (h + 1) := Nat.pow_lt_pow_right (by decide) (by omega)
    omega
  · intro hceq
    have hpos : 1 ≤ st.stackoffset := by
      by_contra hcon
      have h0 : st.stackoffset = 0 := by omega
      rw [h0] at hw
      simp only [level_weight, List.range_zero, List.map_nil, List.sum_nil] at hw
      have : 0 < 2 ^ h := Nat.two_pow_pos h
      omega
    have hb := weight_lt_bottom st.stacklevels st.stackoffset hdec st.stackoffset hpos
      (Nat.le_refl _)
    rw [hw, hceq] at hb
    have hp1 : 1 ≤ 2 ^ st.stacklevels.getD (st.stackoffset - 1) 0 := Nat.one_le_two_pow
    have hlt : 2 ^ h < 2 ^ (st.stacklevels.getD 0 0 + 1) := by omega
    have hge : h ≤ st.stacklevels.getD 0 0 := by
      have := (Nat.pow_lt_pow_iff_right (by decide)).mp hlt
      omega
    have hle := hlev 0 (by omega)
    have heq : st.stacklevels.getD 0 0 = h := by omega
    refine ⟨?_, heq⟩
    by_contra hcon
    have := weight_two st.stacklevels st.stackoffset (by omega)
    rw [hw, hceq, heq] at this
    omega

/-- One pass of the merge loop of `treehash` whose test holds: what it leaves in the
state. `treehash_merge` with fuel 1 is one pass. -/
theorem treehash_merge_one (P : Primitives) (n : Nat) (ps : Bytes) (idx : Nat)
    (st : treehash_state)
    (ht : st.stackoffset > 1 ∧
      st.stacklevels.getD (st.stackoffset - 1) 0 = st.stacklevels.getD (st.stackoffset - 2) 0) :
    (treehash_merge P n ps idx 1 st).stacklevels =
        st.stacklevels.set (st.stackoffset - 2) (st.stacklevels.getD (st.stackoffset - 2) 0 + 1) ∧
      (treehash_merge P n ps idx 1 st).stackoffset = st.stackoffset - 1 ∧
      (treehash_merge P n ps idx 1 st).node_addr =
        SET_NODE_TREE_INDEX
          (SET_NODE_TREE_HEIGHT st.node_addr (st.stacklevels.getD (st.stackoffset - 1) 0))
          (idx >>> (st.stacklevels.getD (st.stackoffset - 1) 0 + 1)) ∧
      (treehash_merge P n ps idx 1 st).stack =
        wr st.stack ((st.stackoffset - 2) * n)
          (P.hash_2n_n (rd st.stack ((st.stackoffset - 2) * n) (2 * n)) ps
            (SET_NODE_TREE_INDEX
              (SET_NODE_TREE_HEIGHT st.node_addr (st.stacklevels.getD (st.stackoffset - 1) 0))
              (idx >>> (st.stacklevels.getD (st.stackoffset - 1) 0 + 1))) n) ∧
      (treehash_merge P n ps idx 1 st).ots_addr = st.ots_addr ∧
      (treehash_merge P n ps idx 1 st).ltree_addr = st.ltree_addr := by
  simp only [treehash_merge]
  rw [if_pos ht]
  exact ⟨rfl, rfl, rfl, rfl, rfl, rfl⟩

/-- The merge loop with `fuel + 1` passes is one pass followed by `fuel` passes. -/
theorem treehash_merge_succ (P : Primitives) (n : Nat) (ps : Bytes) (idx fuel : Nat)
    (st : treehash_state) :
    treehash_merge P n ps idx (fuel + 1) st =
      if st.stackoffset > 1 ∧
          st.stacklevels.getD (st.stackoffset - 1) 0 = st.stacklevels.getD (st.stackoffset - 2) 0
      then treehash_merge P n ps idx fuel (treehash_merge P n ps idx 1 st) else st := by
  by_cases ht : st.stackoffset > 1 ∧
      st.stacklevels.getD (st.stackoffset - 1) 0 = st.stacklevels.getD (st.stackoffset - 2) 0
  · rw [if_pos ht]
    simp only [treehash_merge]
    rw [if_pos ht, if_pos ht]
  · rw [if_neg ht]
    simp only [treehash_merge]
    rw [if_neg ht]

theorem treehash_merge_offset_le (P : Primitives) (n : Nat) (ps : Bytes) (idx fuel : Nat) :
    ∀ st : treehash_state,
      (treehash_merge P n ps idx fuel st).stackoffset ≤ st.stackoffset := by
  induction fuel with
  | zero => intro st; exact Nat.le_refl _
  | succ fuel ih =>
    intro st
    rw [treehash_merge_succ]
    split
    · rename_i ht
      have h1 := (treehash_merge_one P n ps idx st ht).2.1
      have h2 := ih (treehash_merge P n ps idx 1 st)
      omega
    · exact Nat.le_refl _

/-- The merge loop keeps `merge_inv`, and with enough fuel it ends by its own test in a
state with `stack_inv`. -/
theorem treehash_merge_inv (P : Primitives) (n : Nat) (ps : Bytes) (idx cap c fuel : Nat) :
    ∀ st : treehash_state, merge_inv cap st c → st.stackoffset ≤ fuel + 1 →
      stack_inv cap (treehash_merge P n ps idx fuel st) c ∧
        ¬ ((treehash_merge P n ps idx fuel st).stackoffset > 1 ∧
          (treehash_merge P n ps idx fuel st).stacklevels.getD
              ((treehash_merge P n ps idx fuel st).stackoffset - 1) 0 =
            (treehash_merge P n ps idx fuel st).stacklevels.getD
              ((treehash_merge P n ps idx fuel st).stackoffset - 2) 0) := by
  have hexit : ∀ st : treehash_state, merge_inv cap st c →
      ¬ (st.stackoffset > 1 ∧
        st.stacklevels.getD (st.stackoffset - 1) 0 = st.stacklevels.getD (st.stackoffset - 2) 0) →
      stack_inv cap st c := by
    intro st ⟨m1, m2, m3, m4, m5, m6⟩ hne
    refine ⟨m1, m3, ?_, m6⟩
    intro i j hij hj
    by_cases hj1 : j + 1 < st.stackoffset
    · exact m4 i j hij hj1
    · have hje : j = st.stackoffset - 1 := by omega
      have h2 : 2 ≤ st.stackoffset := by omega
      have hle := m5 h2
      have hneq : st.stacklevels.getD (st.stackoffset - 1) 0 ≠
          st.stacklevels.getD (st.stackoffset - 2) 0 := fun he => hne ⟨by omega, he⟩
      rw [hje]
      by_cases hi : i = st.stackoffset - 2
      · rw [hi]; omega
      · have := m4 i (st.stackoffset - 2) (by omega) (by omega)
        omega
  induction fuel with
  | zero =>
    intro st hm hf
    have hso : st.stackoffset = 1 := by have := hm.2.1; omega
    have hne : ¬ (st.stackoffset > 1 ∧
        st.stacklevels.getD (st.stackoffset - 1) 0 =
          st.stacklevels.getD (st.stackoffset - 2) 0) := fun h => by omega
    exact ⟨hexit st hm hne, hne⟩
  | succ fuel ih =>
    intro st hm hf
    rw [treehash_merge_succ]
    by_cases ht : st.stackoffset > 1 ∧
        st.stacklevels.getD (st.stackoffset - 1) 0 = st.stacklevels.getD (st.stackoffset - 2) 0
    · rw [if_pos ht]
      obtain ⟨o1, o2, _, _, _, _⟩ := treehash_merge_one P n ps idx st ht
      obtain ⟨m1, m2, m3, m4, m5, m6⟩ := hm
      obtain ⟨ht1, ht2⟩ := ht
      apply ih
      · refine ⟨?_, ?_, ?_, ?_, ?_, ?_⟩
        · rw [o1, List.length_set]; exact m1
        · rw [o2]; omega
        · rw [o2]; omega
        · intro i j hij hj
          rw [o2] at hj
          rw [o1, getD_set_ne _ _ _ _ (by omega), getD_set_ne _ _ _ _ (by omega)]
          exact m4 i j hij (by omega)
        · intro h2
          rw [o2] at h2
          rw [o1, o2]
          have e1 : st.stackoffset - 1 - 1 = st.stackoffset - 2 := by omega
          have e2 : st.stackoffset - 1 - 2 = st.stackoffset - 3 := by omega
          rw [e1, e2, getD_set_same _ _ _ (by omega), getD_set_ne _ _ _ _ (by omega)]
          have := m4 (st.stackoffset - 3) (st.stackoffset - 2) (by omega) (by omega)
          omega
        · rw [o1, o2]
          obtain ⟨k, hk⟩ : ∃ k, st.stackoffset = k + 2 := ⟨st.stackoffset - 2, by omega⟩
          rw [hk] at m6 ht2 ⊢
          have e1 : k + 2 - 1 = k + 1 := by omega
          have e2 : k + 2 - 2 = k := by omega
          rw [e1, e2] at ht2
          rw [e1, e2, level_weight_succ, getD_set_same _ _ _ (by omega),
            level_weight_congr _ st.stacklevels k
              (fun i hi => getD_set_ne _ _ _ _ (by omega))]
          rw [level_weight_succ, level_weight_succ, ht2] at m6
          rw [Nat.pow_succ]
          omega
      · rw [o2]; omega
    · rw [if_neg ht]
      exact ⟨hexit st hm ht, ht⟩

/-- Pushing a leaf on a stack with `stack_inv` and room for it gives `merge_inv` with one
more leaf. -/
theorem treehash_push_inv (P : Primitives) (params : xmss_params) (sk ps : Bytes) (cap c : Nat)
    (st : treehash_state) (idx : Nat) (hinv : stack_inv cap st c)
    (hroom : st.stackoffset < cap) :
    merge_inv cap (treehash_push P params sk ps st idx) (c + 1) ∧
      (treehash_push P params sk ps st idx).stackoffset = st.stackoffset + 1 := by
  obtain ⟨i1, i2, i3, i4⟩ := hinv
  refine ⟨⟨?_, ?_, ?_, ?_, ?_, ?_⟩, rfl⟩
  · show (st.stacklevels.set st.stackoffset 0).length = cap
    rw [List.length_set]; exact i1
  · show 1 ≤ st.stackoffset + 1
    omega
  · show st.stackoffset + 1 ≤ cap
    omega
  · intro i j hij hj
    have hj' : j < st.stackoffset := by
      have : j + 1 < st.stackoffset + 1 := hj
      omega
    show (st.stacklevels.set st.stackoffset 0).getD j 0 <
      (st.stacklevels.set st.stackoffset 0).getD i 0
    rw [getD_set_ne _ _ _ _ (by omega), getD_set_ne _ _ _ _ (by omega)]
    exact i3 i j hij hj'
  · intro _
    show (st.stacklevels.set st.stackoffset 0).getD (st.stackoffset + 1 - 1) 0 ≤
      (st.stacklevels.set st.stackoffset 0).getD (st.stackoffset + 1 - 2) 0
    rw [Nat.add_sub_cancel, getD_set_same _ _ _ (by omega)]
    exact Nat.zero_le _
  · show level_weight (st.stacklevels.set st.stackoffset 0) (st.stackoffset + 1) = c + 1
    rw [level_weight_succ, getD_set_same _ _ _ (by omega),
      level_weight_congr _ st.stacklevels st.stackoffset
        (fun i hi => getD_set_ne _ _ _ _ (by omega)), i4]
    rfl

theorem uninit_words_length (f : Nat → Nat) (len : Nat) : (uninit_words f len).length = len := by
  simp [uninit_words]

/-- The stack invariant holds after every leaf of `treehash`. -/
theorem treehash_after_inv (P : Primitives) (params : xmss_params) (u : Uninit)
    (h index : Nat) (sk ps addr : Bytes) :
    ∀ c, c ≤ 2 ^ h →
      stack_inv (h + 1) (treehash_after P params u h index sk ps addr c) c := by
  intro c
  induction c with
  | zero =>
    intro _
    refine ⟨uninit_words_length _ _, Nat.zero_le _, ?_, rfl⟩
    intro i j _ hj
    exact absurd hj (Nat.not_lt_zero _)
  | succ c ih =>
    intro hc
    have hinv := ih (by omega)
    obtain ⟨_, _, hroom, _⟩ := stack_inv_bounds (h + 1) h _ c hinv (by omega)
    obtain ⟨hm, ho⟩ := treehash_push_inv P params sk ps (h + 1) c
      (treehash_after P params u h index sk ps addr c) (index + c) hinv
      (by have := hroom (by omega); omega)
    rw [treehash_after_succ, treehash_step_eq]
    exact (treehash_merge_inv P params.n ps (index + c) (h + 1) (c + 1) _ _ hm
      (by rw [ho]; omega)).1

theorem treehash_final_eq (P : Primitives) (params : xmss_params) (u : Uninit)
    (height index : Nat) (sk ps addr : Bytes) :
    treehash_final P params u height index sk ps addr =
      treehash_after P params u height index sk ps addr (2 ^ height) := by
  simp only [treehash_final, treehash_after, Nat.one_shiftLeft]

/-- **C14.** In `treehash` with height `h`, after each leaf has been pushed and the merge
loop has finished (`c <= 2^h` leaves done): the levels of the stack entries strictly
decrease from bottom to top, none exceeds `h`, the entries stand for exactly the `c`
leaves, and there are at most `h + 1` of them, `h + 1` being the size of `stacklevels`;
while a further leaf is pushed and merged the stack holds at most `h + 1` entries too;
and after all `2^h` leaves it holds exactly one entry, of level `h`, in block 0, which is
the node `treehash` returns. -/
theorem treehash_stack_invariant (P : Primitives) (params : xmss_params) (u : Uninit)
    (h index : Nat) (sk ps addr : Bytes) (c : Nat) (hc : c ≤ 2 ^ h) :
    let st := treehash_after P params u h index sk ps addr c
    (∀ i j, i < j → j < st.stackoffset → st.stacklevels.getD j 0 < st.stacklevels.getD i 0) ∧
      (∀ i, i < st.stackoffset → st.stacklevels.getD i 0 ≤ h) ∧
      level_weight st.stacklevels st.stackoffset = c ∧
      st.stackoffset ≤ h + 1 ∧ st.stacklevels.length = h + 1 ∧
      (c < 2 ^ h → ∀ fuel,
        (treehash_merge P params.n ps (index + c) fuel
          (treehash_push P params sk ps st (index + c))).stackoffset ≤ h + 1) ∧
      (c = 2 ^ h → st.stackoffset = 1 ∧ st.stacklevels.getD 0 0 = h ∧
        treehash P params u h index sk ps addr = node params.n st.stack 0) := by
  intro st
  have hinv := treehash_after_inv P params u h index sk ps addr c hc
  obtain ⟨b1, b2, b3, b4⟩ := stack_inv_bounds (h + 1) h st c hinv hc
  obtain ⟨i1, i2, i3, i4⟩ := hinv
  refine ⟨i3, b1, i4, b2, i1, ?_, ?_⟩
  · intro hlt fuel
    have h1 := treehash_merge_offset_le P params.n ps (index + c) fuel
      (treehash_push P params sk ps st (index + c))
    have h2 : (treehash_push P params sk ps st (index + c)).stackoffset = st.stackoffset + 1 :=
      rfl
    have h3 := b3 hlt
    omega
  · intro heq
    obtain ⟨e1, e2⟩ := b4 heq
    refine ⟨e1, e2, ?_⟩
    show rd (treehash_final P params u h index sk ps addr).stack 0 params.n = _
    rw [treehash_final_eq, node_zero, ← heq]

set_option maxRecDepth 100000 in
/-- Instance of `treehash_stack_invariant`: `h = 2`, all four leaves done. -/
theorem treehash_stack_invariant_witness :
    4 ≤ 2 ^ 2 ∧
    (treehash_after mixPrims params1 zeroStack 2 0 [5] [9] (List.replicate 16 0) 4).stackoffset
      = 1 ∧
    (treehash_after mixPrims params1 zeroStack 2 0 [5] [9]
      (List.replicate 16 0) 4).stacklevels.getD 0 0 = 2 :=
  have h := treehash_stack_invariant mixPrims params1 zeroStack 2 0 [5] [9]
    (List.replicate 16 0) 4 (by decide)
  ⟨by decide, (h.2.2.2.2.2.2 (by decide)).1, (h.2.2.2.2.2.2 (by decide)).2.1⟩

/-! ## Authentication paths -/

theorem rd_blocks_lt (n : Nat) (f : Nat → Bytes) (h : Nat)
    (hf : ∀ i, i < h → (f i).length = n) (i : Nat) (hi : i < h) :
    rd (((List.range h).map f).flatten) (i * n) n = f i := by
  have hg : ∀ j, (if j < h then f j else List.replicate n 0).length = n := by
    intro j
    split
    · rename_i hj; exact hf j hj
    · simp
  have hmap : (List.range h).map f =
      (List.range h).map (fun j => if j < h then f j else List.replicate n 0) := by
    apply List.map_congr_left
    intro j hj
    rw [if_pos (List.mem_range.mp hj)]
  have := rd_blocks n (fun j => if j < h then f j else List.replicate n 0) hg [] h i hi
  rw [List.append_nil, ← hmap] at this
  rw [this]
  exact if_pos hi

theorem sibling_lt (h leaf_idx i : Nat) (hidx : leaf_idx < 2 ^ h) (hi : i < h) :
    (leaf_idx >>> i) ^^^ 1 < 2 ^ (h - i) := by
  have h1 : leaf_idx >>> i < 2 ^ (h - i) := by
    rw [Nat.shiftRight_eq_div_pow]
    apply Nat.div_lt_of_lt_mul
    rw [← Nat.pow_add]
    have : i + (h - i) = h := by omega
    rw [this]; exact hidx
  have h2 : 2 ∣ 2 ^ (h - i) := by
    have : h - i = (h - i - 1) + 1 := by omega
    rw [this, Nat.pow_succ]
    exact Dvd.intro_left _ rfl
  obtain ⟨q, hq⟩ := h2
  rcases Nat.mod_two_eq_zero_or_one (leaf_idx >>> i) with h0 | h1'
  · have e : leaf_idx >>> i = 2 * (leaf_idx >>> i / 2) := by omega
    rw [e, xor_one_even]; omega
  · have e : leaf_idx >>> i = 2 * (leaf_idx >>> i / 2) + 1 := by omega
    rw [e, xor_one_odd]; omega

/-- Element `i` of the path `compute_authpath_wots` emits is block
`2^(h-i) + ((leaf_idx >> i) XOR 1)` of its tree buffer: the node at level `i` with that
index. -/
theorem authpath_blocks (P : Primitives) (params : xmss_params) (u : Uninit) (leaf_idx : Nat)
    (hidx : leaf_idx < 2 ^ params.h) (sk ps addr : Bytes) :
    (∀ i, i < params.h →
      rd (compute_authpath_wots P params u leaf_idx sk ps addr).authpath (i * params.n)
          params.n =
        node params.n (authpath_tree P params u sk ps addr)
          (2 ^ (params.h - i) + ((leaf_idx >>> i) ^^^ 1))) ∧
      (compute_authpath_wots P params u leaf_idx sk ps addr).authpath.length =
        params.h * params.n := by
  have hlen : ∀ i, i < params.h →
      (rd (authpath_tree P params u sk ps addr)
        (((1 <<< params.h) >>> i) * params.n + ((leaf_idx >>> i) ^^^ 1) * params.n)
        params.n).length = params.n := by
    intro i hi
    apply rd_length
    rw [authpath_tree_length P params, Nat.one_shiftLeft, shift_pow _ _ (by omega)]
    have h1 := sibling_lt params.h leaf_idx i hidx hi
    have h2 : 2 ^ (params.h - i) ≤ 2 ^ params.h := Nat.pow_le_pow_right (by decide) (by omega)
    have h3 : (2 ^ (params.h - i) + ((leaf_idx >>> i) ^^^ 1) + 1) * params.n ≤
        (2 * 2 ^ params.h) * params.n := Nat.mul_le_mul_right _ (by omega)
    have e : (2 ^ (params.h - i) + ((leaf_idx >>> i) ^^^ 1) + 1) * params.n =
        2 ^ (params.h - i) * params.n + ((leaf_idx >>> i) ^^^ 1) * params.n + params.n := by
      ring
    omega
  constructor
  · intro i hi
    simp only [compute_authpath_wots]
    rw [rd_blocks_lt params.n _ params.h hlen i hi, Nat.one_shiftLeft,
      shift_pow _ _ (by omega)]
    simp only [node, Nat.add_mul]
  · simp only [compute_authpath_wots]
    exact blocks_length_lt params.n _ params.h hlen

/-- **C12, as the code behaves.** For `h >= 1` and `leaf_idx < 2^h`, element `i` of the
authentication path `compute_authpath_wots` emits is the node of its tree at level `i`
with index `(leaf_idx >> i) XOR 1`. If `hash_2n_n` does not read bits 1..0 of address
byte 15, that node is the node of the Merkle tree, and `validate_authpath` applied to the
leaf at position `leaf_idx`, to `leaf_idx` and to that path, under the same `pub_seed` and
a node address `a` with the same prefix (bytes 0..10 and bits 7..2 of byte 11 as
`compute_authpath_wots` derives them from `addr`), returns the root that
`compute_authpath_wots` returns. -/
theorem authpath_validates (P : Primitives) (params : xmss_params)
    (hh : 1 ≤ params.h) (hlen : 1 ≤ params.wots_par.len)
    (hks : params.wots_par.len * params.n ≤ params.wots_par.keysize)
    (u : Uninit) (leaf_idx : Nat) (hidx : leaf_idx < 2 ^ params.h) (sk ps addr a : Bytes)
    (haddr : addr.length = 16) (ha : node_rel a (node_base addr)) :
    let r := compute_authpath_wots P params u leaf_idx sk ps addr
    let tree := authpath_tree P params u sk ps addr
    (∀ i, i < params.h →
      rd r.authpath (i * params.n) params.n =
        node params.n tree (2 ^ (params.h - i) + ((leaf_idx >>> i) ^^^ 1))) ∧
      r.authpath.length = params.h * params.n ∧
      r.root = node params.n tree 1 ∧
      (ignores_key_bits P →
        (∀ i, i < params.h →
          rd r.authpath (i * params.n) params.n =
            merkle_node P params sk ps addr i ((leaf_idx >>> i) ^^^ 1)) ∧
        node params.n tree (2 ^ params.h + leaf_idx) = leaf_of P params sk ps addr leaf_idx ∧
        validate_authpath P params (node params.n tree (2 ^ params.h + leaf_idx)) leaf_idx
          r.authpath ps a = r.root) := by
  intro r tree
  obtain ⟨hb, hl⟩ := authpath_blocks P params u leaf_idx hidx sk ps addr
  refine ⟨hb, hl, ?_, ?_⟩
  · show rd tree params.n params.n = node params.n tree 1
    simp [node]
  intro hH
  obtain ⟨tl, rows⟩ := authpath_tree_spec P hH params hlen hks u sk ps addr haddr
  have hpath := compute_authpath_path P hH params hlen hks u leaf_idx sk ps addr haddr hidx
  have hroot := compute_authpath_root P hH params hlen hks u leaf_idx sk ps addr haddr
  have hleaf : node params.n tree (2 ^ params.h + leaf_idx) =
      merkle_node P params sk ps addr 0 leaf_idx := by
    have := rows 0 (Nat.zero_le _) leaf_idx (by simpa using hidx)
    simpa using this
  refine ⟨?_, hleaf, ?_⟩
  · intro i hi
    rw [hb i hi]
    exact rows i (by omega) _ (sibling_lt params.h leaf_idx i hidx hi)
  · show validate_authpath P params _ leaf_idx
      (compute_authpath_wots P params u leaf_idx sk ps addr).authpath ps a =
      (compute_authpath_wots P params u leaf_idx sk ps addr).root
    rw [hleaf, hpath, hroot]
    have := validate_authpath_spec P hH params hlen hks hh sk ps addr a [] leaf_idx hidx ha
    rw [List.append_nil] at this
    exact this

set_option maxRecDepth 100000 in
/-- Instance of `authpath_validates`: `n = m = 32`, `h = 1`, leaf 1, a node address whose
bytes 12..15 are `ff`, a hash that does not read the two bits. -/
theorem authpath_validates_witness :
    ((∀ inp seed a n, maskPrims.hash_2n_n inp seed a n =
        maskPrims.hash_2n_n inp seed (clear_key_bits a) n) ∧
      1 ≤ params32.h ∧ 1 ≤ params32.wots_par.len ∧
      params32.wots_par.len * params32.n ≤ params32.wots_par.keysize ∧ 1 < 2 ^ params32.h ∧
      (List.replicate 16 0).length = 16 ∧
      (List.replicate 12 0 ++ [255, 255, 255, 255]).length = 16 ∧
      (node_base (List.replicate 16 0)).length = 16 ∧
      (List.replicate 12 0 ++ [255, 255, 255, 255]).take 11 =
        (node_base (List.replicate 16 0)).take 11 ∧
      byte (List.replicate 12 0 ++ [255, 255, 255, 255]) 11 &&& 252 =
        byte (node_base (List.replicate 16 0)) 11 &&& 252) ∧
    validate_authpath maskPrims params32
        (node params32.n (authpath_tree maskPrims params32 onesStack (List.replicate 32 5)
          (List.replicate 32 9) (List.replicate 16 0)) (2 ^ params32.h + 1)) 1
        (compute_authpath_wots maskPrims params32 onesStack 1 (List.replicate 32 5)
          (List.replicate 32 9) (List.replicate 16 0)).authpath (List.replicate 32 9)
        (List.replicate 12 0 ++ [255, 255, 255, 255]) =
      (compute_authpath_wots maskPrims params32 onesStack 1 (List.replicate 32 5)
        (List.replicate 32 9) (List.replicate 16 0)).root :=
  ⟨⟨maskPrims_ignores, by decide, by decide, by decide, by decide, by decide, by decide,
      by decide, by decide, by decide⟩,
    ((authpath_validates maskPrims params32 (by decide) (by decide) (by decide)
      onesStack 1 (by decide) (List.replicate 32 5) (List.replicate 32 9) (List.replicate 16 0)
      (List.replicate 12 0 ++ [255, 255, 255, 255]) (by decide)
      ⟨by decide, by decide, by decide, by decide⟩).2.2.2 maskPrims_ignores).2.2⟩

set_option maxRecDepth 100000 in
/-- **C12, counterexample.** `n = 1`, `h = 1`, a `hash_2n_n` that reads all 16 address
bytes, stack memory that held zeros in `compute_authpath_wots`: `validate_authpath` on
leaf 0 and the emitted path, under a node address with the same prefix and byte 15 = 3,
returns a root other than the one `compute_authpath_wots` returns. It is the same for
`n = m = 32`, `keysize = 64`, `h = 1` and 32-byte seeds. -/
theorem validate_differs_without_assumption :
    (List.replicate 15 0 ++ [3]).take 11 = (node_base (List.replicate 16 0)).take 11 ∧
      byte (List.replicate 15 0 ++ [3]) 11 &&& 252 =
        byte (node_base (List.replicate 16 0)) 11 &&& 252 ∧
      validate_authpath mixPrims params1
          (node params1.n (authpath_tree mixPrims params1 zeroStack [1] [2]
            (List.replicate 16 0)) (2 ^ params1.h + 0)) 0
          (compute_authpath_wots mixPrims params1 zeroStack 0 [1] [2]
            (List.replicate 16 0)).authpath [2] (List.replicate 15 0 ++ [3]) ≠
        (compute_authpath_wots mixPrims params1 zeroStack 0 [1] [2]
          (List.replicate 16 0)).root ∧
      (List.replicate 32 5).length = params32.n ∧ (List.replicate 32 9).length = params32.n ∧
      validate_authpath mixPrims params32
          (node params32.n (authpath_tree mixPrims params32 zeroStack (List.replicate 32 5)
            (List.replicate 32 9) (List.replicate 16 0)) (2 ^ params32.h + 0)) 0
          (compute_authpath_wots mixPrims params32 zeroStack 0 (List.replicate 32 5)
            (List.replicate 32 9) (List.replicate 16 0)).authpath (List.replicate 32 9)
          (List.replicate 15 0 ++ [3]) ≠
        (compute_authpath_wots mixPrims params32 zeroStack 0 (List.replicate 32 5)
          (List.replicate 32 9) (List.replicate 16 0)).root := by
  decide

/-! ## The helper states are those of the embedded functions -/

theorem authpath_tree_eq (P : Primitives) (params : xmss_params) (u : Uninit)
    (sk ps addr : Bytes) :
    authpath_tree P params u sk ps addr =
      (authpath_rows_after P params u sk ps addr (params.h + 1)).tree := rfl

theorem authpath_level_eq_after (P : Primitives) (n : Nat) (ps : Bytes) (i : Nat)
    (tree a : Bytes) :
    authpath_level P n ps i tree a = authpath_level_after P n ps i tree a ((i + 1) / 2) := rfl

theorem validate_authpath_eq (P : Primitives) (params : xmss_params) (leaf : Bytes)
    (leafidx : Nat) (authpath ps addr : Bytes) :
    validate_authpath P params leaf leafidx authpath ps addr =
      P.hash_2n_n (validate_after P params leaf leafidx authpath ps addr (params.h - 1)).buffer ps
        (SET_NODE_TREE_INDEX
          (SET_NODE_TREE_HEIGHT
            (validate_after P params leaf leafidx authpath ps addr (params.h - 1)).addr
            (params.h - 1))
          ((validate_after P params leaf leafidx authpath ps addr (params.h - 1)).leafidx >>> 1))
        params.n := rfl

theorem sign_open_root_eq (P : Primitives) (params : xmss_params) (u : Uninit) (sig_msg : Bytes)
    (m_len : Nat) (pk : Bytes) :
    sign_open_root P params u sig_msg m_len pk =
      validate_authpath P params
        (l_tree P params
          (P.wots_pkFromSig (rd sig_msg (4 + params.m) params.wots_par.keysize)
            (P.hash_m (rd sig_msg (4 + params.m + params.wots_par.keysize + params.h * params.n)
              m_len) (rd sig_msg 4 params.m) params.m params.m)
            params.wots_par (rd pk params.n params.n)
            (SET_OTS_ADDRESS (SET_OTS_BIT (List.replicate 16 0) 1)
              (logical_or ((byte sig_msg 0 <<< 24) ||| (byte sig_msg 1 <<< 16) |||
                (byte sig_msg 2 <<< 8)) (byte sig_msg 3))))
          (rd pk params.n params.n)
          (SET_LTREE_ADDRESS (open_ltree_addr u)
            (logical_or ((byte sig_msg 0 <<< 24) ||| (byte sig_msg 1 <<< 16) |||
              (byte sig_msg 2 <<< 8)) (byte sig_msg 3)))).leaf
        (logical_or ((byte sig_msg 0 <<< 24) ||| (byte sig_msg 1 <<< 16) |||
          (byte sig_msg 2 <<< 8)) (byte sig_msg 3))
        (sig_msg.drop (4 + params.m + params.wots_par.keysize)) (rd pk params.n params.n)
        (open_node_addr u) := rfl

/-! ## Address algebra under the all-zero prefix -/

theorem shr23_and1 (i : Nat) (hi : i < 2 ^ 23) : (i >>> 23) &&& 1 = 0 := by
  rw [Nat.shiftRight_eq_div_pow, Nat.div_eq_of_lt hi, Nat.zero_and]

theorem shl1_and254 (i : Nat) : ((i <<< 1) &&& 255) &&& 254 = (i <<< 1) &&& 255 := by
  apply Nat.eq_of_testBit_eq
  intro j
  have t254 : Nat.testBit 254 j = decide (1 ≤ j ∧ j < 8) := by
    have : (254 : Nat) = 127 <<< 1 := by decide
    have t127 : Nat.testBit 127 (j - 1) = decide (j - 1 < 7) := by
      have : (127 : Nat) = 2 ^ 7 - 1 := by norm_num
      rw [this, Nat.testBit_two_pow_sub_one]
    rw [this, Nat.testBit_shiftLeft, t127]
    by_cases h : 1 ≤ j <;> simp [h] <;> omega
  simp only [Nat.testBit_and, Nat.testBit_shiftLeft, tb255, t254]
  by_cases h : 1 ≤ j <;> by_cases h8 : j < 8 <;> simp [h, h8]

theorem and3_and252 (x : Nat) : (x &&& 3) &&& 252 = 0 := by
  rw [Nat.and_assoc]
  have e : (3 : Nat) &&& 252 = 0 := by decide
  rw [e, Nat.and_zero]

theorem and252_and3 (x : Nat) : (x &&& 252) &&& 3 = 0 := by
  rw [Nat.and_assoc]
  have e : (252 : Nat) &&& 3 = 0 := by decide
  rw [e, Nat.and_zero]

theorem and252_idem (x : Nat) : (x &&& 252) &&& 252 = x &&& 252 := by
  rw [Nat.and_assoc, Nat.and_self]

theorem and3_idem (x : Nat) : (x &&& 3) &&& 3 = x &&& 3 := by
  rw [Nat.and_assoc, Nat.and_self]

/-- The OTS address a leaf loop hands on after `SET_OTS_ADDRESS` and the `ZEROISE_OTS_ADDR`
of `get_seed`. -/
theorem ots_pre_step (a : Bytes) (i : Nat) (h : ots_pre a) :
    ots_pre (ZEROISE_OTS_ADDR (SET_OTS_ADDRESS a i)) ∧
      (i < 2 ^ 23 → ZEROISE_OTS_ADDR (SET_OTS_ADDRESS a i) = ots_address i) := by
  obtain ⟨ha, ht, h9⟩ := h
  obtain ⟨a0, a1, a2, a3, a4, a5, a6, a7, a8, a9, a10, a11, a12, a13, a14, a15, rfl⟩ := len16 a ha
  simp only [List.take_succ_cons, List.take_zero, List.replicate, List.cons.injEq, and_true] at ht
  obtain ⟨rfl, rfl, rfl, rfl, rfl, rfl, rfl, rfl, rfl⟩ := ht
  simp only [byte, List.getD_cons_succ, List.getD_cons_zero] at h9
  have e9 : ∀ x, ((a9 &&& 254) ||| (x &&& 1)) &&& 254 = 2 := by
    intro x
    rw [and254_or_and1, h9]
  constructor
  · refine ⟨by simp [ZEROISE_OTS_ADDR, SET_OTS_ADDRESS], ?_, ?_⟩
    · simp [ZEROISE_OTS_ADDR, SET_OTS_ADDRESS]
    · simp only [ZEROISE_OTS_ADDR, SET_OTS_ADDRESS, byte, List.set_cons_succ, List.set_cons_zero,
        List.getD_cons_succ, List.getD_cons_zero]
      exact e9 _
  · intro hi
    simp only [ZEROISE_OTS_ADDR, SET_OTS_ADDRESS, ots_address, byte, List.set_cons_succ,
      List.set_cons_zero, List.getD_cons_succ, List.getD_cons_zero, shr23_and1 i hi, Nat.or_zero,
      h9, and1_or_and254, shl1_and254]

theorem ots_pre_bit : ots_pre (SET_OTS_BIT (List.replicate 16 0) 1) := by
  refine ⟨by decide, by decide, by decide⟩

/-- The zero prefix of the address handed to `treehash` or `compute_authpath_wots`. -/
theorem ots_pre_init (addr : Bytes) (f : Nat → Nat) (h : addr.length = 16)
    (hpre : addr.take 9 = List.replicate 9 0) (h9 : byte addr 9 &&& 252 = 0) :
    ots_pre (SET_OTS_BIT (wr (uninit f 16) 0 (rd addr 0 10)) 1) := by
  obtain ⟨c0, c1, c2, c3, c4, c5, c6, c7, c8, c9, c10, c11, c12, c13, c14, c15, rfl⟩ :=
    len16 addr h
  simp only [List.take_succ_cons, List.take_zero, List.replicate, List.cons.injEq, and_true]
    at hpre
  obtain ⟨rfl, rfl, rfl, rfl, rfl, rfl, rfl, rfl, rfl⟩ := hpre
  simp only [byte, List.getD_cons_succ, List.getD_cons_zero] at h9
  have e : ((c9 &&& 253) ||| (1 <<< 1)) &&& 254 = 2 := by
    have e1 : (1 : Nat) <<< 1 = 2 := by decide
    rw [e1, or2_and254, and253_and254, h9]
    decide
  refine ⟨by simp [uninit16, SET_OTS_BIT, wr, rd], ?_, ?_⟩
  · simp [uninit16, SET_OTS_BIT, wr, rd]
  · simp only [uninit16, SET_OTS_BIT, wr, rd, byte]
    simpa using e

theorem ltree_pre0_init (addr : Bytes) (f : Nat → Nat) (h : addr.length = 16)
    (hpre : addr.take 9 = List.replicate 9 0) (h9 : byte addr 9 &&& 252 = 0) :
    ltree_pre0 (SET_LTREE_BIT (SET_OTS_BIT (wr (uninit f 16) 0 (rd addr 0 10)) 0) 1)
      ((f 15 % 256) &&& 3) := by
  obtain ⟨c0, c1, c2, c3, c4, c5, c6, c7, c8, c9, c10, c11, c12, c13, c14, c15, rfl⟩ :=
    len16 addr h
  simp only [List.take_succ_cons, List.take_zero, List.replicate, List.cons.injEq, and_true]
    at hpre
  obtain ⟨rfl, rfl, rfl, rfl, rfl, rfl, rfl, rfl, rfl⟩ := hpre
  simp only [byte, List.getD_cons_succ, List.getD_cons_zero] at h9
  have e : (((c9 &&& 253) ||| (0 <<< 1)) &&& 254) ||| 1 = 1 := by
    have e1 : (0 : Nat) <<< 1 = 0 := by decide
    rw [e1, Nat.or_zero, and253_and254, h9]
    rfl
  refine ⟨by simp [uninit16, SET_OTS_BIT, SET_LTREE_BIT, wr, rd], ?_, ?_⟩
  · simp only [uninit16, SET_OTS_BIT, SET_LTREE_BIT, wr, rd, byte]
    simpa using e
  · simp [uninit16, SET_OTS_BIT, SET_LTREE_BIT, wr, rd, byte]

theorem node_pre_init (L : Bytes) (g : Nat → Nat) (kb : Nat) (hL : ltree_pre0 L kb) :
    node_pre (SET_NODE_PADDING (SET_LTREE_BIT (wr (uninit g 16) 0 (rd L 0 10)) 0))
      ((g 15 % 256) &&& 3) := by
  obtain ⟨hl, ht, _⟩ := hL
  obtain ⟨c0, c1, c2, c3, c4, c5, c6, c7, c8, c9, c10, c11, c12, c13, c14, c15, rfl⟩ :=
    len16 L hl
  simp only [List.take_succ_cons, List.take_zero, List.cons.injEq, and_true] at ht
  obtain ⟨rfl, rfl, rfl, rfl, rfl, rfl, rfl, rfl, rfl, rfl⟩ := ht
  refine ⟨by simp [uninit16, SET_NODE_PADDING, SET_LTREE_BIT, wr, rd], ?_, ?_, ?_⟩
  · simp [uninit16, SET_NODE_PADDING, SET_LTREE_BIT, wr, rd, byte]
  · simp [uninit16, SET_NODE_PADDING, SET_LTREE_BIT, wr, rd, byte, and3_and252]
  · simp [uninit16, SET_NODE_PADDING, SET_LTREE_BIT, wr, rd, byte]

/-- The address given to `l_tree` for leaf `i`. -/
theorem ltree_leaf_addr (a : Bytes) (kb i : Nat) (h : ltree_pre0 a kb) :
    (SET_LTREE_ADDRESS a i).length = 16 ∧
      (SET_LTREE_ADDRESS a i).take 13 = (ltree_address i 0 0).take 13 ∧
      byte (SET_LTREE_ADDRESS a i) 15 &&& 3 = kb := by
  obtain ⟨ha, ht, hk⟩ := h
  obtain ⟨a0, a1, a2, a3, a4, a5, a6, a7, a8, a9, a10, a11, a12, a13, a14, a15, rfl⟩ := len16 a ha
  simp only [List.take_succ_cons, List.take_zero, List.cons.injEq, and_true] at ht
  obtain ⟨rfl, rfl, rfl, rfl, rfl, rfl, rfl, rfl, rfl, rfl⟩ := ht
  simp only [byte, List.getD_cons_succ, List.getD_cons_zero] at hk
  refine ⟨by simp [SET_LTREE_ADDRESS], by simp [SET_LTREE_ADDRESS, ltree_address], ?_⟩
  simpa [SET_LTREE_ADDRESS, byte] using hk

/-- An address that agrees with the one given to `l_tree` outside the height and index
fields is again an L-tree address of the leaf loop. -/
theorem ltree_pre0_of_frame (a la : Bytes) (kb i : Nat) (h : ltree_frame a la)
    (ht : la.take 13 = (ltree_address i 0 0).take 13) (hk : byte la 15 &&& 3 = kb) :
    ltree_pre0 a kb := by
  obtain ⟨ha, hb, hab, h15⟩ := h
  refine ⟨ha, ?_, by rw [h15, hk]⟩
  have : a.take 10 = (a.take 13).take 10 := by rw [List.take_take]; rfl
  rw [this, hab, ht]
  rfl

/-- The L-tree address handed to `hash_2n_n` at tree height `k`, tree index `j`. -/
theorem ltree_canon (la : Bytes) (i k j : Nat) (hl : la.length = 16)
    (ht : la.take 13 = (ltree_address i 0 0).take 13) :
    clear_key_bits (SET_LTREE_TREE_INDEX (SET_LTREE_TREE_HEIGHT la k) j) = ltree_address i k j ∧
      byte (SET_LTREE_TREE_INDEX (SET_LTREE_TREE_HEIGHT la k) j) 15 &&& 3 = byte la 15 &&& 3 := by
  obtain ⟨a0, a1, a2, a3, a4, a5, a6, a7, a8, a9, a10, a11, a12, a13, a14, a15, rfl⟩ := len16 la hl
  simp only [ltree_address, List.take_succ_cons, List.take_zero, List.cons.injEq, and_true] at ht
  obtain ⟨rfl, rfl, rfl, rfl, rfl, rfl, rfl, rfl, rfl, rfl, rfl, rfl, rfl⟩ := ht
  constructor
  · simp only [clear_key_bits, SET_LTREE_TREE_HEIGHT, SET_LTREE_TREE_INDEX, ltree_address, byte,
      List.set_cons_succ, List.set_cons_zero, List.getD_cons_succ, List.getD_cons_zero,
      and3_or_and252, shl2_and252]
  · simp only [SET_LTREE_TREE_HEIGHT, SET_LTREE_TREE_INDEX, byte, List.set_cons_succ,
      List.set_cons_zero, List.getD_cons_succ, List.getD_cons_zero, field_lo2_keep]

/-- The node address handed to `hash_2n_n` with tree height `k`, tree index `j`. -/
theorem node_canon (a : Bytes) (kb k j : Nat) (h : node_pre a kb) :
    clear_key_bits (SET_NODE_TREE_INDEX (SET_NODE_TREE_HEIGHT a k) j) = node_address k j ∧
      byte (SET_NODE_TREE_INDEX (SET_NODE_TREE_HEIGHT a k) j) 15 &&& 3 = kb := by
  obtain ⟨ha, ht, h11, h15⟩ := h
  obtain ⟨a0, a1, a2, a3, a4, a5, a6, a7, a8, a9, a10, a11, a12, a13, a14, a15, rfl⟩ := len16 a ha
  simp only [List.take_succ_cons, List.take_zero, List.replicate, List.cons.injEq, and_true] at ht
  obtain ⟨rfl, rfl, rfl, rfl, rfl, rfl, rfl, rfl, rfl, rfl, rfl⟩ := ht
  simp only [byte, List.getD_cons_succ, List.getD_cons_zero] at h11 h15
  constructor
  · simp only [clear_key_bits, SET_NODE_TREE_HEIGHT, SET_NODE_TREE_INDEX, node_address, byte,
      List.set_cons_succ, List.set_cons_zero, List.getD_cons_succ, List.getD_cons_zero,
      and3_or_and252, shl2_and252, h11, Nat.zero_or]
  · simp only [SET_NODE_TREE_HEIGHT, SET_NODE_TREE_INDEX, byte, List.set_cons_succ,
      List.set_cons_zero, List.getD_cons_succ, List.getD_cons_zero, field_lo2_keep]
    exact h15

theorem node_pre_of_frame (a b : Bytes) (kb : Nat) (h : node_frame a b) (hb : node_pre b kb) :
    node_pre a kb := by
  obtain ⟨ha, _, hab, h11, h15⟩ := h
  obtain ⟨_, bt, b11, b15⟩ := hb
  exact ⟨ha, by rw [hab, bt], by rw [h11, b11], by rw [h15, b15]⟩

theorem node_frame_height (a b : Bytes) (k : Nat) (h : node_frame a b) :
    node_at_height (SET_NODE_TREE_HEIGHT a k) b k := by
  obtain ⟨ha, hb, ht, h11, h15⟩ := h
  obtain ⟨a0, a1, a2, a3, a4, a5, a6, a7, a8, a9, a10, a11, a12, a13, a14, a15, rfl⟩ := len16 a ha
  obtain ⟨b0, b1, b2, b3, b4, b5, b6, b7, b8, b9, b10, b11, b12, b13, b14, b15, rfl⟩ := len16 b hb
  simp only [byte, List.getD_cons_succ, List.getD_cons_zero] at h11 h15
  refine ⟨⟨by simp [SET_NODE_TREE_HEIGHT], rfl, ?_, ?_, ?_⟩, ?_, ?_⟩
  · simpa [SET_NODE_TREE_HEIGHT] using ht
  · simp only [SET_NODE_TREE_HEIGHT, byte, List.set_cons_succ, List.set_cons_zero,
      List.getD_cons_succ, List.getD_cons_zero, and252_or_and3]
    exact h11
  · simpa [SET_NODE_TREE_HEIGHT, byte] using h15
  · simp only [SET_NODE_TREE_HEIGHT, byte, List.set_cons_succ, List.set_cons_zero,
      List.getD_cons_succ, List.getD_cons_zero, h11]
  · simp only [SET_NODE_TREE_HEIGHT, byte, List.set_cons_succ, List.set_cons_zero,
      List.getD_cons_succ, List.getD_cons_zero, and3_or_and252, shl2_and252]

theorem node_height_frame (a b : Bytes) (k : Nat) (h : node_at_height a b k) : node_frame a b :=
  h.1

theorem node_height_index (a b : Bytes) (k j : Nat) (h : node_at_height a b k) :
    SET_NODE_TREE_INDEX a j = SET_NODE_TREE_INDEX (SET_NODE_TREE_HEIGHT b k) j ∧
      node_at_height (SET_NODE_TREE_INDEX a j) b k := by
  obtain ⟨⟨ha, hb, ht, h11, h15⟩, g11, g12⟩ := h
  obtain ⟨a0, a1, a2, a3, a4, a5, a6, a7, a8, a9, a10, a11, a12, a13, a14, a15, rfl⟩ := len16 a ha
  obtain ⟨b0, b1, b2, b3, b4, b5, b6, b7, b8, b9, b10, b11, b12, b13, b14, b15, rfl⟩ := len16 b hb
  simp only [List.take_succ_cons, List.take_zero, List.cons.injEq, and_true] at ht
  obtain ⟨rfl, rfl, rfl, rfl, rfl, rfl, rfl, rfl, rfl, rfl, rfl⟩ := ht
  simp only [byte, List.getD_cons_succ, List.getD_cons_zero] at h11 h15 g11 g12
  refine ⟨?_, ⟨by simp [SET_NODE_TREE_INDEX], rfl, ?_, ?_, ?_⟩, ?_, ?_⟩
  · simp only [SET_NODE_TREE_HEIGHT, SET_NODE_TREE_INDEX, byte, List.set_cons_succ,
      List.set_cons_zero, List.getD_cons_succ, List.getD_cons_zero, and3_or_and252, shl2_and252,
      g11, g12, h15]
  · simp [SET_NODE_TREE_INDEX]
  · simp only [SET_NODE_TREE_INDEX, byte, List.set_cons_succ, List.set_cons_zero,
      List.getD_cons_succ, List.getD_cons_zero]
    exact h11
  · simp only [SET_NODE_TREE_INDEX, byte, List.set_cons_succ, List.set_cons_zero,
      List.getD_cons_succ, List.getD_cons_zero, field_lo2_keep]
    exact h15
  · simp only [SET_NODE_TREE_INDEX, byte, List.set_cons_succ, List.set_cons_zero,
      List.getD_cons_succ, List.getD_cons_zero]
    exact g11
  · simp only [SET_NODE_TREE_INDEX, byte, List.set_cons_succ, List.set_cons_zero,
      List.getD_cons_succ, List.getD_cons_zero, and252_or_and3]
    exact g12

/-! ## The addresses the loops hold -/

/-- The L-tree address after `c` passes of the inner loop of `l_tree`, and the address
handed to `hash_2n_n` in each pass. -/
theorem l_tree_pairs_addr (P : Primitives) (n : Nat) (ps la : Bytes) (k : Nat) (pk a : Bytes)
    (ha : ltree_at_height a la k) (c : Nat) :
    ltree_at_height (l_tree_pairs P n ps c pk a).2 la k ∧
      (l_tree_pairs P n ps (c + 1) pk a).2 =
        SET_LTREE_TREE_INDEX (SET_LTREE_TREE_HEIGHT la k) c := by
  induction c with
  | zero =>
    refine ⟨ha, ?_⟩
    rw [l_tree_pairs_succ]
    exact (ltree_set_index _ _ k 0 ha).1
  | succ c ih =>
    obtain ⟨i1, i2⟩ := ih
    have hs : (l_tree_pairs P n ps (c + 1) pk a).2 =
        SET_LTREE_TREE_INDEX (l_tree_pairs P n ps c pk a).2 c := by
      rw [l_tree_pairs_succ]
    have h1 : ltree_at_height (l_tree_pairs P n ps (c + 1) pk a).2 la k := by
      rw [hs]
      exact (ltree_set_index _ _ k c i1).2
    refine ⟨h1, ?_⟩
    rw [l_tree_pairs_succ]
    exact (ltree_set_index _ _ k (c + 1) h1).1

theorem l_tree_body_addr (P : Primitives) (n : Nat) (ps la : Bytes) (st : l_tree_state)
    (ha : ltree_at_height st.addr la st.height) :
    ltree_at_height (l_tree_body P n ps st).addr la (l_tree_body P n ps st).height ∧
      (l_tree_body P n ps st).height = st.height + 1 := by
  refine ⟨?_, rfl⟩
  exact ltree_set_height _ _ _
    (l_tree_pairs_addr P n ps la st.height st.wots_pk st.addr ha (st.l >>> 1)).1.1

/-- The L-tree address at the head of the `while` loop of `l_tree` after `k` passes. -/
theorem l_tree_loop_addr (P : Primitives) (n : Nat) (ps la : Bytes) (k : Nat) :
    ∀ st : l_tree_state, ltree_at_height st.addr la st.height →
      ltree_at_height (l_tree_loop P n ps k st).addr la (l_tree_loop P n ps k st).height ∧
        (1 < (l_tree_loop P n ps k st).l → (l_tree_loop P n ps k st).height = st.height + k) := by
  induction k with
  | zero => intro st ha; exact ⟨ha, fun _ => rfl⟩
  | succ k ih =>
    intro st ha
    simp only [l_tree_loop]
    split
    · obtain ⟨b1, b2⟩ := l_tree_body_addr P n ps la st ha
      obtain ⟨r1, r2⟩ := ih _ b1
      refine ⟨r1, fun h => ?_⟩
      rw [r2 h, b2]
      omega
    · rename_i hl
      exact ⟨ha, fun h => absurd h hl⟩

/-- The address `l_tree` leaves in the caller's array agrees with the one it was given
outside the height and index fields. -/
theorem l_tree_addr_frame (P : Primitives) (params : xmss_params) (pk ps la : Bytes)
    (hl : la.length = 16) : ltree_frame (l_tree P params pk ps la).addr la := by
  have h0 : ltree_at_height (SET_LTREE_TREE_HEIGHT la 0) la 0 :=
    ltree_set_height la la 0 (ltree_frame_refl la hl)
  exact (l_tree_loop_addr P params.n ps la params.wots_par.len
    { wots_pk := pk, addr := SET_LTREE_TREE_HEIGHT la 0, l := params.wots_par.len, height := 0 }
    h0).1.1

/-- Every `hash_2n_n` call of `l_tree`: in pass `j` of the inner loop at tree height `k`
the address handed over is the caller's address with tree height `k` and tree index `j`
set. -/
theorem l_tree_call_addr (P : Primitives) (params : xmss_params) (pk ps la : Bytes)
    (hl : la.length = 16) (k j : Nat) :
    let s := l_tree_loop P params.n ps k
      { wots_pk := pk, addr := SET_LTREE_TREE_HEIGHT la 0, l := params.wots_par.len,
        height := 0 }
    1 < s.l →
      (l_tree_pairs P params.n ps (j + 1) s.wots_pk s.addr).2 =
        SET_LTREE_TREE_INDEX (SET_LTREE_TREE_HEIGHT la k) j := by
  intro s hs
  have h0 : ltree_at_height (SET_LTREE_TREE_HEIGHT la 0) la 0 :=
    ltree_set_height la la 0 (ltree_frame_refl la hl)
  obtain ⟨r1, r2⟩ := l_tree_loop_addr P params.n ps la k
    { wots_pk := pk, addr := SET_LTREE_TREE_HEIGHT la 0, l := params.wots_par.len, height := 0 }
    h0
  have hk : s.height = k := by
    have := r2 hs
    simpa using this
  have r1' : ltree_at_height s.addr la k := by
    rw [← hk]; exact r1
  exact (l_tree_pairs_addr P params.n ps la k s.wots_pk s.addr r1' j).2

/-- What `gen_leaf_wots` hands on: the OTS address after the `ZEROISE_OTS_ADDR` of
`get_seed`, and the L-tree address `l_tree` leaves. -/
theorem gen_leaf_addrs (P : Primitives) (params : xmss_params) (sk ps la oa : Bytes) :
    (gen_leaf_wots P params sk ps la oa).ots_addr = (get_seed P sk oa).addr ∧
      (get_seed P sk oa).addr = ZEROISE_OTS_ADDR oa ∧
      (gen_leaf_wots P params sk ps la oa).ltree_addr =
        (l_tree P params
          (P.wots_pkgen (get_seed P sk oa).seed params.wots_par ps (get_seed P sk oa).addr) ps
          la).addr :=
  ⟨rfl, rfl, rfl⟩

/-- One leaf of a leaf loop keeps the OTS and L-tree addresses in the form the loop
holds them. -/
theorem gen_leaf_keeps (P : Primitives) (params : xmss_params) (sk ps la oa : Bytes)
    (kb i : Nat) (ho : ots_pre oa) (hl : ltree_pre0 la kb) :
    ots_pre (gen_leaf_wots P params sk ps (SET_LTREE_ADDRESS la i)
        (SET_OTS_ADDRESS oa i)).ots_addr ∧
      ltree_pre0 (gen_leaf_wots P params sk ps (SET_LTREE_ADDRESS la i)
        (SET_OTS_ADDRESS oa i)).ltree_addr kb := by
  obtain ⟨l1, l2, l3⟩ := ltree_leaf_addr la kb i hl
  refine ⟨(ots_pre_step oa i ho).1, ?_⟩
  exact ltree_pre0_of_frame _ _ kb i (l_tree_addr_frame P params _ ps _ l1) l2 l3

/-- The merge loop of `treehash` keeps the node address in agreement with `a0` outside
the two fields, and does not touch the other two addresses. -/
theorem treehash_merge_addrs (P : Primitives) (n : Nat) (ps : Bytes) (idx : Nat) (a0 : Bytes)
    (fuel : Nat) :
    ∀ st : treehash_state, node_frame st.node_addr a0 →
      node_frame (treehash_merge P n ps idx fuel st).node_addr a0 ∧
        (treehash_merge P n ps idx fuel st).ots_addr = st.ots_addr ∧
        (treehash_merge P n ps idx fuel st).ltree_addr = st.ltree_addr := by
  induction fuel with
  | zero => intro st h; exact ⟨h, rfl, rfl⟩
  | succ fuel ih =>
    intro st h
    rw [treehash_merge_succ]
    split
    · rename_i ht
      obtain ⟨_, _, o3, _, o5, o6⟩ := treehash_merge_one P n ps idx st ht
      have hf : node_frame (treehash_merge P n ps idx 1 st).node_addr a0 := by
        rw [o3]
        exact (node_frame_set _ _ _ _ h).2
      obtain ⟨r1, r2, r3⟩ := ih _ hf
      exact ⟨r1, by rw [r2, o5], by rw [r3, o6]⟩
    · exact ⟨h, rfl, rfl⟩

/-- The three addresses `treehash` holds after `c` leaves. -/
theorem treehash_after_addrs (P : Primitives) (params : xmss_params) (u : Uninit)
    (h index : Nat) (sk ps addr : Bytes) (haddr : addr.length = 16)
    (hpre : addr.take 9 = List.replicate 9 0) (h9 : byte addr 9 &&& 252 = 0) (c : Nat) :
    ots_pre (treehash_after P params u h index sk ps addr c).ots_addr ∧
      ltree_pre0 (treehash_after P params u h index sk ps addr c).ltree_addr
        ((u.ltree_addr 15 % 256) &&& 3) ∧
      node_frame (treehash_after P params u h index sk ps addr c).node_addr
        (treehash_init params u h addr).node_addr ∧
      node_pre (treehash_init params u h addr).node_addr ((u.node_addr 15 % 256) &&& 3) := by
  have hn : node_pre (treehash_init params u h addr).node_addr ((u.node_addr 15 % 256) &&& 3) :=
    node_pre_init _ _ _ (ltree_pre0_init addr u.ltree_addr haddr hpre h9)
  induction c with
  | zero =>
    exact ⟨ots_pre_init addr u.ots_addr haddr hpre h9,
      ltree_pre0_init addr u.ltree_addr haddr hpre h9, node_frame_refl _ hn.1, hn⟩
  | succ c ih =>
    obtain ⟨i1, i2, i3, _⟩ := ih
    obtain ⟨g1, g2⟩ := gen_leaf_keeps P params sk ps _ _ _ (index + c) i1 i2
    rw [treehash_after_succ, treehash_step_eq]
    obtain ⟨m1, m2, m3⟩ := treehash_merge_addrs P params.n ps (index + c)
      (treehash_init params u h addr).node_addr
      ((treehash_after P params u h index sk ps addr c).stackoffset + 1)
      (treehash_push P params sk ps (treehash_after P params u h index sk ps addr c) (index + c))
      i3
    refine ⟨?_, ?_, m1, hn⟩
    · rw [m2]; exact g1
    · rw [m3]; exact g2

/-- The two addresses the leaf loop of `compute_authpath_wots` holds after `c` leaves. -/
theorem authpath_leaves_addrs (P : Primitives) (params : xmss_params) (u : Uninit)
    (sk ps addr : Bytes) (haddr : addr.length = 16)
    (hpre : addr.take 9 = List.replicate 9 0) (h9 : byte addr 9 &&& 252 = 0) (c : Nat) :
    ots_pre (authpath_leaves_after P params u sk ps addr c).ots_addr ∧
      ltree_pre0 (authpath_leaves_after P params u sk ps addr c).ltree_addr
        ((u.ltree_addr 15 % 256) &&& 3) := by
  induction c with
  | zero =>
    exact ⟨ots_pre_init addr u.ots_addr haddr hpre h9,
      ltree_pre0_init addr u.ltree_addr haddr hpre h9⟩
  | succ c ih =>
    obtain ⟨i1, i2⟩ := ih
    have hs : authpath_leaves_after P params u sk ps addr (c + 1) =
        authpath_leaf_step P params sk ps (authpath_leaves_after P params u sk ps addr c) c := by
      simp only [authpath_leaves_after]
      rw [foldl_range_succ]
    rw [hs]
    exact gen_leaf_keeps P params sk ps _ _ _ c i1 i2

theorem authpath_level_after_succ (P : Primitives) (n : Nat) (ps : Bytes) (i : Nat)
    (tree a : Bytes) (c : Nat) :
    (authpath_level_after P n ps i tree a (c + 1)).2 =
      SET_NODE_TREE_INDEX (authpath_level_after P n ps i tree a c).2 ((2 * c) >>> 1) := by
  simp only [authpath_level_after]
  rw [List.range_succ, List.map_append, List.foldl_append]
  rfl

/-- The node address after `c` passes of the inner loop of `compute_authpath_wots`, and
the address handed to `hash_2n_n` in each pass. -/
theorem authpath_level_addr (P : Primitives) (n : Nat) (ps a0 : Bytes) (k i : Nat)
    (tree a : Bytes) (ha : node_at_height a a0 k) (c : Nat) :
    node_at_height (authpath_level_after P n ps i tree a c).2 a0 k ∧
      (authpath_level_after P n ps i tree a (c + 1)).2 =
        SET_NODE_TREE_INDEX (SET_NODE_TREE_HEIGHT a0 k) c := by
  have hc2 : ∀ c : Nat, (2 * c) >>> 1 = c := two_mul_shift
  induction c with
  | zero =>
    refine ⟨ha, ?_⟩
    rw [authpath_level_after_succ, hc2]
    exact (node_height_index _ _ k 0 ha).1
  | succ c ih =>
    obtain ⟨i1, i2⟩ := ih
    have h1 : node_at_height (authpath_level_after P n ps i tree a (c + 1)).2 a0 k := by
      rw [authpath_level_after_succ, hc2]
      exact (node_height_index _ _ k c i1).2
    refine ⟨h1, ?_⟩
    rw [authpath_level_after_succ, hc2]
    exact (node_height_index _ _ k (c + 1) h1).1

/-- The node address at the head of the tree loop of `compute_authpath_wots`. -/
theorem authpath_tree_loop_addr (P : Primitives) (n : Nat) (ps a0 : Bytes) (k : Nat) :
    ∀ st : authpath_tree_state, node_frame st.node_addr a0 →
      node_frame (authpath_tree_loop P n ps k st).node_addr a0 ∧
        (0 < (authpath_tree_loop P n ps k st).i →
          (authpath_tree_loop P n ps k st).level = st.level + k) := by
  induction k with
  | zero => intro st h; exact ⟨h, fun _ => rfl⟩
  | succ k ih =>
    intro st h
    simp only [authpath_tree_loop]
    split
    · have hl := (authpath_level_addr P n ps a0 st.level st.i st.tree
        (SET_NODE_TREE_HEIGHT st.node_addr st.level) (node_frame_height _ _ _ h)
        ((st.i + 1) / 2)).1.1
      rw [← authpath_level_eq_after] at hl
      obtain ⟨r1, r2⟩ := ih
        { tree := (authpath_level P n ps st.i st.tree
            (SET_NODE_TREE_HEIGHT st.node_addr st.level)).1,
          node_addr := (authpath_level P n ps st.i st.tree
            (SET_NODE_TREE_HEIGHT st.node_addr st.level)).2,
          i := st.i >>> 1, level := st.level + 1 } hl
      refine ⟨r1, fun hi => ?_⟩
      rw [r2 hi]
      show st.level + 1 + k = st.level + (k + 1)
      omega
    · rename_i hi
      exact ⟨h, fun h0 => absurd h0 hi⟩

theorem validate_after_succ (P : Primitives) (params : xmss_params) (leaf : Bytes)
    (leafidx : Nat) (authpath ps addr : Bytes) (j : Nat) :
    validate_after P params leaf leafidx authpath ps addr (j + 1) =
      validate_step P params.n ps (validate_after P params leaf leafidx authpath ps addr j) j := by
  simp only [validate_after]
  rw [foldl_range_succ]

/-- The node address and the index `validate_authpath` holds after `j` passes, and the
address handed to `hash_2n_n` in each pass. -/
theorem validate_after_addr (P : Primitives) (params : xmss_params) (leaf : Bytes)
    (leafidx : Nat) (authpath ps addr : Bytes) (haddr : addr.length = 16) (j : Nat) :
    node_frame (validate_after P params leaf leafidx authpath ps addr j).addr addr ∧
      (validate_after P params leaf leafidx authpath ps addr j).leafidx = leafidx >>> j ∧
      (validate_after P params leaf leafidx authpath ps addr (j + 1)).addr =
        SET_NODE_TREE_INDEX (SET_NODE_TREE_HEIGHT addr j) (leafidx >>> (j + 1)) := by
  induction j with
  | zero =>
    refine ⟨node_frame_refl addr haddr, rfl, ?_⟩
    rw [validate_after_succ]
    rfl
  | succ j ih =>
    obtain ⟨i1, i2, i3⟩ := ih
    have hs : (leafidx >>> j) >>> 1 = leafidx >>> (j + 1) := by rw [← Nat.shiftRight_add]
    have hs2 : (leafidx >>> (j + 1)) >>> 1 = leafidx >>> (j + 1 + 1) := by
      rw [← Nat.shiftRight_add]
    have hf : node_frame (validate_after P params leaf leafidx authpath ps addr (j + 1)).addr
        addr := by
      rw [i3]
      exact (node_frame_set addr addr _ _ (node_frame_refl addr haddr)).2
    have hl : (validate_after P params leaf leafidx authpath ps addr (j + 1)).leafidx =
        leafidx >>> (j + 1) := by
      rw [validate_after_succ]
      show (validate_after P params leaf leafidx authpath ps addr j).leafidx >>> 1 = _
      rw [i2, hs]
    refine ⟨hf, hl, ?_⟩
    rw [validate_after_succ]
    show SET_NODE_TREE_INDEX (SET_NODE_TREE_HEIGHT
      (validate_after P params leaf leafidx authpath ps addr (j + 1)).addr (j + 1))
      ((validate_after P params leaf leafidx authpath ps addr (j + 1)).leafidx >>> 1) = _
    rw [hl, hs2]
    exact (node_frame_set _ _ _ _ hf).1

/-! ## Agreement of the hash addresses -/

/-- Every `hash_2n_n` call of `l_tree` on the address of leaf `i`: the address handed over
is the L-tree address of leaf `i`, tree height `k`, tree index `j`, with the caller's bits
1..0 of byte 15. -/
theorem l_tree_calls_canon (P : Primitives) (params : xmss_params) (pk ps la : Bytes)
    (i kb : Nat) (hl : la.length = 16) (ht : la.take 13 = (ltree_address i 0 0).take 13)
    (hk : byte la 15 &&& 3 = kb) (k j : Nat) :
    let s := l_tree_loop P params.n ps k
      { wots_pk := pk, addr := SET_LTREE_TREE_HEIGHT la 0, l := params.wots_par.len,
        height := 0 }
    1 < s.l →
      clear_key_bits (l_tree_pairs P params.n ps (j + 1) s.wots_pk s.addr).2 =
          ltree_address i k j ∧
        byte (l_tree_pairs P params.n ps (j + 1) s.wots_pk s.addr).2 15 &&& 3 = kb := by
  intro s hs
  have h := l_tree_call_addr P params pk ps la hl k j hs
  obtain ⟨c1, c2⟩ := ltree_canon la i k j hl ht
  rw [h]
  exact ⟨c1, by rw [c2, hk]⟩

theorem ots_bit_zero_pre :
    (SET_OTS_BIT (List.replicate 16 0) 1).length = 16 ∧
      (SET_OTS_BIT (List.replicate 16 0) 1).take 9 = List.replicate 9 0 ∧
      byte (SET_OTS_BIT (List.replicate 16 0) 1) 9 &&& 252 = 0 := by
  decide

/-- **C20, as the code behaves.** Let `addr` be a 16-byte address with the all-zero
layer/tree prefix (bytes 0..8 zero, byte 9 bits 7..2 zero), and let the local arrays of
`treehash`, `compute_authpath_wots` and `xmss_sign_open` have held any contents `u`, `uv`.
(1) The OTS address that `get_seed` hands to `prg_with_counter` and that `wots_pkgen` then
receives for leaf `i < 2^23` in `treehash` and in `compute_authpath_wots`, the one
`wots_sign` receives in `xmss_sign` and the one `wots_pkFromSig` receives in
`xmss_sign_open` for index `i` are all `ots_address i`. (2) In every `hash_2n_n` call of
`l_tree`, for a leaf of `treehash`, of `compute_authpath_wots` or for the leaf of
`xmss_sign_open`, the address is `ltree_address i k j` in every bit except bits 1..0 of
byte 15, and those two bits are the ones the uninitialised array held. (3) In every
`hash_2n_n` call on tree nodes, in the merge loop of `treehash`, in the tree loop of
`compute_authpath_wots` and in `validate_authpath` as called by `xmss_sign_open`, the
address is `node_address k j` in every bit except bits 1..0 of byte 15, and those two
bits are the ones the uninitialised array held. The address `xmss_sign` passes to
`compute_authpath_wots` is `ots_address i`, which has the all-zero prefix. -/
theorem hash_addresses_agree (P : Primitives) (params : xmss_params) (u uv : Uninit)
    (h index : Nat) (sk ps addr : Bytes) (haddr : addr.length = 16)
    (hpre : addr.take 9 = List.replicate 9 0) (h9 : byte addr 9 &&& 252 = 0) :
    (∀ c, index + c < 2 ^ 23 →
      (get_seed P sk (SET_OTS_ADDRESS
        (treehash_after P params u h index sk ps addr c).ots_addr (index + c))).addr =
        ots_address (index + c)) ∧
    (∀ c, c < 2 ^ 23 →
      (get_seed P sk (SET_OTS_ADDRESS
        (authpath_leaves_after P params u sk ps addr c).ots_addr c)).addr = ots_address c) ∧
    (∀ i, i < 2 ^ 23 →
      (get_seed P sk (SET_OTS_ADDRESS (SET_OTS_BIT (List.replicate 16 0) 1) i)).addr =
          ots_address i ∧
        SET_OTS_ADDRESS (SET_OTS_BIT (List.replicate 16 0) 1) i = ots_address i) ∧
    (∀ (c k j : Nat) (pk : Bytes),
      let s := l_tree_loop P params.n ps k
        { wots_pk := pk,
          addr := SET_LTREE_TREE_HEIGHT (SET_LTREE_ADDRESS
            (treehash_after P params u h index sk ps addr c).ltree_addr (index + c)) 0,
          l := params.wots_par.len, height := 0 }
      1 < s.l →
        clear_key_bits (l_tree_pairs P params.n ps (j + 1) s.wots_pk s.addr).2 =
            ltree_address (index + c) k j ∧
          byte (l_tree_pairs P params.n ps (j + 1) s.wots_pk s.addr).2 15 &&& 3 =
            (u.ltree_addr 15 % 256) &&& 3) ∧
    (∀ (c k j : Nat) (pk : Bytes),
      let s := l_tree_loop P params.n ps k
        { wots_pk := pk,
          addr := SET_LTREE_TREE_HEIGHT (SET_LTREE_ADDRESS
            (authpath_leaves_after P params u sk ps addr c).ltree_addr c) 0,
          l := params.wots_par.len, height := 0 }
      1 < s.l →
        clear_key_bits (l_tree_pairs P params.n ps (j + 1) s.wots_pk s.addr).2 =
            ltree_address c k j ∧
          byte (l_tree_pairs P params.n ps (j + 1) s.wots_pk s.addr).2 15 &&& 3 =
            (u.ltree_addr 15 % 256) &&& 3) ∧
    (∀ (i k j : Nat) (pk : Bytes),
      let s := l_tree_loop P params.n ps k
        { wots_pk := pk,
          addr := SET_LTREE_TREE_HEIGHT (SET_LTREE_ADDRESS (open_ltree_addr uv) i) 0,
          l := params.wots_par.len, height := 0 }
      1 < s.l →
        clear_key_bits (l_tree_pairs P params.n ps (j + 1) s.wots_pk s.addr).2 =
            ltree_address i k j ∧
          byte (l_tree_pairs P params.n ps (j + 1) s.wots_pk s.addr).2 15 &&& 3 =
            (uv.ltree_addr 15 % 256) &&& 3) ∧
    (∀ c fuel : Nat,
      let s := treehash_merge P params.n ps (index + c) fuel
        (treehash_push P params sk ps (treehash_after P params u h index sk ps addr c)
          (index + c))
      (s.stackoffset > 1 ∧
        s.stacklevels.getD (s.stackoffset - 1) 0 = s.stacklevels.getD (s.stackoffset - 2) 0) →
        clear_key_bits (treehash_merge P params.n ps (index + c) 1 s).node_addr =
            node_address (s.stacklevels.getD (s.stackoffset - 1) 0)
              ((index + c) >>> (s.stacklevels.getD (s.stackoffset - 1) 0 + 1)) ∧
          byte (treehash_merge P params.n ps (index + c) 1 s).node_addr 15 &&& 3 =
            (u.node_addr 15 % 256) &&& 3) ∧
    (∀ k t : Nat,
      let s := authpath_rows_after P params u sk ps addr k
      0 < s.i →
        clear_key_bits (authpath_level_after P params.n ps s.i s.tree
            (SET_NODE_TREE_HEIGHT s.node_addr s.level) (t + 1)).2 = node_address k t ∧
          byte (authpath_level_after P params.n ps s.i s.tree
            (SET_NODE_TREE_HEIGHT s.node_addr s.level) (t + 1)).2 15 &&& 3 =
            (u.node_addr 15 % 256) &&& 3) ∧
    (∀ (leaf authpath : Bytes) (idx j : Nat),
      clear_key_bits (validate_after P params leaf idx authpath ps (open_node_addr uv)
          (j + 1)).addr = node_address j (idx >>> (j + 1)) ∧
        byte (validate_after P params leaf idx authpath ps (open_node_addr uv) (j + 1)).addr 15
          &&& 3 = (uv.node_addr 15 % 256) &&& 3 ∧
        clear_key_bits (SET_NODE_TREE_INDEX
          (SET_NODE_TREE_HEIGHT
            (validate_after P params leaf idx authpath ps (open_node_addr uv) j).addr j)
          ((validate_after P params leaf idx authpath ps (open_node_addr uv) j).leafidx >>> 1)) =
          node_address j (idx >>> (j + 1))) ∧
    (∀ i, (ots_address i).length = 16 ∧ (ots_address i).take 9 = List.replicate 9 0 ∧
      byte (ots_address i) 9 &&& 252 = 0) := by
  have hol : ltree_pre0 (open_ltree_addr uv) ((uv.ltree_addr 15 % 256) &&& 3) :=
    ltree_pre0_init _ uv.ltree_addr ots_bit_zero_pre.1 ots_bit_zero_pre.2.1 ots_bit_zero_pre.2.2
  have hon : node_pre (open_node_addr uv) ((uv.node_addr 15 % 256) &&& 3) :=
    node_pre_init _ _ _ hol
  have han : node_pre (authpath_node_init u addr) ((u.node_addr 15 % 256) &&& 3) :=
    node_pre_init _ _ _ (ltree_pre0_init addr u.ltree_addr haddr hpre h9)
  refine ⟨?_, ?_, ?_, ?_, ?_, ?_, ?_, ?_, ?_, fun i => ⟨rfl, rfl, by
    have e : (2 : Nat) &&& 252 = 0 := by decide
    simp [ots_address, byte, e]⟩⟩
  · intro c hc
    obtain ⟨t1, _, _, _⟩ := treehash_after_addrs P params u h index sk ps addr haddr hpre h9 c
    exact (ots_pre_step _ _ t1).2 hc
  · intro c hc
    obtain ⟨t1, _⟩ := authpath_leaves_addrs P params u sk ps addr haddr hpre h9 c
    exact (ots_pre_step _ _ t1).2 hc
  · intro i hi
    have e := (ots_pre_step _ i ots_pre_bit).2 hi
    refine ⟨e, ?_⟩
    rw [← e]
    simp only [ZEROISE_OTS_ADDR, SET_OTS_ADDRESS, SET_OTS_BIT, byte]
    have e2 : ∀ x : Nat, ((0 &&& 1) ||| x) &&& 254 = x &&& 254 := fun x => and1_or_and254 0 x
    simp [e2, shl1_and254]
  · intro c k j pk
    obtain ⟨_, t2, _, _⟩ := treehash_after_addrs P params u h index sk ps addr haddr hpre h9 c
    obtain ⟨l1, l2, l3⟩ := ltree_leaf_addr _ _ (index + c) t2
    exact l_tree_calls_canon P params pk ps _ (index + c) _ l1 l2 l3 k j
  · intro c k j pk
    obtain ⟨_, t2⟩ := authpath_leaves_addrs P params u sk ps addr haddr hpre h9 c
    obtain ⟨l1, l2, l3⟩ := ltree_leaf_addr _ _ c t2
    exact l_tree_calls_canon P params pk ps _ c _ l1 l2 l3 k j
  · intro i k j pk
    obtain ⟨l1, l2, l3⟩ := ltree_leaf_addr _ _ i hol
    exact l_tree_calls_canon P params pk ps _ i _ l1 l2 l3 k j
  · intro c fuel s ht
    obtain ⟨_, _, t3, t4⟩ := treehash_after_addrs P params u h index sk ps addr haddr hpre h9 c
    obtain ⟨m1, _, _⟩ := treehash_merge_addrs P params.n ps (index + c)
      (treehash_init params u h addr).node_addr fuel
      (treehash_push P params sk ps (treehash_after P params u h index sk ps addr c)
        (index + c)) t3
    obtain ⟨_, _, o3, _, _, _⟩ := treehash_merge_one P params.n ps (index + c) s ht
    rw [o3, (node_frame_set _ _ _ _ m1).1]
    exact node_canon _ _ _ _ t4
  · intro k t s hs
    obtain ⟨r1, r2⟩ := authpath_tree_loop_addr P params.n ps (authpath_node_init u addr) k
      { tree := (authpath_leaves_after P params u sk ps addr (1 <<< params.h)).tree,
        node_addr := authpath_node_init u addr, i := 1 <<< params.h, level := 0 }
      (node_frame_refl _ han.1)
    have hk : s.level = k := by
      have := r2 hs
      simpa using this
    have hah := node_frame_height _ _ s.level r1
    have e : (authpath_level_after P params.n ps s.i s.tree
        (SET_NODE_TREE_HEIGHT s.node_addr s.level) (t + 1)).2 =
        SET_NODE_TREE_INDEX (SET_NODE_TREE_HEIGHT (authpath_node_init u addr) s.level) t :=
      (authpath_level_addr P params.n ps _ s.level s.i s.tree _ hah t).2
    rw [e, hk]
    exact node_canon _ _ _ _ han
  · intro leaf authpath idx j
    obtain ⟨v1, v2, v3⟩ := validate_after_addr P params leaf idx authpath ps (open_node_addr uv)
      hon.1 j
    have hs : (idx >>> j) >>> 1 = idx >>> (j + 1) := by rw [← Nat.shiftRight_add]
    obtain ⟨c1, c2⟩ := node_canon _ _ j (idx >>> (j + 1)) hon
    refine ⟨by rw [v3]; exact c1, by rw [v3]; exact c2, ?_⟩
    rw [v2, hs, (node_frame_set _ _ _ _ v1).1]
    exact c1

set_option maxRecDepth 100000 in
/-- Instance of `hash_addresses_agree`: the all-zero address, arrays that held `ff` bytes,
the second leaf of `treehash`. -/
theorem hash_addresses_agree_witness :
    ((List.replicate 16 0).length = 16 ∧ (List.replicate 16 0).take 9 = List.replicate 9 0 ∧
      byte (List.replicate 16 0) 9 &&& 252 = 0 ∧ 0 + 1 < 2 ^ 23) ∧
    (get_seed mixPrims [1] (SET_OTS_ADDRESS
      (treehash_after mixPrims params1 onesStack 1 0 [1] [2] (List.replicate 16 0) 1).ots_addr
      (0 + 1))).addr = ots_address (0 + 1) :=
  ⟨⟨by decide, by decide, by decide, by decide⟩,
    (hash_addresses_agree mixPrims params1 onesStack onesStack 1 0 [1] [2] (List.replicate 16 0)
      (by decide) (by decide) (by decide)).1 1 (by decide)⟩

set_option maxRecDepth 100000 in
/-- **C20, counterexample.** The all-zero address and local arrays that held `ff` bytes:
for leaf 0 the OTS address that `treehash`, and likewise `compute_authpath_wots`, hands to
`get_seed` is `00 .. 00 02 00 00 01 ff ff ff`; its byte 12 bit 0 and bytes 13..15 are the
prior contents of the array, not zero. With arrays that held zeros it is
`00 .. 00 02 00 00 00 00 00 00`. -/
theorem get_seed_argument_uninitialised :
    SET_OTS_ADDRESS (treehash_after mixPrims params1 onesStack 1 0 [1] [2]
        (List.replicate 16 0) 0).ots_addr 0 =
        [0, 0, 0, 0, 0, 0, 0, 0, 0, 2, 0, 0, 1, 255, 255, 255] ∧
      SET_OTS_ADDRESS (authpath_leaves_after mixPrims params1 onesStack [1] [2]
        (List.replicate 16 0) 0).ots_addr 0 =
        [0, 0, 0, 0, 0, 0, 0, 0, 0, 2, 0, 0, 1, 255, 255, 255] ∧
      ots_address 0 = [0, 0, 0, 0, 0, 0, 0, 0, 0, 2, 0, 0, 0, 0, 0, 0] ∧
      SET_OTS_ADDRESS (treehash_after mixPrims params1 onesStack 1 0 [1] [2]
        (List.replicate 16 0) 0).ots_addr 0 ≠ ots_address 0 ∧
      SET_OTS_ADDRESS (treehash_after mixPrims params1 onesStack 1 0 [1] [2]
        (List.replicate 16 0) 0).ots_addr 0 ≠
        SET_OTS_ADDRESS (treehash_after mixPrims params1 zeroStack 1 0 [1] [2]
          (List.replicate 16 0) 0).ots_addr 0 := by
  decide

end XMSS
